import Mathlib

/-!
# learn-errgroup: bounded-concurrency launch loops with fail-fast cancellation

The five Go programs of the repository are embedded as follows.

* Every task function (`fetchUserInfo`, `crawlURL`, `processTask`, ...) is a
  single `time.Sleep` or a single `select` between a timer and a `Done`
  channel. It is translated to a `TaskBody`: the timer's duration, the value
  returned in the timer case, and the value returned in the `Done` case.
* Every `main` is translated to a `Program`: semaphore capacity, number of
  launched goroutines, timeout of the parent context and the body of the k-th
  goroutine.
* The Go runtime and the imported libraries (goroutine interleaving, buffered
  channel, `sync.WaitGroup`, `golang.org/x/sync/errgroup`, `context`) are a
  labelled transition system on `State`, following their documented behaviour:
  `step` performs one atomic action, `exec` a list of them. Time is counted in
  milliseconds. `step` lets an action happen at its due time or later
  (scheduling delay); `ustep` is the ideal clock, where time only passes when no
  action is enabled.
-/

namespace LearnErrgroup

set_option maxRecDepth 1000000

/-! ## Errors and contexts -/

/-- Go error values occurring in the programs. -/
inductive GoError
  | errorf (text : String)
  | canceled
  | deadlineExceeded
  deriving DecidableEq, Repr

/-- The test `errors.Is(err, target)`: true when `err` is the very value `target`
or wraps it. The context errors are package-level values, equal to themselves;
a value built by `fmt.Errorf` without `%w` is a fresh value that wraps nothing,
so it matches no target; neither does `nil`. -/
def errorsIs (err : Option GoError) (target : GoError) : Bool :=
  match err, target with
  | some GoError.canceled, GoError.canceled => true
  | some GoError.deadlineExceeded, GoError.deadlineExceeded => true
  | _, _ => false

/-- The case of a `select` (or the `time.Sleep`) through which a task function
left. -/
inductive Branch
  | work
  | done
  | timeout
  deriving DecidableEq, Repr

/-- The value `rand.Intn(n)` for a raw random draw `seed`. -/
def Intn (seed n : Nat) : Nat := seed % n

/-! ## Task functions and programs -/

/-- A task function: one timer raced against `Done` channels.
* `work`: duration in ms of `time.After` / `time.Sleep`;
* `onWork`: value returned by the timer case;
* `onDone`: present when the `select` has a case on the group context's
  `Done()`; the value returned there, from `ctx.Err()`;
* `ownTimeout`: present when the `select` has a case on the `Done()` of a
  private `context.WithTimeout(context.Background(), t)`; that case returns
  nothing. -/
structure TaskBody where
  work : Nat
  onWork : Option GoError
  onDone : Option (GoError → Option GoError)
  ownTimeout : Option Nat

/-- A launch loop.
* `capacity`: `make(chan struct{}, n)` used as semaphore, if the program has one;
* `taskCount`: number of goroutines `main` launches;
* `timeout`: `context.WithTimeout(parent, t)` under the group context, in ms;
* `task k`: the function run by the k-th launched goroutine (k from 0). -/
structure Program where
  capacity : Option Nat
  taskCount : Nat
  timeout : Option Nat
  task : Nat → TaskBody

/-- Life cycle of one launched function. -/
inductive TaskState
  | pending
  | running (start : Nat)
  | returned (b : Branch) (r : Option GoError)
  | released (b : Branch) (r : Option GoError)
  | completed (b : Branch) (r : Option GoError)
  deriving DecidableEq, Repr

/-- Where `main` stands: before the send on the semaphore, before the
`g.Go` / `go` statement, in `Wait`, or past `Wait` with its return value. -/
inductive MainPc
  | acquire
  | launch
  | wait
  | exited (r : Option GoError)
  deriving DecidableEq, Repr

/-- Global state of a running program.
* `now`: the clock, in ms since program start;
* `pc`, `next`: where `main` stands and how many goroutines it has launched;
* `sem`: number of values in the buffer of the semaphore channel;
* `wg`: counter of the `sync.WaitGroup` (the one inside `errgroup.Group`);
* `err`: the error stored in the group, `nil` at first;
* `ctxErr`: `Err()` of the group context, `nil` while it is not done;
* `status`: state of each launched function;
* `order`: the tasks in the order they reported to the group, with the value
  each returned.
In a program joined by a plain `sync.WaitGroup` no task returns a value or
watches the group context, so `err` and `ctxErr` play no part. -/
structure State where
  now : Nat
  pc : MainPc
  next : Nat
  sem : Nat
  wg : Nat
  err : Option GoError
  ctxErr : Option GoError
  status : Nat → TaskState
  order : List (Nat × Option GoError)

/-- Atomic actions. -/
inductive Action
  | send
  | go
  | work (i : Nat)
  | done (i : Nat)
  | timeout (i : Nat)
  | release (i : Nat)
  | report (i : Nat)
  | deadline
  | wait
  | tick (d : Nat)
  deriving DecidableEq, Repr

/-- Position of `main` at the head of the loop when `k` goroutines have been
launched. -/
def Program.loopHead (p : Program) (k : Nat) : MainPc :=
  if k < p.taskCount then
    (if p.capacity.isSome then MainPc.acquire else MainPc.launch)
  else MainPc.wait

/-- State at program start. -/
def init (p : Program) : State :=
  { now := 0, pc := p.loopHead 0, next := 0, sem := 0, wg := 0, err := none,
    ctxErr := none, status := fun _ => TaskState.pending, order := [] }

/-- Return value of `Wait`, once `main` is past it. -/
def State.result (s : State) : Option (Option GoError) :=
  match s.pc with
  | MainPc.exited r => some r
  | _ => none

/-- A task holds a semaphore slot from its admission until its deferred
receive. -/
def TaskState.holdsSlot : TaskState → Bool
  | TaskState.running _ => true
  | TaskState.returned _ _ => true
  | _ => false

/-- A launched goroutine that has not yet called `wg.Done()`. -/
def TaskState.live : TaskState → Bool
  | TaskState.running _ => true
  | TaskState.returned _ _ => true
  | TaskState.released _ _ => true
  | _ => false

/-- Goroutine finished, `wg.Done()` included. -/
def TaskState.isCompleted : TaskState → Bool
  | TaskState.completed _ _ => true
  | _ => false

/-- The value the task function returned, once it has returned. -/
def TaskState.value : TaskState → Option (Option GoError)
  | TaskState.returned _ r => some r
  | TaskState.released _ r => some r
  | TaskState.completed _ r => some r
  | _ => none

/-- The `select` case through which the task function left, once it has
returned. -/
def TaskState.branch : TaskState → Option Branch
  | TaskState.returned b _ => some b
  | TaskState.released b _ => some b
  | TaskState.completed b _ => some b
  | _ => none

/-- Number of indices below `n` satisfying `q`. -/
def countUpTo (q : Nat → Bool) : Nat → Nat
  | 0 => 0
  | n + 1 => countUpTo q n + (if q n then 1 else 0)

/-- Number of tasks in the Running state (admitted, slot not yet given back). -/
def State.runningCount (p : Program) (s : State) : Nat :=
  countUpTo (fun i => (s.status i).holdsSlot) p.taskCount

/-- One atomic action, with scheduling delay allowed: a timer case may run at
its due time or any later moment. `none` when the action is not enabled.
* `send`: `semaphore <- struct{}{}` in `main`; blocks while the buffer is full.
* `go`: `g.Go(func() error {...})`, or `wg.Add(1)` and the `go` statement; the
  goroutine starts and the timer of its body is armed at the current instant.
* `work i`: the case `<-time.After(duration)` of task `i`, or the return from
  `time.Sleep`.
* `done i`: the case `<-ctx.Done()` on the group context; needs a done context.
* `timeout i`: the case `<-ctx.Done()` on the task's private timeout context.
* `release i`: the deferred `<-semaphore` of task `i` (with no semaphore, the
  plain return of the function).
* `report i`: the goroutine wrapper of `errgroup`: a non-nil value is stored if
  it is the first one (`errOnce`), which also cancels the group context; then
  `wg.Done()`.
* `deadline`: the timer of `context.WithTimeout` fires; `ctx.Err()` becomes
  `DeadlineExceeded` unless the context is already done.
* `wait`: `g.Wait()` / `wg.Wait()` returns once the counter is zero; `errgroup`
  then cancels the group context and returns the stored error.
* `tick d`: `d` ms pass. -/
def step (p : Program) (a : Action) (s : State) : Option State :=
  match a with
  | Action.send =>
    match p.capacity with
    | some n =>
      if s.pc = MainPc.acquire ∧ s.sem < n then
        some { s with sem := s.sem + 1, pc := MainPc.launch }
      else none
    | none => none
  | Action.go =>
    if s.pc = MainPc.launch then
      some { s with
        status := Function.update s.status s.next (TaskState.running s.now)
        wg := s.wg + 1
        next := s.next + 1
        pc := p.loopHead (s.next + 1) }
    else none
  | Action.work i =>
    match s.status i with
    | TaskState.running st =>
      if st + (p.task i).work ≤ s.now then
        some { s with
          status := Function.update s.status i
            (TaskState.returned Branch.work (p.task i).onWork) }
      else none
    | _ => none
  | Action.done i =>
    match s.status i, (p.task i).onDone, s.ctxErr with
    | TaskState.running _, some f, some c =>
      some { s with
        status := Function.update s.status i (TaskState.returned Branch.done (f c)) }
    | _, _, _ => none
  | Action.timeout i =>
    match s.status i, (p.task i).ownTimeout with
    | TaskState.running st, some t =>
      if st + t ≤ s.now then
        some { s with
          status := Function.update s.status i (TaskState.returned Branch.timeout none) }
      else none
    | _, _ => none
  | Action.release i =>
    match s.status i with
    | TaskState.returned b r =>
      if p.capacity.isSome then
        (if 0 < s.sem then
          some { s with
            sem := s.sem - 1
            status := Function.update s.status i (TaskState.released b r) }
        else none)
      else
        some { s with status := Function.update s.status i (TaskState.released b r) }
    | _ => none
  | Action.report i =>
    match s.status i with
    | TaskState.released b r =>
      if 0 < s.wg then
        some { s with
          status := Function.update s.status i (TaskState.completed b r)
          wg := s.wg - 1
          err := if s.err.isNone then r else s.err
          ctxErr := if r.isSome ∧ s.err.isNone ∧ s.ctxErr.isNone
            then some GoError.canceled else s.ctxErr
          order := s.order ++ [(i, r)] }
      else none
    | _ => none
  | Action.deadline =>
    match p.timeout with
    | some t =>
      if t ≤ s.now ∧ s.ctxErr = none ∧ s.result = none then
        some { s with ctxErr := some GoError.deadlineExceeded }
      else none
    | none => none
  | Action.wait =>
    if s.pc = MainPc.wait ∧ s.wg = 0 then
      some { s with
        pc := MainPc.exited s.err
        ctxErr := if s.ctxErr.isNone then some GoError.canceled else s.ctxErr }
    else none
  | Action.tick d =>
    if 0 < d ∧ s.result = none then some { s with now := s.now + d } else none

/-- Run a list of actions from `s`; `none` as soon as one is not enabled. -/
def exec (p : Program) (s : State) : List Action → Option State
  | [] => some s
  | a :: rest => (step p a s).bind (fun s' => exec p s' rest)

/-- All actions other than the passing of time. -/
def discreteActions (p : Program) : List Action :=
  [Action.send, Action.go, Action.deadline, Action.wait] ++
    (List.range p.taskCount).flatMap (fun i =>
      [Action.work i, Action.done i, Action.timeout i, Action.release i, Action.report i])

/-- No action other than the passing of time is enabled. -/
def quiescent (p : Program) (s : State) : Bool :=
  (discreteActions p).all (fun a => (step p a s).isNone)

/-- Instants at which a pending timer or deadline fires. -/
def dues (p : Program) (s : State) : List Nat :=
  (match p.timeout, s.ctxErr with
    | some t, none => [t]
    | _, _ => []) ++
  (List.range p.taskCount).flatMap (fun i =>
    match s.status i with
    | TaskState.running st =>
      (st + (p.task i).work) ::
        (match (p.task i).ownTimeout with
          | some t => [st + t]
          | none => [])
    | _ => [])

/-- One atomic action under the ideal clock: time passes only while nothing else
can happen, and never beyond the next timer or deadline. -/
def ustep (p : Program) (a : Action) (s : State) : Option State :=
  match a with
  | Action.tick d =>
    if quiescent p s ∧ (dues p s).all (fun t => decide (s.now + d ≤ t)) then
      step p a s
    else none
  | _ => step p a s

/-- Run a list of actions under the ideal clock. -/
def uexec (p : Program) (s : State) : List Action → Option State
  | [] => some s
  | a :: rest => (ustep p a s).bind (fun s' => uexec p s' rest)

/-- States reached by some interleaving, with arbitrary scheduling delays. -/
def Reach (p : Program) (s : State) : Prop :=
  ∃ acts, exec p (init p) acts = some s

/-- States reached by some interleaving under the ideal clock. -/
def UReach (p : Program) (s : State) : Prop :=
  ∃ acts, uexec p (init p) acts = some s

/-- The first value of a list that is not `nil`: what `Wait` is said to return
for the values handed to the group in completion order. -/
def firstError : List (Option GoError) → Option GoError
  | [] => none
  | none :: rest => firstError rest
  | some e :: _ => some e

/-! ## errorgroup-base -/

namespace ErrorgroupBase

/-- Function `fetchUserInfo`: sleeps 1500ms, then fails. -/
def fetchUserInfo : TaskBody :=
  { work := 1500, onWork := some (GoError.errorf "获取用户信息失败"),
    onDone := none, ownTimeout := none }

/-- Function `fetchProductInfo`: sleeps 2000ms, then succeeds; never looks at
`ctx`. -/
def fetchProductInfo : TaskBody :=
  { work := 2000, onWork := none, onDone := none, ownTimeout := none }

/-- Function `fetchInventoryInfo`: 5000ms timer raced against `ctx.Done()`. -/
def fetchInventoryInfo : TaskBody :=
  { work := 5000, onWork := none, onDone := some (fun e => some e), ownTimeout := none }

/-- Function `main`: three `g.Go` calls on a group over `context.Background()`. -/
def main : Program :=
  { capacity := none, taskCount := 3, timeout := none,
    task := fun k =>
      if k = 0 then fetchUserInfo
      else if k = 1 then fetchProductInfo
      else fetchInventoryInfo }

end ErrorgroupBase

/-! ## channel-base -/

namespace ChannelBase

/-- Function `crawlURL`: a timer of 500+rand.Intn(500) ms raced against
`ctx.Done()`. -/
def crawlURL (seed : Nat) (_url : String) : TaskBody :=
  let crawlTime := 500 + Intn seed 500
  { work := crawlTime, onWork := none, onDone := some (fun e => some e),
    ownTimeout := none }

def urlsToCrawl : List String :=
  [ "http://example.com/page-1", "http://example.com/page-2",
    "http://example.com/page-3", "http://example.com/page-4",
    "http://example.com/page-5", "http://example.com/page-6",
    "http://example.com/page-7", "http://example.com/page-8",
    "http://example.com/page-9", "http://example.com/page-10" ]

def maxConcurrency : Nat := 5

/-- Function `main`: one goroutine per URL behind a semaphore of capacity 5; the
group context derives from `context.Background()`. `seed k` is the random draw
of the k-th goroutine. -/
def main (seed : Nat → Nat) : Program :=
  { capacity := some maxConcurrency, taskCount := urlsToCrawl.length, timeout := none,
    task := fun k => crawlURL (seed k) (urlsToCrawl.getD k "") }

end ChannelBase

/-! ## combine -/

namespace Combine

/-- The error of the failing task: `fmt.Errorf("任务 %d 执行失败", taskId)`. -/
def failure (taskId : Nat) : GoError := GoError.errorf s!"任务 {taskId} 执行失败"

/-- The error of a cancelled task:
`fmt.Errorf("任务%d在执行前接到取消信号", taskId)`. It wraps nothing. -/
def cancelNotice (taskId : Nat) : GoError :=
  GoError.errorf s!"任务{taskId}在执行前接到取消信号"

/-- Function `processTask`: timer of 700+rand.Intn(200) ms (2500 for task 8, 300
for task 15) raced against `ctx.Done()`; task 15 fails when its timer fires; a
cancelled task returns a fresh `fmt.Errorf` value, whatever `ctx.Err()` is. -/
def processTask (seed : Nat) (taskId : Nat) : TaskBody :=
  let duration := 700 + Intn seed 200
  let duration := if taskId = 8 then 2500 else duration
  let duration := if taskId = 15 then 300 else duration
  { work := duration
    onWork := if taskId = 15 then some (failure taskId) else none
    onDone := some (fun _ => some (cancelNotice taskId))
    ownTimeout := none }

def maxConcurrency : Nat := 4

def taskCount : Nat := 20

/-- Task `i` is in flight in state `s` of program `p`: launched and blocked in
the `select` of `processTask`, its timer not yet due. -/
def inFlight (p : Program) (s : State) (i : Nat) : Bool :=
  match s.status i with
  | TaskState.running st => decide (s.now < st + (p.task i).work)
  | _ => false

/-- Task `i` reports cancellation in state `s`: `processTask` left through the
`ctx.Done()` case and returned its cancellation notice. -/
def reportsCancelled (s : State) (i : Nat) : Bool :=
  decide ((s.status i).branch = some Branch.done ∧
    (s.status i).value = some (some (cancelNotice i)))

/-- The launch loop of `main` for a parent timeout of `timeout` ms; `main` itself
uses 6000. -/
def mainWith (timeout : Nat) (seed : Nat → Nat) : Program :=
  { capacity := some maxConcurrency, taskCount := taskCount, timeout := some timeout,
    task := fun k => processTask (seed k) k }

/-- Function `main`: `context.WithTimeout(parentCtx, 6*time.Second)`. -/
def main (seed : Nat → Nat) : Program := mainWith 6000 seed

end Combine

/-! ## combine-with-isolate-cancel -/

namespace IsolateCancel

/-- Function `processTask`: timer of 5s (tasks 4, 8, 12) or 1s raced against a
private 2s timeout; returns nothing. -/
def processTask (taskId : Nat) : TaskBody :=
  let duration := if taskId = 4 ∨ taskId = 8 ∨ taskId = 12 then 5000 else 1000
  { work := duration, onWork := none, onDone := none, ownTimeout := some 2000 }

def maxConcurrency : Nat := 3

def taskCount : Nat := 15

/-- Function `main`: `for i := 1; i <= taskCount; i++` behind a semaphore of
capacity 3, joined by a `sync.WaitGroup`. The k-th goroutine (k from 0) has
`taskId = k+1`. -/
def main : Program :=
  { capacity := some maxConcurrency, taskCount := taskCount, timeout := none,
    task := fun k => processTask (k + 1) }

end IsolateCancel

/-! ## errgroup-timeout -/

namespace ErrgroupTimeout

/-- A `context.Context` as seen by a call that starts at time 0: `done` is
`none` for a context that is never done, and `some (t, e)` when `Done()` is
closed at instant `t` (ms) and `Err()` reports `e` from then on. -/
structure Context where
  done : Option (Nat × GoError)
  deriving DecidableEq, Repr

/-- The context `context.Background()`: never done. -/
def background : Context := { done := none }

/-- The context `context.WithTimeout(parent, d)`: done at `d` with
`DeadlineExceeded`, unless the parent is done earlier. -/
def withTimeout (parent : Context) (d : Nat) : Context :=
  match parent.done with
  | some (t, _) => if t ≤ d then parent else { done := some (d, GoError.deadlineExceeded) }
  | none => { done := some (d, GoError.deadlineExceeded) }

/-- Function `callSlowAPI`: a `select` between `time.After(5 * time.Second)` and
`ctx.Done()`. The case that becomes ready first runs; when both become ready at
the same instant the runtime picks one, here according to `pick`. The `Done`
case returns `"", ctx.Err()`. -/
def callSlowAPI (ctx : Context) (pick : Bool) : String × Option GoError :=
  match ctx.done with
  | none => ("成功获取API数据", none)
  | some (t, e) =>
    if 5000 < t then ("成功获取API数据", none)
    else if t < 5000 then ("", some e)
    else if pick then ("成功获取API数据", none)
    else ("", some e)

/-- The context `main` builds: `context.WithTimeout(parentCtx, 6*time.Second)`. -/
def mainCtx : Context := withTimeout background 6000

/-- Function `main`: the pair `result, err` it receives from `callSlowAPI(ctx)`. -/
def main (pick : Bool) : String × Option GoError := callSlowAPI mainCtx pick

/-- What `main` does with the pair: `true` when it takes the `err != nil` branch
and `errors.Is(err, context.DeadlineExceeded)` holds, so that the line
"错误类型是：任务超时" is printed. -/
def mainReportsTimeout (pick : Bool) : Bool :=
  match main pick with
  | (_, some e) => errorsIs (some e) GoError.deadlineExceeded
  | (_, none) => false

/-- The context built from `context.Background()` with the deadline `d`, if
any. -/
def contextOf (d : Option Nat) : Context :=
  match d with
  | none => background
  | some t => withTimeout background t

/-- The `select` of `callSlowAPI` as a task body of the runtime model: a 5000ms
timer whose case returns a `nil` error, raced against `ctx.Done()`, whose case
returns `ctx.Err()`. -/
def selectBody : TaskBody :=
  { work := 5000, onWork := none, onDone := some (fun e => some e), ownTimeout := none }

/-- The call `callSlowAPI(ctx)` run by the runtime model: a single function
with the body `selectBody`, started at time 0 under a context with deadline
`d`. -/
def raceProgram (d : Option Nat) : Program :=
  { capacity := none, taskCount := 1, timeout := d, task := fun _ => selectBody }

/-- The pair `callSlowAPI` returns from the case `b` of its `select`: the timer
case returns `"成功获取API数据", nil`, the `ctx.Done()` case returns `""` with
the error `v` read from `ctx.Err()`. -/
def selectResult (b : Branch) (v : Option GoError) : String × Option GoError :=
  match b with
  | Branch.work => ("成功获取API数据", none)
  | _ => ("", v)

end ErrgroupTimeout

/-! ## Concrete runs -/

/-- The test `f` on the state reached by `acts` with scheduling delays allowed;
`false` when `acts` cannot be executed. -/
def checkAfter (p : Program) (acts : List Action) (f : State → Bool) : Bool :=
  match exec p (init p) acts with
  | some s => f s
  | none => false

/-- The test `f` on the state reached by `acts` under the ideal clock; `false`
when `acts` cannot be executed. -/
def ucheckAfter (p : Program) (acts : List Action) (f : State → Bool) : Bool :=
  match uexec p (init p) acts with
  | some s => f s
  | none => false

/-- The random draws used in the concrete runs: every `rand.Intn` returns 0. -/
def zeroSeed : Nat → Nat := fun _ => 0

/-- The loop of `main` sends on the semaphore and launches the next task. -/
def launchNext : List Action := [Action.send, Action.go]

/-- Task `i` leaves through its timer case, gives its slot back and reports. -/
def finishWork (i : Nat) : List Action := [Action.work i, Action.release i, Action.report i]

/-- Task `i` leaves through its `ctx.Done()` case, gives its slot back and
reports. -/
def finishDone (i : Nat) : List Action := [Action.done i, Action.release i, Action.report i]

/-- Task `i` leaves through its private timeout, gives its slot back and
reports. -/
def finishTimeout (i : Nat) : List Action :=
  [Action.timeout i, Action.release i, Action.report i]

/-- A run of combine with `zeroSeed`: the first four tasks have been admitted. -/
def combineFull : List Action := launchNext ++ launchNext ++ launchNext ++ launchNext

/-- A run of combine with `zeroSeed` under the ideal clock, up to the moment
task 15 has failed and the group has cancelled its context (3100ms); tasks 8, 16
and 17 are Running, tasks 18 and 19 have not been admitted yet. -/
def combineUntilFailure : List Action :=
  combineFull ++ [Action.tick 700] ++ [0, 1, 2, 3].flatMap finishWork ++
  launchNext ++ launchNext ++ launchNext ++ launchNext ++ [Action.tick 700] ++
  [4, 5, 6, 7].flatMap finishWork ++
  launchNext ++ launchNext ++ launchNext ++ launchNext ++ [Action.tick 700] ++
  [9, 10, 11].flatMap finishWork ++
  launchNext ++ launchNext ++ launchNext ++ [Action.tick 700] ++
  [12, 13, 14].flatMap finishWork ++
  launchNext ++ launchNext ++ launchNext ++ [Action.tick 300] ++ finishWork 15

/-- The rest of that run of combine, up to the return of `Wait`. -/
def combineAfterFailure : List Action :=
  [8, 16, 17].flatMap finishDone ++ launchNext ++ finishDone 18 ++
  launchNext ++ finishDone 19 ++ [Action.wait]

/-- A run of the combine loop with a 500ms parent timeout under the ideal
clock, up to the instant of the deadline: tasks 0..3 are in flight, none has
failed, the deadline has not expired yet. -/
def deadlineBeforeExpiry : List Action :=
  combineFull ++ [Action.tick 500]

/-- That run, up to the expiry of the deadline. -/
def deadlineUntilExpiry : List Action :=
  deadlineBeforeExpiry ++ [Action.deadline]

/-- The rest of that run: every task observes `ctx.Done()`. -/
def deadlineAfterExpiry : List Action :=
  [0, 1, 2, 3].flatMap finishDone ++
  (List.range' 4 16).flatMap (fun k => launchNext ++ finishDone k) ++ [Action.wait]

/-- A run of the combine loop with a 700ms parent timeout (`zeroSeed`, ideal
clock): the deadline expires at the very instant the timers of tasks 0..3 fire,
and task 0 leaves through its timer case. -/
def tieRun : List Action :=
  combineFull ++ [Action.tick 700, Action.deadline, Action.work 0]

/-- The scenario "capacity 1, five tasks, the first one fails immediately" as an
instance of the launch loop. -/
def limiterScenario : Program :=
  { capacity := some 1, taskCount := 5, timeout := none,
    task := fun k =>
      if k = 0 then
        { work := 0, onWork := some (GoError.errorf "task 1 failed"),
          onDone := some (fun e => some e), ownTimeout := none }
      else
        { work := 10000, onWork := none, onDone := some (fun e => some e),
          ownTimeout := none } }

/-- A run of `limiterScenario` up to the cancellation caused by the first
task. -/
def scenarioUntilCancel : List Action := launchNext ++ finishWork 0

/-- A run of combine-with-isolate-cancel under the ideal clock, up to the return
of `wg.Wait`. -/
def isolateRun : List Action :=
  launchNext ++ launchNext ++ launchNext ++ [Action.tick 1000] ++
  [0, 1, 2].flatMap finishWork ++
  launchNext ++ launchNext ++ launchNext ++ [Action.tick 1000] ++
  [4, 5].flatMap finishWork ++
  launchNext ++ launchNext ++ [Action.tick 1000] ++ finishTimeout 3 ++ finishWork 6 ++
  launchNext ++ launchNext ++ [Action.tick 1000] ++ finishTimeout 7 ++
  [8, 9].flatMap finishWork ++
  launchNext ++ launchNext ++ launchNext ++ [Action.tick 1000] ++
  [10, 12].flatMap finishWork ++
  launchNext ++ launchNext ++ [Action.tick 1000] ++ finishTimeout 11 ++
  [13, 14].flatMap finishWork ++ [Action.wait]

/-- A run of channel-base with `zeroSeed` under the ideal clock, up to the return
of `Wait`. -/
def channelRun : List Action :=
  launchNext ++ launchNext ++ launchNext ++ launchNext ++ launchNext ++
  [Action.tick 500] ++ [0, 1, 2, 3, 4].flatMap finishWork ++
  launchNext ++ launchNext ++ launchNext ++ launchNext ++ launchNext ++
  [Action.tick 500] ++ [5, 6, 7, 8, 9].flatMap finishWork ++ [Action.wait]

/-- A run of errorgroup-base under the ideal clock: `fetchUserInfo` fails at
1500ms, `fetchInventoryInfo` observes the cancellation, `fetchProductInfo`
returns at 2000ms. -/
def errorgroupUntilFailure : List Action :=
  [Action.go, Action.go, Action.go, Action.tick 1500, Action.work 0, Action.release 0,
   Action.report 0]

/-- The rest of that run, up to the return of `Wait`. -/
def errorgroupRest : List Action :=
  [Action.done 2, Action.release 2, Action.report 2, Action.tick 500, Action.work 1,
   Action.release 1, Action.report 1, Action.wait]

/-! ## Termination measure -/

/-- Sum of `f` over the indices below `n`. -/
def sumUpTo (f : Nat → Nat) : Nat → Nat
  | 0 => 0
  | n + 1 => sumUpTo f n + f n

/-- Atomic actions a task still has to perform: leave its body, give the slot
back, report to the group. -/
def TaskState.stepsLeft : TaskState → Nat
  | TaskState.pending => 3
  | TaskState.running _ => 3
  | TaskState.returned _ _ => 2
  | TaskState.released _ _ => 1
  | TaskState.completed _ _ => 0

/-- Atomic actions `main` still has to perform. -/
def mainLeft (p : Program) (s : State) : Nat :=
  match s.pc with
  | MainPc.acquire => 2 * (p.taskCount - s.next) + 1
  | MainPc.launch =>
    if p.capacity.isSome then 2 * (p.taskCount - s.next) else (p.taskCount - s.next) + 1
  | MainPc.wait => 1
  | MainPc.exited _ => 0

/-- Number of atomic actions other than the passing of time that can still
happen. -/
def stepsLeft (p : Program) (s : State) : Nat :=
  mainLeft p s + sumUpTo (fun i => (s.status i).stepsLeft) p.taskCount +
    (if p.timeout.isSome ∧ s.ctxErr = none then 1 else 0)

/-- Total time to the pending timers and deadlines. -/
def timeLeft (p : Program) (s : State) : Nat :=
  ((dues p s).map (fun t => t - s.now)).sum

/-- Under the ideal clock the program always reaches the return of `Wait`: a
state in which `Wait` has not returned has a successor, and no run goes on for
ever. -/
def AlwaysReturns (p : Program) : Prop :=
  (∀ s, UReach p s → s.result = none → ∃ a s', ustep p a s = some s') ∧
  ¬ ∃ f : Nat → State, f 0 = init p ∧ ∀ n, ∃ a, ustep p a (f n) = some (f (n + 1))

/-! ## Counting acquires and releases along a run -/

/-- The deferred receive `<-semaphore` of some task. -/
def Action.isRelease : Action → Bool
  | Action.release _ => true
  | _ => false

/-- Number of sends on the semaphore in a run. -/
def acquires (acts : List Action) : Nat := acts.count Action.send

/-- Number of receives from the semaphore in a run. -/
def releases (acts : List Action) : Nat := acts.countP Action.isRelease

/-- Number of receives from the semaphore by task `i` in a run. -/
def releasesOf (i : Nat) (acts : List Action) : Nat := acts.count (Action.release i)

/-- The task has run its deferred receive. -/
def TaskState.hasReleased : TaskState → Bool
  | TaskState.released _ _ => true
  | TaskState.completed _ _ => true
  | _ => false

/-- Run invariant: the sends and receives performed so far agree with the
loop counter, the occupancy and the task states. -/
structure TraceInv (p : Program) (acts : List Action) (s : State) : Prop where
  acq : p.capacity.isSome = true →
    acquires acts = s.next + (if s.pc = MainPc.launch then 1 else 0)
  bal : p.capacity.isSome = true → acquires acts = s.sem + releases acts
  rel : ∀ i, releasesOf i acts = if (s.status i).hasReleased = true then 1 else 0

/-- Release pairing for the program `p`: in every run in which `Wait` returns,
the occupancy is back to 0, every task was admitted, ran to completion and gave
its slot back exactly once, and there are as many receives as sends. -/
def ReleasePairing (p : Program) : Prop :=
  ∀ acts s r, exec p (init p) acts = some s → s.pc = MainPc.exited r →
    s.sem = 0 ∧ acquires acts = p.taskCount ∧ releases acts = acquires acts ∧
    (∀ i, i < p.taskCount → releasesOf i acts = 1 ∧ (s.status i).isCompleted = true) ∧
    (∀ i, p.taskCount ≤ i → releasesOf i acts = 0)

/-! ## Invariants -/

/-- Bookkeeping invariant: the loop counter, the channel occupancy and the
WaitGroup counter agree with the task states. -/
structure Inv (p : Program) (s : State) : Prop where
  next_le : s.next ≤ p.taskCount
  pending : ∀ i, s.status i = TaskState.pending ↔ s.next ≤ i
  loop : s.pc = p.loopHead s.next ∨
    (s.pc = MainPc.launch ∧ s.next < p.taskCount ∧ p.capacity.isSome = true) ∨
    (∃ r, s.pc = MainPc.exited r ∧ s.next = p.taskCount ∧ s.wg = 0)
  sem_eq : s.sem = if p.capacity.isSome = true then
      s.runningCount p + (if s.pc = MainPc.launch then 1 else 0)
    else 0
  sem_le : ∀ n, p.capacity = some n → s.sem ≤ n
  wg_eq : s.wg = countUpTo (fun i => (s.status i).live) p.taskCount

/-- Completion-order invariant: `order` lists each completed task once, with
the value it handed to the group, and `err` is the first non-nil value in that
order. -/
structure OrdInv (p : Program) (s : State) : Prop where
  nodup : (s.order.map Prod.fst).Nodup
  mem : ∀ i e, (i, e) ∈ s.order ↔ ∃ b, s.status i = TaskState.completed b e
  err_eq : s.err = firstError (s.order.map Prod.snd)
  exit_eq : ∀ r, s.pc = MainPc.exited r → r = s.err

/-- Provenance invariant: what a returned task returned and when, and why the
group context is done. -/
structure RunInv (p : Program) (s : State) : Prop where
  work_val : ∀ i r, (s.status i).branch = some Branch.work → (s.status i).value = some r →
    r = (p.task i).onWork
  work_time : ∀ i, (s.status i).branch = some Branch.work → (p.task i).work ≤ s.now
  done_val : ∀ i r, (s.status i).branch = some Branch.done → (s.status i).value = some r →
    ∃ f c, (p.task i).onDone = some f ∧ s.ctxErr = some c ∧ r = f c
  tmo_val : ∀ i r, (s.status i).branch = some Branch.timeout → (s.status i).value = some r →
    r = none ∧ ∃ t, (p.task i).ownTimeout = some t ∧ t ≤ s.now
  ctx_cause : ∀ c, s.ctxErr = some c →
    (c = GoError.deadlineExceeded ∧ ∃ t, p.timeout = some t ∧ t ≤ s.now) ∨
    (c = GoError.canceled ∧ (s.err ≠ none ∨ s.result ≠ none))
  err_ctx : s.err ≠ none → s.ctxErr ≠ none
  completed_err : ∀ i b e, s.status i = TaskState.completed b (some e) → s.err ≠ none
  start_le : ∀ i st, s.status i = TaskState.running st → st ≤ s.now

/-- Root-cause invariant of a group whose context has no deadline: a task only
sees `Done` after an error has been recorded, so the recorded error never comes
from a `Done` case. -/
structure RootInv (p : Program) (s : State) : Prop where
  done_after : ∀ i, (s.status i).branch = some Branch.done → s.err ≠ none
  origin : ∀ e, s.err = some e →
    ∃ i b, s.status i = TaskState.completed b (some e) ∧ b ≠ Branch.done

/-- Ideal-clock invariant: time never passes a pending timer or deadline, so a
task leaves through the case that becomes ready first. -/
structure UInv (p : Program) (s : State) : Prop where
  run_work : ∀ i st, s.status i = TaskState.running st → s.now ≤ st + (p.task i).work
  run_tmo : ∀ i st t, s.status i = TaskState.running st → (p.task i).ownTimeout = some t →
    s.now ≤ st + t
  ddl : ∀ T, p.timeout = some T → s.ctxErr = none → s.now ≤ T
  br_work : ∀ i t, (s.status i).branch = some Branch.work → (p.task i).ownTimeout = some t →
    (p.task i).work ≤ t
  br_tmo : ∀ i t, (s.status i).branch = some Branch.timeout →
    (p.task i).ownTimeout = some t → t ≤ (p.task i).work

/-- Invariant of `ErrgroupTimeout.raceProgram d` under the ideal clock: the call
starts at time 0, the clock does not pass the deadline while the `select` is
waiting, the timer case only runs with a deadline of 5000ms or more, and the
`Done` case only runs on a deadline of 5000ms or less, with `DeadlineExceeded`. -/
structure RaceInv (d : Option Nat) (s : State) : Prop where
  at_launch : s.pc = MainPc.launch → s.now = 0
  start0 : ∀ st, s.status 0 = TaskState.running st → st = 0
  run_before : ∀ st t, s.status 0 = TaskState.running st → d = some t → s.now ≤ t
  work_late : (s.status 0).branch = some Branch.work → ∀ t, d = some t → 5000 ≤ t
  done_de : (s.status 0).branch = some Branch.done →
    s.ctxErr = some GoError.deadlineExceeded
  done_early : (s.status 0).branch = some Branch.done → ∃ t, d = some t ∧ t ≤ 5000

/-- Latest instant (ms) at which task `k` of combine is admitted under the ideal
clock while no task has failed: tasks 0..3 at 0, then one round of at most 899ms
per group of tasks, task 8 holding its slot for 2500ms. -/
def Combine.admitBound (k : Nat) : Nat :=
  if k < 4 then 0
  else if k < 8 then 899
  else if k < 12 then 1798
  else if k < 15 then 2697
  else 3596

/-- Tasks launched before task `k` that may still hold their slot after
`admitBound k`: task 8, and the tasks admitted too late. -/
def Combine.slow (k i : Nat) : Bool :=
  decide (i < k) &&
    (decide (i = 8) || decide (Combine.admitBound k < Combine.admitBound i + 899))

/-- Invariant of combine under the ideal clock: until task 15 has failed, no
error is recorded, the context is not done, every task was admitted by its
bound and the clock is at most 3896ms; the only error ever recorded is the one
of task 15, returned from its timer case. -/
structure CombineInv (s : State) : Prop where
  err_cases : s.err = none ∨ s.err = some (Combine.failure 15)
  origin : s.err ≠ none →
    s.status 15 = TaskState.completed Branch.work (some (Combine.failure 15))
  ctx : s.err = none → s.ctxErr = none
  start : s.err = none → ∀ i st, s.status i = TaskState.running st → i ≤ 15 →
    st ≤ Combine.admitBound i
  head : s.err = none → s.next ≤ 15 → s.now ≤ Combine.admitBound s.next
  time : s.err = none → s.now ≤ 3896

/-! ## Basic facts about the transition system -/

theorem step_send_inv {p : Program} {s s' : State} (h : step p Action.send s = some s') :
    ∃ n, p.capacity = some n ∧ s.pc = MainPc.acquire ∧ s.sem < n ∧
      s' = { s with sem := s.sem + 1, pc := MainPc.launch } := by
  simp only [step] at h
  split at h
  · rename_i n hn
    split_ifs at h with hg
    exact ⟨n, hn, hg.1, hg.2, (Option.some.inj h).symm⟩
  · cases h

theorem step_go_inv {p : Program} {s s' : State} (h : step p Action.go s = some s') :
    s.pc = MainPc.launch ∧
      s' = { s with
        status := Function.update s.status s.next (TaskState.running s.now)
        wg := s.wg + 1
        next := s.next + 1
        pc := p.loopHead (s.next + 1) } := by
  simp only [step] at h
  split_ifs at h with hg
  exact ⟨hg, (Option.some.inj h).symm⟩

theorem step_work_inv {p : Program} {s s' : State} {i : Nat}
    (h : step p (Action.work i) s = some s') :
    ∃ st, s.status i = TaskState.running st ∧ st + (p.task i).work ≤ s.now ∧
      s' = { s with
        status := Function.update s.status i
          (TaskState.returned Branch.work (p.task i).onWork) } := by
  simp only [step] at h
  split at h
  · rename_i st hst
    split_ifs at h with hg
    exact ⟨st, hst, hg, (Option.some.inj h).symm⟩
  · cases h

theorem step_done_inv {p : Program} {s s' : State} {i : Nat}
    (h : step p (Action.done i) s = some s') :
    ∃ st f c, s.status i = TaskState.running st ∧ (p.task i).onDone = some f ∧
      s.ctxErr = some c ∧
      s' = { s with
        status := Function.update s.status i (TaskState.returned Branch.done (f c)) } := by
  simp only [step] at h
  split at h
  · rename_i st f c hst hf hc
    exact ⟨st, f, c, hst, hf, hc, (Option.some.inj h).symm⟩
  · cases h

theorem step_timeout_inv {p : Program} {s s' : State} {i : Nat}
    (h : step p (Action.timeout i) s = some s') :
    ∃ st t, s.status i = TaskState.running st ∧ (p.task i).ownTimeout = some t ∧
      st + t ≤ s.now ∧
      s' = { s with
        status := Function.update s.status i (TaskState.returned Branch.timeout none) } := by
  simp only [step] at h
  split at h
  · rename_i st t hst ht
    split_ifs at h with hg
    exact ⟨st, t, hst, ht, hg, (Option.some.inj h).symm⟩
  · cases h

theorem step_release_inv {p : Program} {s s' : State} {i : Nat}
    (h : step p (Action.release i) s = some s') :
    ∃ b r, s.status i = TaskState.returned b r ∧
      (p.capacity.isSome = true → 0 < s.sem) ∧
      s' = { s with
        sem := if p.capacity.isSome then s.sem - 1 else s.sem
        status := Function.update s.status i (TaskState.released b r) } := by
  simp only [step] at h
  split at h
  · rename_i b r hst
    split_ifs at h with hc hg
    · exact ⟨b, r, hst, fun _ => hg, by rw [if_pos hc]; exact (Option.some.inj h).symm⟩
    · refine ⟨b, r, hst, fun hc' => absurd hc' hc, ?_⟩
      rw [if_neg hc]; exact (Option.some.inj h).symm
  · cases h

theorem step_report_inv {p : Program} {s s' : State} {i : Nat}
    (h : step p (Action.report i) s = some s') :
    ∃ b r, s.status i = TaskState.released b r ∧ 0 < s.wg ∧
      s' = { s with
        status := Function.update s.status i (TaskState.completed b r)
        wg := s.wg - 1
        err := if s.err.isNone then r else s.err
        ctxErr := if r.isSome ∧ s.err.isNone ∧ s.ctxErr.isNone
          then some GoError.canceled else s.ctxErr
        order := s.order ++ [(i, r)] } := by
  simp only [step] at h
  split at h
  · rename_i b r hst
    by_cases hg : 0 < s.wg
    · rw [if_pos hg] at h
      exact ⟨b, r, hst, hg, (Option.some.inj h).symm⟩
    · rw [if_neg hg] at h
      cases h
  · cases h

theorem step_deadline_inv {p : Program} {s s' : State}
    (h : step p Action.deadline s = some s') :
    ∃ t, p.timeout = some t ∧ t ≤ s.now ∧ s.ctxErr = none ∧ s.result = none ∧
      s' = { s with ctxErr := some GoError.deadlineExceeded } := by
  simp only [step] at h
  split at h
  · rename_i t ht
    split_ifs at h with hg
    exact ⟨t, ht, hg.1, hg.2.1, hg.2.2, (Option.some.inj h).symm⟩
  · cases h

theorem step_wait_inv {p : Program} {s s' : State} (h : step p Action.wait s = some s') :
    s.pc = MainPc.wait ∧ s.wg = 0 ∧
      s' = { s with
        pc := MainPc.exited s.err
        ctxErr := if s.ctxErr.isNone then some GoError.canceled else s.ctxErr } := by
  simp only [step] at h
  by_cases hg : s.pc = MainPc.wait ∧ s.wg = 0
  · rw [if_pos hg] at h
    exact ⟨hg.1, hg.2, (Option.some.inj h).symm⟩
  · rw [if_neg hg] at h
    cases h

theorem step_tick_inv {p : Program} {s s' : State} {d : Nat}
    (h : step p (Action.tick d) s = some s') :
    0 < d ∧ s.result = none ∧ s' = { s with now := s.now + d } := by
  simp only [step] at h
  split_ifs at h with hg
  exact ⟨hg.1, hg.2, (Option.some.inj h).symm⟩

theorem exec_append (p : Program) (s : State) (l₁ l₂ : List Action) :
    exec p s (l₁ ++ l₂) = (exec p s l₁).bind (fun s' => exec p s' l₂) := by
  induction l₁ generalizing s with
  | nil => simp [exec]
  | cons a l ih =>
    simp only [List.cons_append, exec]
    cases step p a s with
    | none => simp
    | some s₁ => simpa using ih s₁

theorem uexec_append (p : Program) (s : State) (l₁ l₂ : List Action) :
    uexec p s (l₁ ++ l₂) = (uexec p s l₁).bind (fun s' => uexec p s' l₂) := by
  induction l₁ generalizing s with
  | nil => simp [uexec]
  | cons a l ih =>
    simp only [List.cons_append, uexec]
    cases ustep p a s with
    | none => simp
    | some s₁ => simpa using ih s₁

theorem ustep_step {p : Program} {a : Action} {s s' : State} (h : ustep p a s = some s') :
    step p a s = some s' := by
  cases a <;> simp only [ustep] at h <;> try exact h
  split_ifs at h
  exact h

theorem uexec_exec {p : Program} {acts : List Action} {s s' : State}
    (h : uexec p s acts = some s') : exec p s acts = some s' := by
  induction acts generalizing s with
  | nil => simpa [uexec, exec] using h
  | cons a l ih =>
    simp only [uexec] at h
    cases hu : ustep p a s with
    | none => simp [hu] at h
    | some s₁ =>
      simp only [hu, Option.some_bind] at h
      simp only [exec, ustep_step hu, Option.some_bind]
      exact ih h

theorem UReach.reach {p : Program} {s : State} (h : UReach p s) : Reach p s := by
  obtain ⟨acts, ha⟩ := h
  exact ⟨acts, uexec_exec ha⟩

/-- Induction over the executions of a program, with the list of actions
performed so far. -/
theorem exec_induction (p : Program) (P : List Action → State → Prop)
    (h0 : P [] (init p))
    (hs : ∀ acts s a s', exec p (init p) acts = some s → P acts s →
      step p a s = some s' → P (acts ++ [a]) s') :
    ∀ acts s, exec p (init p) acts = some s → P acts s := by
  intro acts
  induction acts using List.reverseRecOn with
  | nil =>
    intro s h
    simp only [exec, Option.some.injEq] at h
    subst h; exact h0
  | append_singleton l a ih =>
    intro s h
    rw [exec_append] at h
    cases hl : exec p (init p) l with
    | none => simp [hl] at h
    | some s₁ =>
      simp only [hl, Option.some_bind, exec] at h
      cases hst : step p a s₁ with
      | none => simp [hst] at h
      | some s₂ =>
        simp only [hst, Option.some_bind, Option.some.injEq] at h
        subst h
        exact hs l s₁ a s₂ hl (ih s₁ hl) hst

theorem reach_induction (p : Program) (P : State → Prop) (h0 : P (init p))
    (hs : ∀ s a s', Reach p s → P s → step p a s = some s' → P s') :
    ∀ s, Reach p s → P s := by
  rintro s ⟨acts, h⟩
  exact exec_induction p (fun _ s => P s) h0
    (fun acts s a s' he hP hst => hs s a s' ⟨acts, he⟩ hP hst) acts s h

theorem Reach.succ_state {p : Program} {a : Action} {s s' : State} (h : Reach p s)
    (hst : step p a s = some s') : Reach p s' := by
  obtain ⟨acts, ha⟩ := h
  refine ⟨acts ++ [a], ?_⟩
  rw [exec_append, ha]
  simp [exec, hst]

theorem UReach.usucc_state {p : Program} {a : Action} {s s' : State} (h : UReach p s)
    (hst : ustep p a s = some s') : UReach p s' := by
  obtain ⟨acts, ha⟩ := h
  refine ⟨acts ++ [a], ?_⟩
  rw [uexec_append, ha]
  simp [uexec, hst]

theorem ureach_induction (p : Program) (P : State → Prop) (h0 : P (init p))
    (hs : ∀ s a s', UReach p s → P s → ustep p a s = some s' → P s') :
    ∀ s, UReach p s → P s := by
  rintro s ⟨acts, h⟩
  induction acts using List.reverseRecOn generalizing s with
  | nil =>
    simp only [uexec, Option.some.injEq] at h
    subst h; exact h0
  | append_singleton l a ih =>
    rw [uexec_append] at h
    cases hl : uexec p (init p) l with
    | none => simp [hl] at h
    | some s₁ =>
      simp only [hl, Option.some_bind, uexec] at h
      cases hst : ustep p a s₁ with
      | none => simp [hst] at h
      | some s₂ =>
        simp only [hst, Option.some_bind, Option.some.injEq] at h
        subst h
        exact hs s₁ a s₂ ⟨l, hl⟩ (ih s₁ hl) hst

/-! ## Counting -/

theorem countUpTo_le (q : Nat → Bool) (n : Nat) : countUpTo q n ≤ n := by
  induction n with
  | zero => simp [countUpTo]
  | succ n ih =>
    simp only [countUpTo]
    split_ifs <;> omega

theorem countUpTo_congr {q q' : Nat → Bool} {n : Nat} (h : ∀ i, i < n → q i = q' i) :
    countUpTo q n = countUpTo q' n := by
  induction n with
  | zero => simp [countUpTo]
  | succ n ih =>
    simp only [countUpTo]
    rw [ih (fun i hi => h i (by omega)), h n (by omega)]

theorem countUpTo_pos {q : Nat → Bool} {n : Nat} (h : 0 < countUpTo q n) :
    ∃ i, i < n ∧ q i = true := by
  induction n with
  | zero => simp [countUpTo] at h
  | succ n ih =>
    simp only [countUpTo] at h
    by_cases hq : q n = true
    · exact ⟨n, by omega, hq⟩
    · simp only [hq] at h
      obtain ⟨i, hi, hqi⟩ := ih (by simpa using h)
      exact ⟨i, by omega, hqi⟩

theorem countUpTo_eq_zero {q : Nat → Bool} {n : Nat} (h : countUpTo q n = 0) :
    ∀ i, i < n → q i = false := by
  intro i hi
  by_contra hq
  have hq' : q i = true := by simpa using hq
  have : 0 < countUpTo q n := by
    clear h hq
    induction n with
    | zero => omega
    | succ n ih =>
      simp only [countUpTo]
      by_cases hin : i = n
      · subst hin; simp [hq']
      · have := ih (by omega)
        omega
  omega

theorem countUpTo_all {q : Nat → Bool} {n : Nat} (h : ∀ i, i < n → q i = true) :
    countUpTo q n = n := by
  induction n with
  | zero => simp [countUpTo]
  | succ n ih =>
    simp only [countUpTo]
    rw [ih (fun i hi => h i (by omega)), h n (by omega)]
    simp

/-- Pigeonhole: more indices satisfy `q` than `b`, so one satisfies `q` and not
`b`. -/
theorem countUpTo_pigeon {q b : Nat → Bool} {n : Nat} (h : countUpTo b n < countUpTo q n) :
    ∃ i, i < n ∧ q i = true ∧ b i = false := by
  induction n with
  | zero => simp [countUpTo] at h
  | succ n ih =>
    simp only [countUpTo] at h
    by_cases hq : q n = true
    · by_cases hb : b n = true
      · simp only [hq, hb, if_true] at h
        obtain ⟨i, hi, h1, h2⟩ := ih (by omega)
        exact ⟨i, by omega, h1, h2⟩
      · exact ⟨n, by omega, hq, by simpa using hb⟩
    · have hq0 : (if q n = true then 1 else 0) = 0 := by simp [hq]
      rw [hq0] at h
      have : countUpTo b n < countUpTo q n := by
        have : 0 ≤ (if b n = true then 1 else 0) := Nat.zero_le _
        omega
      obtain ⟨i, hi, h1, h2⟩ := ih this
      exact ⟨i, by omega, h1, h2⟩

theorem countUpTo_update (g : TaskState → Bool) (f : Nat → TaskState) (i n : Nat)
    (x : TaskState) (hi : i < n) :
    countUpTo (fun j => g (Function.update f i x j)) n + (if g (f i) = true then 1 else 0) =
      countUpTo (fun j => g (f j)) n + (if g x = true then 1 else 0) := by
  induction n with
  | zero => omega
  | succ n ih =>
    simp only [countUpTo]
    by_cases hin : i = n
    · subst hin
      have hc : countUpTo (fun j => g (Function.update f i x j)) i =
          countUpTo (fun j => g (f j)) i := by
        apply countUpTo_congr
        intro j hj
        have : j ≠ i := by omega
        simp [Function.update_noteq this]
      rw [hc]
      simp only [Function.update_same]
      omega
    · have := ih (by omega)
      have hne : n ≠ i := fun h => hin h.symm
      simp only [Function.update_noteq hne]
      omega

theorem countUpTo_update_same (g : TaskState → Bool) (f : Nat → TaskState) (i n : Nat)
    (x : TaskState) (h : g x = g (f i)) :
    countUpTo (fun j => g (Function.update f i x j)) n = countUpTo (fun j => g (f j)) n := by
  apply countUpTo_congr
  intro j _
  by_cases hj : j = i
  · subst hj; simp [h]
  · simp [Function.update_noteq hj]

/-! ## The bookkeeping invariant -/

@[simp] theorem holdsSlot_pending : TaskState.pending.holdsSlot = false := rfl
@[simp] theorem holdsSlot_running (st : Nat) : (TaskState.running st).holdsSlot = true := rfl
@[simp] theorem holdsSlot_returned (b : Branch) (r : Option GoError) :
    (TaskState.returned b r).holdsSlot = true := rfl
@[simp] theorem holdsSlot_released (b : Branch) (r : Option GoError) :
    (TaskState.released b r).holdsSlot = false := rfl
@[simp] theorem holdsSlot_completed (b : Branch) (r : Option GoError) :
    (TaskState.completed b r).holdsSlot = false := rfl
@[simp] theorem live_pending : TaskState.pending.live = false := rfl
@[simp] theorem live_running (st : Nat) : (TaskState.running st).live = true := rfl
@[simp] theorem live_returned (b : Branch) (r : Option GoError) :
    (TaskState.returned b r).live = true := rfl
@[simp] theorem live_released (b : Branch) (r : Option GoError) :
    (TaskState.released b r).live = true := rfl
@[simp] theorem live_completed (b : Branch) (r : Option GoError) :
    (TaskState.completed b r).live = false := rfl
@[simp] theorem isCompleted_pending : TaskState.pending.isCompleted = false := rfl
@[simp] theorem isCompleted_running (st : Nat) : (TaskState.running st).isCompleted = false := rfl
@[simp] theorem isCompleted_returned (b : Branch) (r : Option GoError) :
    (TaskState.returned b r).isCompleted = false := rfl
@[simp] theorem isCompleted_released (b : Branch) (r : Option GoError) :
    (TaskState.released b r).isCompleted = false := rfl
@[simp] theorem isCompleted_completed (b : Branch) (r : Option GoError) :
    (TaskState.completed b r).isCompleted = true := rfl

theorem countUpTo_false (n : Nat) : countUpTo (fun _ => false) n = 0 := by
  induction n with
  | zero => rfl
  | succ n ih => simp [countUpTo, ih]

theorem loopHead_cases (p : Program) (k : Nat) :
    (k < p.taskCount ∧ p.capacity.isSome = true ∧ p.loopHead k = MainPc.acquire) ∨
    (k < p.taskCount ∧ p.capacity.isSome = false ∧ p.loopHead k = MainPc.launch) ∨
    (p.taskCount ≤ k ∧ p.loopHead k = MainPc.wait) := by
  unfold Program.loopHead
  by_cases hk : k < p.taskCount
  · by_cases hc : p.capacity.isSome = true
    · left; simp [hk, hc]
    · right; left
      simp only [Bool.not_eq_true] at hc
      simp [hk, hc]
  · right; right; simp [hk]; omega

theorem inv_init (p : Program) : Inv p (init p) := by
  refine ⟨Nat.zero_le _, ?_, Or.inl rfl, ?_, ?_, ?_⟩
  · intro i; simp [init]
  · have h0 : countUpTo (fun i => ((init p).status i).holdsSlot) p.taskCount = 0 :=
      countUpTo_false _
    simp only [State.runningCount, h0]
    rcases loopHead_cases p 0 with ⟨_, hc, hl⟩ | ⟨_, hc, hl⟩ | ⟨_, hl⟩
    · simp [init, hl, hc]
    · simp [init, hc]
    · simp [init, hl]
  · intro n _; simp [init]
  · exact (countUpTo_false _).symm

theorem Inv.lt_of_status {p : Program} {s : State} (hI : Inv p s) {i : Nat}
    (h : s.status i ≠ TaskState.pending) : i < p.taskCount := by
  have := hI.pending i
  have h2 : ¬ s.next ≤ i := fun hle => h (this.2 hle)
  have := hI.next_le
  omega

theorem Inv.pc_acquire {p : Program} {s : State} (hI : Inv p s) (h : s.pc = MainPc.acquire) :
    s.next < p.taskCount ∧ p.capacity.isSome = true := by
  rcases hI.loop with h1 | ⟨h1, _, _⟩ | ⟨r, h1, _⟩
  · rcases loopHead_cases p s.next with ⟨a, b, c⟩ | ⟨a, b, c⟩ | ⟨a, c⟩
    · exact ⟨a, b⟩
    · rw [h1, c] at h; cases h
    · rw [h1, c] at h; cases h
  · rw [h1] at h; cases h
  · rw [h1] at h; cases h

theorem Inv.pc_launch {p : Program} {s : State} (hI : Inv p s) (h : s.pc = MainPc.launch) :
    s.next < p.taskCount := by
  rcases hI.loop with h1 | ⟨_, h2, _⟩ | ⟨r, h1, _⟩
  · rcases loopHead_cases p s.next with ⟨a, b, c⟩ | ⟨a, b, c⟩ | ⟨a, c⟩
    · rw [h1, c] at h; cases h
    · exact a
    · rw [h1, c] at h; cases h
  · exact h2
  · rw [h1] at h; cases h

theorem Inv.pc_wait {p : Program} {s : State} (hI : Inv p s) (h : s.pc = MainPc.wait) :
    s.next = p.taskCount := by
  rcases hI.loop with h1 | ⟨h1, _, _⟩ | ⟨r, h1, _⟩
  · rcases loopHead_cases p s.next with ⟨a, b, c⟩ | ⟨a, b, c⟩ | ⟨a, c⟩
    · rw [h1, c] at h; cases h
    · rw [h1, c] at h; cases h
    · have := hI.next_le; omega
  · rw [h1] at h; cases h
  · rw [h1] at h; cases h

theorem Inv.pc_exited {p : Program} {s : State} (hI : Inv p s) {r : Option GoError}
    (h : s.pc = MainPc.exited r) : s.next = p.taskCount ∧ s.wg = 0 := by
  rcases hI.loop with h1 | ⟨h1, _, _⟩ | ⟨r', _, h2, h3⟩
  · rcases loopHead_cases p s.next with ⟨a, b, c⟩ | ⟨a, b, c⟩ | ⟨a, c⟩ <;>
      (rw [h1, c] at h; cases h)
  · rw [h1] at h; cases h
  · exact ⟨h2, h3⟩

/-- A step that only changes the state of task `i`, to a state that is not
`pending`, from one that is not `pending`. -/
theorem pending_update {s : State} {n i : Nat} {x : TaskState}
    (hp : ∀ j, s.status j = TaskState.pending ↔ n ≤ j)
    (hold : s.status i ≠ TaskState.pending) (hx : x ≠ TaskState.pending) :
    ∀ j, Function.update s.status i x j = TaskState.pending ↔ n ≤ j := by
  intro j
  by_cases hj : j = i
  · subst hj
    simp only [Function.update_same]
    constructor
    · intro h; exact absurd h hx
    · intro h; exact absurd ((hp j).2 h) hold
  · simp only [Function.update_noteq hj]
    exact hp j

theorem inv_step {p : Program} {a : Action} {s s' : State} (hI : Inv p s)
    (h : step p a s = some s') : Inv p s' := by
  cases a with
  | send =>
    obtain ⟨n, hc, hpc, hlt, rfl⟩ := step_send_inv h
    have hcs : p.capacity.isSome = true := by simp [hc]
    refine ⟨hI.next_le, hI.pending, Or.inr (Or.inl ⟨rfl, (hI.pc_acquire hpc).1, hcs⟩), ?_, ?_,
      hI.wg_eq⟩
    · have := hI.sem_eq
      simp only [hcs, hpc, if_true] at this
      simp only [hcs, if_true, State.runningCount] at *
      simp at this
      omega
    · intro m hm
      rw [hc] at hm
      cases hm
      show s.sem + 1 ≤ n
      omega
  | go =>
    obtain ⟨hpc, rfl⟩ := step_go_inv h
    have hlt := hI.pc_launch hpc
    have hpend : s.status s.next = TaskState.pending := (hI.pending _).2 (le_refl _)
    have hcH := countUpTo_update TaskState.holdsSlot s.status s.next p.taskCount
      (TaskState.running s.now) hlt
    have hcL := countUpTo_update TaskState.live s.status s.next p.taskCount
      (TaskState.running s.now) hlt
    simp only [hpend, holdsSlot_pending, holdsSlot_running, live_pending, live_running]
      at hcH hcL
    simp only [if_true, Bool.false_eq_true, if_false, add_zero] at hcH hcL
    refine ⟨hlt, ?_, Or.inl rfl, ?_, ?_, ?_⟩
    · intro j
      show Function.update s.status s.next (TaskState.running s.now) j = _ ↔ s.next + 1 ≤ j
      by_cases hj : j = s.next
      · subst hj; simp
      · simp only [Function.update_noteq hj]
        rw [hI.pending j]
        omega
    · show s.sem = if p.capacity.isSome = true then
        countUpTo (fun i => (Function.update s.status s.next (TaskState.running s.now) i).holdsSlot)
          p.taskCount + (if p.loopHead (s.next + 1) = MainPc.launch then 1 else 0) else 0
      have := hI.sem_eq
      by_cases hcs : p.capacity.isSome = true
      · simp only [hcs, if_true, hpc, State.runningCount] at this ⊢
        have hl : p.loopHead (s.next + 1) ≠ MainPc.launch := by
          rcases loopHead_cases p (s.next + 1) with ⟨_, _, c⟩ | ⟨_, b, _⟩ | ⟨_, c⟩
          · rw [c]; simp
          · rw [hcs] at b; cases b
          · rw [c]; simp
        simp only [hl, if_false]
        omega
      · simp only [hcs] at this ⊢
        simpa using this
    · exact hI.sem_le
    · show s.wg + 1 = countUpTo
        (fun i => (Function.update s.status s.next (TaskState.running s.now) i).live) p.taskCount
      have := hI.wg_eq
      omega
  | work i =>
    obtain ⟨st, hst, _, rfl⟩ := step_work_inv h
    have hH := countUpTo_update_same TaskState.holdsSlot s.status i p.taskCount
      (TaskState.returned Branch.work (p.task i).onWork) (by simp [hst])
    have hL := countUpTo_update_same TaskState.live s.status i p.taskCount
      (TaskState.returned Branch.work (p.task i).onWork) (by simp [hst])
    refine ⟨hI.next_le, pending_update hI.pending (by simp [hst]) (by simp), hI.loop, ?_,
      hI.sem_le, ?_⟩
    · have := hI.sem_eq
      simp only [State.runningCount] at this ⊢
      rw [hH]; exact this
    · show s.wg = _
      rw [hL]; exact hI.wg_eq
  | done i =>
    obtain ⟨st, f, c, hst, _, _, rfl⟩ := step_done_inv h
    have hH := countUpTo_update_same TaskState.holdsSlot s.status i p.taskCount
      (TaskState.returned Branch.done (f c)) (by simp [hst])
    have hL := countUpTo_update_same TaskState.live s.status i p.taskCount
      (TaskState.returned Branch.done (f c)) (by simp [hst])
    refine ⟨hI.next_le, pending_update hI.pending (by simp [hst]) (by simp), hI.loop, ?_,
      hI.sem_le, ?_⟩
    · have := hI.sem_eq
      simp only [State.runningCount] at this ⊢
      rw [hH]; exact this
    · show s.wg = _
      rw [hL]; exact hI.wg_eq
  | timeout i =>
    obtain ⟨st, t, hst, _, _, rfl⟩ := step_timeout_inv h
    have hH := countUpTo_update_same TaskState.holdsSlot s.status i p.taskCount
      (TaskState.returned Branch.timeout none) (by simp [hst])
    have hL := countUpTo_update_same TaskState.live s.status i p.taskCount
      (TaskState.returned Branch.timeout none) (by simp [hst])
    refine ⟨hI.next_le, pending_update hI.pending (by simp [hst]) (by simp), hI.loop, ?_,
      hI.sem_le, ?_⟩
    · have := hI.sem_eq
      simp only [State.runningCount] at this ⊢
      rw [hH]; exact this
    · show s.wg = _
      rw [hL]; exact hI.wg_eq
  | release i =>
    obtain ⟨b, r, hst, hpos, rfl⟩ := step_release_inv h
    have hi : i < p.taskCount := hI.lt_of_status (by simp [hst])
    have hH := countUpTo_update TaskState.holdsSlot s.status i p.taskCount
      (TaskState.released b r) hi
    have hL := countUpTo_update_same TaskState.live s.status i p.taskCount
      (TaskState.released b r) (by simp [hst])
    simp only [hst, holdsSlot_returned, holdsSlot_released] at hH
    simp only [if_true, Bool.false_eq_true, if_false, add_zero] at hH
    refine ⟨hI.next_le, pending_update hI.pending (by simp [hst]) (by simp), hI.loop, ?_, ?_, ?_⟩
    · have := hI.sem_eq
      show (if p.capacity.isSome = true then s.sem - 1 else s.sem) = _
      by_cases hcs : p.capacity.isSome = true
      · have := hpos hcs
        simp only [hcs, if_true, State.runningCount] at *
        omega
      · simp only [hcs] at this ⊢
        simpa using this
    · intro n hn
      have := hI.sem_le n hn
      show (if p.capacity.isSome = true then s.sem - 1 else s.sem) ≤ n
      split_ifs <;> omega
    · show s.wg = _
      rw [hL]; exact hI.wg_eq
  | report i =>
    obtain ⟨b, r, hst, hpos, rfl⟩ := step_report_inv h
    have hi : i < p.taskCount := hI.lt_of_status (by simp [hst])
    have hH := countUpTo_update_same TaskState.holdsSlot s.status i p.taskCount
      (TaskState.completed b r) (by simp [hst])
    have hL := countUpTo_update TaskState.live s.status i p.taskCount
      (TaskState.completed b r) hi
    simp only [hst, live_released, live_completed] at hL
    simp only [if_true, Bool.false_eq_true, if_false, add_zero] at hL
    refine ⟨hI.next_le, pending_update hI.pending (by simp [hst]) (by simp), ?_, ?_,
      hI.sem_le, ?_⟩
    · rcases hI.loop with h1 | h1 | ⟨r', _, _, h3⟩
      · exact Or.inl h1
      · exact Or.inr (Or.inl h1)
      · omega
    · have := hI.sem_eq
      simp only [State.runningCount] at this ⊢
      rw [hH]; exact this
    · show s.wg - 1 = countUpTo
        (fun j => (Function.update s.status i (TaskState.completed b r) j).live) p.taskCount
      have := hI.wg_eq
      omega
  | deadline =>
    obtain ⟨t, _, _, _, _, rfl⟩ := step_deadline_inv h
    exact ⟨hI.next_le, hI.pending, hI.loop, hI.sem_eq, hI.sem_le, hI.wg_eq⟩
  | wait =>
    obtain ⟨hpc, hwg, rfl⟩ := step_wait_inv h
    refine ⟨hI.next_le, hI.pending, Or.inr (Or.inr ⟨s.err, rfl, hI.pc_wait hpc, hwg⟩), ?_,
      hI.sem_le, hI.wg_eq⟩
    have := hI.sem_eq
    simp only [hpc, State.runningCount] at this ⊢
    simpa using this
  | tick d =>
    obtain ⟨_, _, rfl⟩ := step_tick_inv h
    exact ⟨hI.next_le, hI.pending, hI.loop, hI.sem_eq, hI.sem_le, hI.wg_eq⟩

theorem reach_inv {p : Program} {s : State} (h : Reach p s) : Inv p s :=
  reach_induction p (Inv p) (inv_init p) (fun _ _ _ _ hI hst => inv_step hI hst) s h

/-! ## Concrete runs -/

theorem checkAfter_spec {p : Program} {acts : List Action} {f : State → Bool}
    (h : checkAfter p acts f = true) : ∃ s, exec p (init p) acts = some s ∧ f s = true := by
  unfold checkAfter at h
  cases hs : exec p (init p) acts with
  | none => rw [hs] at h; cases h
  | some s => rw [hs] at h; exact ⟨s, rfl, h⟩

theorem ucheckAfter_spec {p : Program} {acts : List Action} {f : State → Bool}
    (h : ucheckAfter p acts f = true) : ∃ s, uexec p (init p) acts = some s ∧ f s = true := by
  unfold ucheckAfter at h
  cases hs : uexec p (init p) acts with
  | none => rw [hs] at h; cases h
  | some s => rw [hs] at h; exact ⟨s, rfl, h⟩

/-! ## C1: capacity bound -/

theorem runningCount_le_sem {p : Program} {s : State} (hI : Inv p s) {n : Nat}
    (hc : p.capacity = some n) : s.runningCount p ≤ s.sem := by
  have := hI.sem_eq
  have hcs : p.capacity.isSome = true := by simp [hc]
  simp only [hcs, if_true] at this
  omega

/-- C1: with the semaphore modelled as an occupancy counter (the send of `main`
is enabled only when the occupancy is below the capacity, the deferred receive
gives the slot back), for every capacity `N ≥ 1`, every number of tasks, every
task bodies and every reachable state, scheduling delays included, the number of
Running tasks is at most the occupancy, which is at most `N`; in particular for
channel-base (5), combine (4) and combine-with-isolate-cancel (3). -/
theorem capacity_bound :
    (∀ (p : Program) (N : Nat), 1 ≤ N → p.capacity = some N → ∀ s, Reach p s →
      s.runningCount p ≤ s.sem ∧ s.sem ≤ N ∧ s.runningCount p ≤ N ∧ 0 ≤ s.sem ∧
      (∀ s', step p Action.send s = some s' → s.sem < N ∧ s'.sem = s.sem + 1) ∧
      (∀ i s', step p (Action.release i) s = some s' → s'.sem + 1 = s.sem)) ∧
    (∀ seed s, Reach (ChannelBase.main seed) s →
      s.runningCount (ChannelBase.main seed) ≤ 5 ∧ s.sem ≤ 5) ∧
    (∀ seed s, Reach (Combine.main seed) s →
      s.runningCount (Combine.main seed) ≤ 4 ∧ s.sem ≤ 4) ∧
    (∀ s, Reach IsolateCancel.main s →
      s.runningCount IsolateCancel.main ≤ 3 ∧ s.sem ≤ 3) := by
  have key : ∀ (p : Program) (N : Nat), p.capacity = some N → ∀ s, Reach p s →
      s.runningCount p ≤ s.sem ∧ s.sem ≤ N := by
    intro p N hc s hs
    have hI := reach_inv hs
    exact ⟨runningCount_le_sem hI hc, hI.sem_le N hc⟩
  refine ⟨?_, ?_, ?_, ?_⟩
  · intro p N _ hc s hs
    obtain ⟨h1, h2⟩ := key p N hc s hs
    refine ⟨h1, h2, le_trans h1 h2, Nat.zero_le _, ?_, ?_⟩
    · intro s' hst
      obtain ⟨n, hn, _, hlt, rfl⟩ := step_send_inv hst
      rw [hc] at hn
      cases hn
      exact ⟨hlt, rfl⟩
    · intro i s' hst
      obtain ⟨b, r, _, hpos, rfl⟩ := step_release_inv hst
      have hcs : p.capacity.isSome = true := by simp [hc]
      have := hpos hcs
      show (if p.capacity.isSome = true then s.sem - 1 else s.sem) + 1 = s.sem
      rw [if_pos hcs]
      omega
  · intro seed s hs
    obtain ⟨h1, h2⟩ := key (ChannelBase.main seed) 5 rfl s hs
    exact ⟨le_trans h1 h2, h2⟩
  · intro seed s hs
    obtain ⟨h1, h2⟩ := key (Combine.main seed) 4 rfl s hs
    exact ⟨le_trans h1 h2, h2⟩
  · intro s hs
    obtain ⟨h1, h2⟩ := key IsolateCancel.main 3 rfl s hs
    exact ⟨le_trans h1 h2, h2⟩

/-- Witness for C1: in combine, once four tasks have been admitted the occupancy
and the number of Running tasks are both 4, the fifth send is not enabled, and
the bound of C1 holds in that state. -/
theorem capacity_bound_witness :
    ∃ s, exec (Combine.main zeroSeed) (init (Combine.main zeroSeed)) combineFull = some s ∧
      s.sem = 4 ∧ s.runningCount (Combine.main zeroSeed) = 4 ∧
      step (Combine.main zeroSeed) Action.send s = none ∧
      s.runningCount (Combine.main zeroSeed) ≤ 4 := by
  obtain ⟨s, hs, hf⟩ := checkAfter_spec
    (by decide : checkAfter (Combine.main zeroSeed) combineFull
      (fun s => decide (s.sem = 4 ∧ s.runningCount (Combine.main zeroSeed) = 4) &&
        (step (Combine.main zeroSeed) Action.send s).isNone) = true)
  simp only [Bool.and_eq_true, decide_eq_true_eq, Option.isNone_iff_eq_none] at hf
  exact ⟨s, hs, hf.1.1, hf.1.2, hf.2,
    (capacity_bound.1 (Combine.main zeroSeed) 4 (by decide) rfl s ⟨_, hs⟩).2.2.1⟩

/-! ## Completion order -/

@[simp] theorem value_pending : TaskState.pending.value = none := rfl
@[simp] theorem value_running (st : Nat) : (TaskState.running st).value = none := rfl
@[simp] theorem value_returned (b : Branch) (r : Option GoError) :
    (TaskState.returned b r).value = some r := rfl
@[simp] theorem value_released (b : Branch) (r : Option GoError) :
    (TaskState.released b r).value = some r := rfl
@[simp] theorem value_completed (b : Branch) (r : Option GoError) :
    (TaskState.completed b r).value = some r := rfl
@[simp] theorem branch_pending : TaskState.pending.branch = none := rfl
@[simp] theorem branch_running (st : Nat) : (TaskState.running st).branch = none := rfl
@[simp] theorem branch_returned (b : Branch) (r : Option GoError) :
    (TaskState.returned b r).branch = some b := rfl
@[simp] theorem branch_released (b : Branch) (r : Option GoError) :
    (TaskState.released b r).branch = some b := rfl
@[simp] theorem branch_completed (b : Branch) (r : Option GoError) :
    (TaskState.completed b r).branch = some b := rfl

theorem firstError_append (l : List (Option GoError)) (r : Option GoError) :
    firstError (l ++ [r]) = if (firstError l).isNone then r else firstError l := by
  induction l with
  | nil => cases r <;> simp [firstError]
  | cons x l ih =>
    cases x with
    | none => simpa [firstError] using ih
    | some e => simp [firstError]

theorem firstError_eq_none {l : List (Option GoError)} :
    firstError l = none ↔ ∀ x ∈ l, x = none := by
  induction l with
  | nil => simp [firstError]
  | cons x l ih =>
    cases x with
    | none => simp [firstError, ih]
    | some e => simp [firstError]

theorem firstError_eq_some {l : List (Option GoError)} {e : GoError} :
    firstError l = some e ↔ ∃ l₁ l₂, l = l₁ ++ some e :: l₂ ∧ ∀ x ∈ l₁, x = none := by
  induction l with
  | nil => simp [firstError]
  | cons x l ih =>
    cases x with
    | none =>
      simp only [firstError, ih]
      constructor
      · rintro ⟨l₁, l₂, rfl, h⟩
        refine ⟨none :: l₁, l₂, rfl, ?_⟩
        intro x hx
        rcases List.mem_cons.1 hx with hx | hx
        · exact hx
        · exact h x hx
      · rintro ⟨l₁, l₂, h, hl⟩
        cases l₁ with
        | nil => simp at h
        | cons y l₁ =>
          simp only [List.cons_append, List.cons.injEq] at h
          exact ⟨l₁, l₂, h.2, fun x hx => hl x (List.mem_cons_of_mem _ hx)⟩
    | some e' =>
      simp only [firstError, Option.some.injEq]
      constructor
      · rintro rfl
        exact ⟨[], l, rfl, by simp⟩
      · rintro ⟨l₁, l₂, h, hl⟩
        cases l₁ with
        | nil =>
          simp only [List.nil_append, List.cons.injEq, Option.some.injEq] at h
          exact h.1
        | cons y l₁ =>
          simp only [List.cons_append, List.cons.injEq] at h
          have := hl y (List.mem_cons_self _ _)
          rw [← h.1] at this
          cases this

/-- The first error is kept when more values are handed to the group. -/
theorem firstError_append_of_some {l : List (Option GoError)} {e : GoError}
    (h : firstError l = some e) (l' : List (Option GoError)) :
    firstError (l ++ l') = some e := by
  induction l with
  | nil => simp [firstError] at h
  | cons x l ih =>
    cases x with
    | none => simp only [firstError, List.cons_append] at h ⊢; exact ih h
    | some e' => simpa [firstError] using h

theorem mem_update_of_not_completed {s : State} {i : Nat} {x : TaskState}
    (hold : (s.status i).isCompleted = false) (hx : x.isCompleted = false)
    (hm : ∀ j e, (j, e) ∈ s.order ↔ ∃ b, s.status j = TaskState.completed b e) :
    ∀ j e, (j, e) ∈ s.order ↔ ∃ b, Function.update s.status i x j = TaskState.completed b e := by
  intro j e
  by_cases hj : j = i
  · subst hj
    simp only [Function.update_same]
    rw [hm]
    constructor
    · rintro ⟨b, hb⟩; rw [hb] at hold; simp at hold
    · rintro ⟨b, hb⟩; rw [hb] at hx; simp at hx
  · simp only [Function.update_noteq hj]
    exact hm j e

theorem ordInv_init (p : Program) : OrdInv p (init p) := by
  refine ⟨by simp [init], ?_, by simp [init, firstError], ?_⟩
  · intro i e; simp [init]
  · intro r h
    simp only [init] at h
    rcases loopHead_cases p 0 with ⟨_, _, c⟩ | ⟨_, _, c⟩ | ⟨_, c⟩ <;> (rw [c] at h; cases h)

theorem ordInv_step {p : Program} {a : Action} {s s' : State} (hI : Inv p s)
    (hO : OrdInv p s) (h : step p a s = some s') : OrdInv p s' := by
  cases a with
  | send =>
    obtain ⟨n, _, hpc, _, rfl⟩ := step_send_inv h
    exact ⟨hO.nodup, hO.mem, hO.err_eq, fun r hr => by cases hr⟩
  | go =>
    obtain ⟨hpc, rfl⟩ := step_go_inv h
    refine ⟨hO.nodup, ?_, hO.err_eq, ?_⟩
    · have hnc : (s.status s.next).isCompleted = false := by
        rw [(hI.pending s.next).2 (le_refl _)]; rfl
      exact mem_update_of_not_completed hnc (by simp) hO.mem
    · intro r hr
      change p.loopHead (s.next + 1) = MainPc.exited r at hr
      rcases loopHead_cases p (s.next + 1) with ⟨_, _, c⟩ | ⟨_, _, c⟩ | ⟨_, c⟩ <;>
        (rw [c] at hr; cases hr)
  | work i =>
    obtain ⟨st, hst, _, rfl⟩ := step_work_inv h
    exact ⟨hO.nodup, mem_update_of_not_completed (by simp [hst]) (by simp) hO.mem, hO.err_eq,
      hO.exit_eq⟩
  | done i =>
    obtain ⟨st, f, c, hst, _, _, rfl⟩ := step_done_inv h
    exact ⟨hO.nodup, mem_update_of_not_completed (by simp [hst]) (by simp) hO.mem, hO.err_eq,
      hO.exit_eq⟩
  | timeout i =>
    obtain ⟨st, t, hst, _, _, rfl⟩ := step_timeout_inv h
    exact ⟨hO.nodup, mem_update_of_not_completed (by simp [hst]) (by simp) hO.mem, hO.err_eq,
      hO.exit_eq⟩
  | release i =>
    obtain ⟨b, r, hst, _, rfl⟩ := step_release_inv h
    exact ⟨hO.nodup, mem_update_of_not_completed (by simp [hst]) (by simp) hO.mem, hO.err_eq,
      hO.exit_eq⟩
  | report i =>
    obtain ⟨b, r, hst, hwg, rfl⟩ := step_report_inv h
    have hni : i ∉ s.order.map Prod.fst := by
      intro hmem
      obtain ⟨⟨j, e⟩, hje, rfl⟩ := List.mem_map.1 hmem
      obtain ⟨b', hb'⟩ := (hO.mem j e).1 hje
      rw [hst] at hb'
      cases hb'
    refine ⟨?_, ?_, ?_, ?_⟩
    · show ((s.order ++ [(i, r)]).map Prod.fst).Nodup
      rw [List.map_append, List.nodup_append]
      refine ⟨hO.nodup, by simp, ?_⟩
      intro a ha hb
      simp only [List.map_cons, List.map_nil, List.mem_singleton] at hb
      subst hb
      exact hni ha
    · intro j e
      show (j, e) ∈ s.order ++ [(i, r)] ↔
        ∃ b', Function.update s.status i (TaskState.completed b r) j = TaskState.completed b' e
      by_cases hj : j = i
      · subst hj
        simp only [Function.update_same, List.mem_append, List.mem_singleton, Prod.mk.injEq,
          true_and, TaskState.completed.injEq]
        constructor
        · rintro (hm | rfl)
          · exact absurd (List.mem_map.2 ⟨(j, e), hm, rfl⟩) hni
          · exact ⟨b, rfl, rfl⟩
        · rintro ⟨b', _, rfl⟩
          exact Or.inr rfl
      · simp only [Function.update_noteq hj, List.mem_append, List.mem_singleton, Prod.mk.injEq,
          hj, false_and, or_false]
        exact hO.mem j e
    · show (if s.err.isNone = true then r else s.err) =
        firstError ((s.order ++ [(i, r)]).map Prod.snd)
      rw [List.map_append, List.map_cons, List.map_nil, firstError_append, ← hO.err_eq]
    · intro r' hr'
      have hr2 : s.pc = MainPc.exited r' := hr'
      have := (hI.pc_exited hr2).2
      omega
  | deadline =>
    obtain ⟨t, _, _, _, _, rfl⟩ := step_deadline_inv h
    exact ⟨hO.nodup, hO.mem, hO.err_eq, hO.exit_eq⟩
  | wait =>
    obtain ⟨hpc, hwg, rfl⟩ := step_wait_inv h
    refine ⟨hO.nodup, hO.mem, hO.err_eq, ?_⟩
    intro r hr
    cases hr
    rfl
  | tick d =>
    obtain ⟨_, _, rfl⟩ := step_tick_inv h
    exact ⟨hO.nodup, hO.mem, hO.err_eq, hO.exit_eq⟩

theorem reach_ordInv {p : Program} {s : State} (h : Reach p s) : OrdInv p s :=
  reach_induction p (OrdInv p) (ordInv_init p)
    (fun _ _ _ hr hO hst => ordInv_step (reach_inv hr) hO hst) s h

/-- Once `main` is past `Wait`, every launched function has completed. -/
theorem Inv.all_completed {p : Program} {s : State} (hI : Inv p s) {r : Option GoError}
    (h : s.pc = MainPc.exited r) : ∀ i, i < p.taskCount → (s.status i).isCompleted = true := by
  intro i hi
  obtain ⟨hn, hw⟩ := hI.pc_exited h
  have hl := countUpTo_eq_zero (hI.wg_eq.symm.trans hw) i hi
  have hp : s.status i ≠ TaskState.pending := by
    intro hp
    have := (hI.pending i).1 hp
    omega
  cases hst : s.status i with
  | pending => exact absurd hst hp
  | running st => simp [hst] at hl
  | returned b e => simp [hst] at hl
  | released b e => simp [hst] at hl
  | completed b e => rfl

/-- In `Wait` with the counter at zero, every launched function has completed. -/
theorem Inv.all_completed_of_wait {p : Program} {s : State} (hI : Inv p s)
    (h : s.pc = MainPc.wait) (hw : s.wg = 0) :
    ∀ i, i < p.taskCount → (s.status i).isCompleted = true := by
  intro i hi
  have hn := hI.pc_wait h
  have hl := countUpTo_eq_zero (hI.wg_eq.symm.trans hw) i hi
  have hp : s.status i ≠ TaskState.pending := by
    intro hp
    have := (hI.pending i).1 hp
    omega
  cases hst : s.status i with
  | pending => exact absurd hst hp
  | running st => simp [hst] at hl
  | returned b e => simp [hst] at hl
  | released b e => simp [hst] at hl
  | completed b e => rfl

theorem Inv.not_running_of_exited {p : Program} {s : State} (hI : Inv p s)
    (h : s.result ≠ none) (i st : Nat) : s.status i ≠ TaskState.running st := by
  intro hst
  cases hpc : s.pc with
  | exited r =>
    have hi : i < p.taskCount := hI.lt_of_status (by simp [hst])
    have := hI.all_completed hpc i hi
    rw [hst] at this
    simp at this
  | acquire => simp [State.result, hpc] at h
  | launch => simp [State.result, hpc] at h
  | wait => simp [State.result, hpc] at h

theorem firstError_mem {l : List (Option GoError)} {e : GoError} (h : firstError l = some e) :
    some e ∈ l := by
  obtain ⟨l₁, l₂, rfl, _⟩ := firstError_eq_some.1 h
  simp

/-! ## Provenance of returned values -/

theorem result_eq_of_pc {s s' : State} (h : s'.pc = s.pc) : s'.result = s.result := by
  simp [State.result, h]

/-- A property of every task state survives the update of one of them. -/
theorem forall_update {P : Nat → TaskState → Prop} {f : Nat → TaskState} {i : Nat}
    {x : TaskState} (h : ∀ j, P j (f j)) (hx : P i x) :
    ∀ j, P j (Function.update f i x j) := by
  intro j
  by_cases hj : j = i
  · subst hj; simpa using hx
  · simpa [Function.update_noteq hj] using h j

theorem runInv_init (p : Program) : RunInv p (init p) := by
  refine ⟨?_, ?_, ?_, ?_, ?_, ?_, ?_, ?_⟩ <;> simp [init]

theorem runInv_step {p : Program} {a : Action} {s s' : State}
    (hR : RunInv p s) (h : step p a s = some s') : RunInv p s' := by
  obtain ⟨r1, r2, r3, r4, r5, r6, r7, r8⟩ := hR
  cases a with
  | send =>
    obtain ⟨n, _, hpc, _, rfl⟩ := step_send_inv h
    refine ⟨r1, r2, r3, r4, ?_, r6, r7, r8⟩
    intro c hc
    rcases r5 c hc with h1 | ⟨h1, h2 | h2⟩
    · exact Or.inl h1
    · exact Or.inr ⟨h1, Or.inl h2⟩
    · simp [State.result, hpc] at h2
  | go =>
    obtain ⟨hpc, rfl⟩ := step_go_inv h
    refine ⟨?_, ?_, ?_, ?_, ?_, r6, ?_, ?_⟩
    · exact forall_update (P := fun j t => ∀ r, t.branch = some Branch.work →
        t.value = some r → r = (p.task j).onWork) r1 (by intro r' h1; cases h1)
    · exact forall_update (P := fun j t => t.branch = some Branch.work →
        (p.task j).work ≤ s.now) r2 (by intro h1; cases h1)
    · exact forall_update (P := fun j t => ∀ r, t.branch = some Branch.done →
        t.value = some r → ∃ f c, (p.task j).onDone = some f ∧ s.ctxErr = some c ∧ r = f c)
        r3 (by intro r' h1; cases h1)
    · exact forall_update (P := fun j t => ∀ r, t.branch = some Branch.timeout →
        t.value = some r → r = none ∧ ∃ t', (p.task j).ownTimeout = some t' ∧ t' ≤ s.now)
        r4 (by intro r' h1; cases h1)
    · intro c hc
      rcases r5 c hc with h1 | ⟨h1, h2 | h2⟩
      · exact Or.inl h1
      · exact Or.inr ⟨h1, Or.inl h2⟩
      · simp [State.result, hpc] at h2
    · exact forall_update (P := fun j t => ∀ b e, t = TaskState.completed b (some e) →
        s.err ≠ none) r7 (by intro b' e' h1; cases h1)
    · exact forall_update (P := fun j t => ∀ st, t = TaskState.running st → st ≤ s.now)
        r8 (by intro st' h1; cases h1; exact le_refl _)
  | work i =>
    obtain ⟨st, hst, hdue, rfl⟩ := step_work_inv h
    refine ⟨?_, ?_, ?_, ?_, r5, r6, ?_, ?_⟩
    · exact forall_update (P := fun j t => ∀ r, t.branch = some Branch.work →
        t.value = some r → r = (p.task j).onWork) r1 (by intro r' _ h2; cases h2; rfl)
    · exact forall_update (P := fun j t => t.branch = some Branch.work →
        (p.task j).work ≤ s.now) r2 (by intro _; omega)
    · exact forall_update (P := fun j t => ∀ r, t.branch = some Branch.done →
        t.value = some r → ∃ f c, (p.task j).onDone = some f ∧ s.ctxErr = some c ∧ r = f c)
        r3 (by intro r' h1; cases h1)
    · exact forall_update (P := fun j t => ∀ r, t.branch = some Branch.timeout →
        t.value = some r → r = none ∧ ∃ t', (p.task j).ownTimeout = some t' ∧ t' ≤ s.now)
        r4 (by intro r' h1; cases h1)
    · exact forall_update (P := fun j t => ∀ b e, t = TaskState.completed b (some e) →
        s.err ≠ none) r7 (by intro b' e' h1; cases h1)
    · exact forall_update (P := fun j t => ∀ st, t = TaskState.running st → st ≤ s.now)
        r8 (by intro st' h1; cases h1)
  | done i =>
    obtain ⟨st, f, c, hst, hf, hc, rfl⟩ := step_done_inv h
    refine ⟨?_, ?_, ?_, ?_, r5, r6, ?_, ?_⟩
    · exact forall_update (P := fun j t => ∀ r, t.branch = some Branch.work →
        t.value = some r → r = (p.task j).onWork) r1 (by intro r' h1; cases h1)
    · exact forall_update (P := fun j t => t.branch = some Branch.work →
        (p.task j).work ≤ s.now) r2 (by intro h1; cases h1)
    · exact forall_update (P := fun j t => ∀ r, t.branch = some Branch.done →
        t.value = some r → ∃ f c, (p.task j).onDone = some f ∧ s.ctxErr = some c ∧ r = f c)
        r3 (by intro r' _ h2; cases h2; exact ⟨f, c, hf, hc, rfl⟩)
    · exact forall_update (P := fun j t => ∀ r, t.branch = some Branch.timeout →
        t.value = some r → r = none ∧ ∃ t', (p.task j).ownTimeout = some t' ∧ t' ≤ s.now)
        r4 (by intro r' h1; cases h1)
    · exact forall_update (P := fun j t => ∀ b e, t = TaskState.completed b (some e) →
        s.err ≠ none) r7 (by intro b' e' h1; cases h1)
    · exact forall_update (P := fun j t => ∀ st, t = TaskState.running st → st ≤ s.now)
        r8 (by intro st' h1; cases h1)
  | timeout i =>
    obtain ⟨st, t, hst, ht, hdue, rfl⟩ := step_timeout_inv h
    refine ⟨?_, ?_, ?_, ?_, r5, r6, ?_, ?_⟩
    · exact forall_update (P := fun j t => ∀ r, t.branch = some Branch.work →
        t.value = some r → r = (p.task j).onWork) r1 (by intro r' h1; cases h1)
    · exact forall_update (P := fun j t => t.branch = some Branch.work →
        (p.task j).work ≤ s.now) r2 (by intro h1; cases h1)
    · exact forall_update (P := fun j t => ∀ r, t.branch = some Branch.done →
        t.value = some r → ∃ f c, (p.task j).onDone = some f ∧ s.ctxErr = some c ∧ r = f c)
        r3 (by intro r' h1; cases h1)
    · exact forall_update (P := fun j t => ∀ r, t.branch = some Branch.timeout →
        t.value = some r → r = none ∧ ∃ t', (p.task j).ownTimeout = some t' ∧ t' ≤ s.now)
        r4 (by intro r' _ h2; cases h2; exact ⟨rfl, t, ht, by omega⟩)
    · exact forall_update (P := fun j t => ∀ b e, t = TaskState.completed b (some e) →
        s.err ≠ none) r7 (by intro b' e' h1; cases h1)
    · exact forall_update (P := fun j t => ∀ st, t = TaskState.running st → st ≤ s.now)
        r8 (by intro st' h1; cases h1)
  | release i =>
    obtain ⟨b, r, hst, _, rfl⟩ := step_release_inv h
    have hb : (s.status i).branch = some b := by simp [hst]
    have hv : (s.status i).value = some r := by simp [hst]
    refine ⟨?_, ?_, ?_, ?_, r5, r6, ?_, ?_⟩
    · exact forall_update (P := fun j t => ∀ r, t.branch = some Branch.work →
        t.value = some r → r = (p.task j).onWork) r1
        (by intro r' h1 h2; cases h1; cases h2; exact r1 i _ hb hv)
    · exact forall_update (P := fun j t => t.branch = some Branch.work →
        (p.task j).work ≤ s.now) r2 (by intro h1; cases h1; exact r2 i hb)
    · exact forall_update (P := fun j t => ∀ r, t.branch = some Branch.done →
        t.value = some r → ∃ f c, (p.task j).onDone = some f ∧ s.ctxErr = some c ∧ r = f c)
        r3 (by intro r' h1 h2; cases h1; cases h2; exact r3 i _ hb hv)
    · exact forall_update (P := fun j t => ∀ r, t.branch = some Branch.timeout →
        t.value = some r → r = none ∧ ∃ t', (p.task j).ownTimeout = some t' ∧ t' ≤ s.now)
        r4 (by intro r' h1 h2; cases h1; cases h2; exact r4 i _ hb hv)
    · exact forall_update (P := fun j t => ∀ b e, t = TaskState.completed b (some e) →
        s.err ≠ none) r7 (by intro b' e' h1; cases h1)
    · exact forall_update (P := fun j t => ∀ st, t = TaskState.running st → st ≤ s.now)
        r8 (by intro st' h1; cases h1)
  | report i =>
    obtain ⟨b, r, hst, _, rfl⟩ := step_report_inv h
    have hb : (s.status i).branch = some b := by simp [hst]
    have hv : (s.status i).value = some r := by simp [hst]
    have hctx : ∀ c, s.ctxErr = some c →
        (if r.isSome = true ∧ s.err.isNone = true ∧ s.ctxErr.isNone = true
          then some GoError.canceled else s.ctxErr) = some c := by
      intro c hc
      rw [if_neg]
      · exact hc
      · simp [hc]
    have herr : s.err ≠ none → (if s.err.isNone = true then r else s.err) ≠ none := by
      intro he
      cases hs : s.err with
      | none => exact absurd hs he
      | some e => simp
    refine ⟨?_, ?_, ?_, ?_, ?_, ?_, ?_, ?_⟩
    · exact forall_update (P := fun j t => ∀ r, t.branch = some Branch.work →
        t.value = some r → r = (p.task j).onWork) r1
        (by intro r' h1 h2; cases h1; cases h2; exact r1 i _ hb hv)
    · exact forall_update (P := fun j t => t.branch = some Branch.work →
        (p.task j).work ≤ s.now) r2 (by intro h1; cases h1; exact r2 i hb)
    · refine forall_update (P := fun j t => ∀ r', t.branch = some Branch.done →
        t.value = some r' → ∃ f c, (p.task j).onDone = some f ∧
          (if r.isSome = true ∧ s.err.isNone = true ∧ s.ctxErr.isNone = true
            then some GoError.canceled else s.ctxErr) = some c ∧ r' = f c) ?_ ?_
      · intro j r' h1 h2
        obtain ⟨f, c, hf, hc, hr⟩ := r3 j r' h1 h2
        exact ⟨f, c, hf, hctx c hc, hr⟩
      · intro r' h1 h2
        cases h1; cases h2
        obtain ⟨f, c, hf, hc, hr⟩ := r3 i r hb hv
        exact ⟨f, c, hf, hctx c hc, hr⟩
    · exact forall_update (P := fun j t => ∀ r, t.branch = some Branch.timeout →
        t.value = some r → r = none ∧ ∃ t', (p.task j).ownTimeout = some t' ∧ t' ≤ s.now)
        r4 (by intro r' h1 h2; cases h1; cases h2; exact r4 i _ hb hv)
    · intro c hc
      change (if r.isSome = true ∧ s.err.isNone = true ∧ s.ctxErr.isNone = true
        then some GoError.canceled else s.ctxErr) = some c at hc
      show _ ∨ (c = GoError.canceled ∧
        ((if s.err.isNone = true then r else s.err) ≠ none ∨ _))
      by_cases hcond : r.isSome = true ∧ s.err.isNone = true ∧ s.ctxErr.isNone = true
      · rw [if_pos hcond] at hc
        cases hc
        right
        refine ⟨rfl, Or.inl ?_⟩
        rw [if_pos hcond.2.1]
        intro hr; rw [hr] at hcond; simp at hcond
      · rw [if_neg hcond] at hc
        rcases r5 c hc with h1 | ⟨h1, h2 | h2⟩
        · exact Or.inl h1
        · exact Or.inr ⟨h1, Or.inl (herr h2)⟩
        · exact Or.inr ⟨h1, Or.inr h2⟩
    · show (if s.err.isNone = true then r else s.err) ≠ none →
        (if r.isSome = true ∧ s.err.isNone = true ∧ s.ctxErr.isNone = true
          then some GoError.canceled else s.ctxErr) ≠ none
      intro he
      by_cases hcond : r.isSome = true ∧ s.err.isNone = true ∧ s.ctxErr.isNone = true
      · rw [if_pos hcond]; simp
      · rw [if_neg hcond]
        cases hs : s.err with
        | none =>
          rw [hs] at he
          simp only [Option.isNone_none, if_true] at he
          intro hc
          apply hcond
          refine ⟨?_, by simp [hs], by simp [hc]⟩
          cases r with
          | none => exact absurd rfl he
          | some e => rfl
        | some e => exact r6 (by simp [hs])
    · refine forall_update (P := fun j t => ∀ b e, t = TaskState.completed b (some e) →
        (if s.err.isNone = true then r else s.err) ≠ none) ?_ ?_
      · intro j b' e hj
        exact herr (r7 j b' e hj)
      · intro b' e hbe
        simp only [TaskState.completed.injEq] at hbe
        obtain ⟨_, rfl⟩ := hbe
        cases hs : s.err with
        | none => simp
        | some e' => simp
    · exact forall_update (P := fun j t => ∀ st, t = TaskState.running st → st ≤ s.now)
        r8 (by intro st' h1; cases h1)
  | deadline =>
    obtain ⟨t, ht, hle, hnone, hres, rfl⟩ := step_deadline_inv h
    refine ⟨r1, r2, ?_, r4, ?_, ?_, r7, r8⟩
    · intro j r' h1 h2
      obtain ⟨f, c, _, hc, _⟩ := r3 j r' h1 h2
      rw [hnone] at hc; cases hc
    · intro c hc
      cases hc
      exact Or.inl ⟨rfl, t, ht, hle⟩
    · intro _; simp
  | wait =>
    obtain ⟨hpc, hwg, rfl⟩ := step_wait_inv h
    refine ⟨r1, r2, ?_, r4, ?_, ?_, r7, r8⟩
    · intro j r' h1 h2
      obtain ⟨f, c, hf, hc, hr⟩ := r3 j r' h1 h2
      refine ⟨f, c, hf, ?_, hr⟩
      show (if s.ctxErr.isNone = true then some GoError.canceled else s.ctxErr) = some c
      rw [if_neg (by simp [hc])]; exact hc
    · intro c hc
      change (if s.ctxErr.isNone = true then some GoError.canceled else s.ctxErr) = some c at hc
      by_cases hn : s.ctxErr.isNone = true
      · rw [if_pos hn] at hc
        cases hc
        exact Or.inr ⟨rfl, Or.inr (by simp [State.result])⟩
      · rw [if_neg hn] at hc
        rcases r5 c hc with h1 | ⟨h1, _⟩
        · exact Or.inl h1
        · exact Or.inr ⟨h1, Or.inr (by simp [State.result])⟩
    · intro _
      show (if s.ctxErr.isNone = true then some GoError.canceled else s.ctxErr) ≠ none
      by_cases hn : s.ctxErr.isNone = true
      · rw [if_pos hn]; simp
      · rw [if_neg hn]; simpa using hn
  | tick d =>
    obtain ⟨_, _, rfl⟩ := step_tick_inv h
    refine ⟨r1, ?_, r3, ?_, ?_, r6, r7, ?_⟩
    · intro j hj; have := r2 j hj; show _ ≤ s.now + d; omega
    · intro j r' h1 h2
      obtain ⟨hr, t, ht, hle⟩ := r4 j r' h1 h2
      exact ⟨hr, t, ht, by show t ≤ s.now + d; omega⟩
    · intro c hc
      rcases r5 c hc with ⟨h1, t, ht, hle⟩ | h1
      · exact Or.inl ⟨h1, t, ht, by show t ≤ s.now + d; omega⟩
      · exact Or.inr h1
    · intro j st hj; have := r8 j st hj; show st ≤ s.now + d; omega

theorem reach_runInv {p : Program} {s : State} (h : Reach p s) : RunInv p s :=
  reach_induction p (RunInv p) (runInv_init p)
    (fun _ _ _ _ hR hst => runInv_step hR hst) s h

/-! ## Root cause without a deadline -/

theorem rootInv_init (p : Program) : RootInv p (init p) := by
  refine ⟨?_, ?_⟩ <;> simp [init]

/-- Updating a task that is not completed leaves the completed ones alone. -/
theorem update_of_completed {f : Nat → TaskState} {i i₀ : Nat} {x : TaskState}
    {b : Branch} {r : Option GoError} (h₀ : f i₀ = TaskState.completed b r)
    (hi : (f i).isCompleted = false) : Function.update f i x i₀ = TaskState.completed b r := by
  have hne : i₀ ≠ i := by
    rintro rfl
    rw [h₀] at hi
    simp at hi
  rw [Function.update_noteq hne, h₀]

theorem rootInv_step {p : Program} {a : Action} {s s' : State} (hT : p.timeout = none)
    (hI : Inv p s) (hR : RunInv p s) (hN : RootInv p s) (h : step p a s = some s') :
    RootInv p s' := by
  obtain ⟨n1, n2⟩ := hN
  cases a with
  | send =>
    obtain ⟨n, _, _, _, rfl⟩ := step_send_inv h
    exact ⟨n1, n2⟩
  | go =>
    obtain ⟨hpc, rfl⟩ := step_go_inv h
    have hp := (hI.pending s.next).2 (le_refl _)
    refine ⟨?_, ?_⟩
    · exact forall_update (P := fun _ t => t.branch = some Branch.done → s.err ≠ none) n1
        (by intro h1; cases h1)
    · intro e he
      obtain ⟨i₀, b, h₀, hb⟩ := n2 e he
      exact ⟨i₀, b, update_of_completed h₀ (by rw [hp]; rfl), hb⟩
  | work i =>
    obtain ⟨st, hst, _, rfl⟩ := step_work_inv h
    refine ⟨?_, ?_⟩
    · exact forall_update (P := fun _ t => t.branch = some Branch.done → s.err ≠ none) n1
        (by intro h1; cases h1)
    · intro e he
      obtain ⟨i₀, b, h₀, hb⟩ := n2 e he
      exact ⟨i₀, b, update_of_completed h₀ (by rw [hst]; rfl), hb⟩
  | done i =>
    obtain ⟨st, f, c, hst, _, hc, rfl⟩ := step_done_inv h
    have herr : s.err ≠ none := by
      rcases hR.ctx_cause c hc with ⟨_, t, ht, _⟩ | ⟨_, h2 | h2⟩
      · rw [hT] at ht; cases ht
      · exact h2
      · exact absurd hst (hI.not_running_of_exited h2 i st)
    refine ⟨?_, ?_⟩
    · exact forall_update (P := fun _ t => t.branch = some Branch.done → s.err ≠ none) n1
        (fun _ => herr)
    · intro e he
      obtain ⟨i₀, b, h₀, hb⟩ := n2 e he
      exact ⟨i₀, b, update_of_completed h₀ (by rw [hst]; rfl), hb⟩
  | timeout i =>
    obtain ⟨st, t, hst, _, _, rfl⟩ := step_timeout_inv h
    refine ⟨?_, ?_⟩
    · exact forall_update (P := fun _ t => t.branch = some Branch.done → s.err ≠ none) n1
        (by intro h1; cases h1)
    · intro e he
      obtain ⟨i₀, b, h₀, hb⟩ := n2 e he
      exact ⟨i₀, b, update_of_completed h₀ (by rw [hst]; rfl), hb⟩
  | release i =>
    obtain ⟨b, r, hst, _, rfl⟩ := step_release_inv h
    have hb : (s.status i).branch = some b := by simp [hst]
    refine ⟨?_, ?_⟩
    · exact forall_update (P := fun _ t => t.branch = some Branch.done → s.err ≠ none) n1
        (by intro h1; cases h1; exact n1 i hb)
    · intro e he
      obtain ⟨i₀, b', h₀, hb'⟩ := n2 e he
      exact ⟨i₀, b', update_of_completed h₀ (by rw [hst]; rfl), hb'⟩
  | report i =>
    obtain ⟨b, r, hst, _, rfl⟩ := step_report_inv h
    have hb : (s.status i).branch = some b := by simp [hst]
    have herr : s.err ≠ none → (if s.err.isNone = true then r else s.err) = s.err := by
      intro he
      cases hs : s.err with
      | none => exact absurd hs he
      | some e => simp
    refine ⟨?_, ?_⟩
    · refine forall_update (P := fun _ t => t.branch = some Branch.done →
        (if s.err.isNone = true then r else s.err) ≠ none) ?_ ?_
      · intro j hj
        have := n1 j hj
        rw [herr this]; exact this
      · intro h1
        cases h1
        have := n1 i hb
        rw [herr this]; exact this
    · intro e he
      change (if s.err.isNone = true then r else s.err) = some e at he
      cases hs : s.err with
      | none =>
        rw [hs] at he
        simp only [Option.isNone_none, if_true] at he
        subst he
        refine ⟨i, b, by simp, ?_⟩
        rintro rfl
        exact n1 i hb hs
      | some e₀ =>
        rw [hs] at he
        simp only [Option.isNone_some, Bool.false_eq_true, if_false, Option.some.injEq] at he
        subst he
        obtain ⟨i₀, b', h₀, hb'⟩ := n2 e₀ hs
        exact ⟨i₀, b', update_of_completed h₀ (by rw [hst]; rfl), hb'⟩
  | deadline =>
    obtain ⟨t, ht, _⟩ := step_deadline_inv h
    rw [hT] at ht; cases ht
  | wait =>
    obtain ⟨_, _, rfl⟩ := step_wait_inv h
    exact ⟨n1, n2⟩
  | tick d =>
    obtain ⟨_, _, rfl⟩ := step_tick_inv h
    exact ⟨n1, n2⟩

theorem reach_rootInv {p : Program} (hT : p.timeout = none) {s : State} (h : Reach p s) :
    RootInv p s :=
  reach_induction p (RootInv p) (rootInv_init p)
    (fun _ _ _ hr hN hst => rootInv_step hT (reach_inv hr) (reach_runInv hr) hN hst) s h

/-- Without a deadline the recorded error is the value some task returned from
its timer case. -/
theorem err_from_work {p : Program} (hT : p.timeout = none) {s : State} (h : Reach p s)
    {e : GoError} (he : s.err = some e) :
    ∃ i, i < p.taskCount ∧ (p.task i).onWork = some e := by
  obtain ⟨i, b, hi, hb⟩ := (reach_rootInv hT h).origin e he
  have hR := reach_runInv h
  have hlt : i < p.taskCount := (reach_inv h).lt_of_status (by simp [hi])
  cases b with
  | work => exact ⟨i, hlt, (hR.work_val i (some e) (by simp [hi]) (by simp [hi])).symm⟩
  | done => exact absurd rfl hb
  | timeout =>
    have := (hR.tmo_val i (some e) (by simp [hi]) (by simp [hi])).1
    cases this

/-! ## Termination under the ideal clock -/

theorem sumUpTo_update (g : TaskState → Nat) (f : Nat → TaskState) (i n : Nat)
    (x : TaskState) (hi : i < n) :
    sumUpTo (fun j => g (Function.update f i x j)) n + g (f i) =
      sumUpTo (fun j => g (f j)) n + g x := by
  induction n with
  | zero => omega
  | succ n ih =>
    simp only [sumUpTo]
    by_cases hin : i = n
    · subst hin
      have hc : ∀ m, m ≤ i → sumUpTo (fun j => g (Function.update f i x j)) m =
          sumUpTo (fun j => g (f j)) m := by
        intro m hm
        induction m with
        | zero => rfl
        | succ m ihm =>
          simp only [sumUpTo]
          have hne : m ≠ i := by omega
          rw [ihm (by omega), Function.update_noteq hne]
      rw [hc i (le_refl _)]
      simp only [Function.update_same]
      omega
    · have := ih (by omega)
      have hne : n ≠ i := fun h => hin h.symm
      simp only [Function.update_noteq hne]
      omega

theorem mem_discreteActions {p : Program} {a : Action} :
    a ∈ discreteActions p ↔
      a = Action.send ∨ a = Action.go ∨ a = Action.deadline ∨ a = Action.wait ∨
      ∃ i, i < p.taskCount ∧ (a = Action.work i ∨ a = Action.done i ∨ a = Action.timeout i ∨
        a = Action.release i ∨ a = Action.report i) := by
  simp only [discreteActions, List.mem_append, List.mem_cons, List.mem_flatMap,
    List.mem_range, List.mem_singleton, List.not_mem_nil, or_false]
  constructor
  · rintro ((h | h | h | h) | ⟨i, hi, h⟩)
    · exact Or.inl h
    · exact Or.inr (Or.inl h)
    · exact Or.inr (Or.inr (Or.inl h))
    · exact Or.inr (Or.inr (Or.inr (Or.inl h)))
    · exact Or.inr (Or.inr (Or.inr (Or.inr ⟨i, hi, h⟩)))
  · rintro (h | h | h | h | ⟨i, hi, h⟩)
    · exact Or.inl (Or.inl h)
    · exact Or.inl (Or.inr (Or.inl h))
    · exact Or.inl (Or.inr (Or.inr (Or.inl h)))
    · exact Or.inl (Or.inr (Or.inr (Or.inr h)))
    · exact Or.inr ⟨i, hi, h⟩

theorem quiescent_iff {p : Program} {s : State} :
    quiescent p s = true ↔ ∀ a ∈ discreteActions p, step p a s = none := by
  simp [quiescent, List.all_eq_true]

theorem mem_dues {p : Program} {s : State} {t : Nat} :
    t ∈ dues p s ↔
      (p.timeout = some t ∧ s.ctxErr = none) ∨
      ∃ i st, i < p.taskCount ∧ s.status i = TaskState.running st ∧
        (t = st + (p.task i).work ∨ ∃ tm, (p.task i).ownTimeout = some tm ∧ t = st + tm) := by
  simp only [dues, List.mem_append, List.mem_flatMap, List.mem_range]
  constructor
  · rintro (h | ⟨i, hi, h⟩)
    · left
      split at h
      · rename_i T hT hC
        simp only [List.mem_singleton] at h
        subst h
        exact ⟨hT, hC⟩
      · simp at h
    · right
      split at h
      · rename_i st hst
        rcases List.mem_cons.1 h with h | h
        · exact ⟨i, st, hi, hst, Or.inl h⟩
        · split at h
          · rename_i tm htm
            simp only [List.mem_singleton] at h
            exact ⟨i, st, hi, hst, Or.inr ⟨tm, htm, h⟩⟩
          · simp at h
      · simp at h
  · rintro (⟨hT, hC⟩ | ⟨i, st, hi, hst, h⟩)
    · left
      rw [hT, hC]
      simp
    · right
      refine ⟨i, hi, ?_⟩
      rw [hst]
      rcases h with h | ⟨tm, htm, h⟩
      · simp [h]
      · simp [htm, h]

theorem ustep_tick_inv {p : Program} {s s' : State} {d : Nat}
    (h : ustep p (Action.tick d) s = some s') :
    quiescent p s = true ∧ (∀ t ∈ dues p s, s.now + d ≤ t) ∧ 0 < d ∧ s.result = none ∧
      s' = { s with now := s.now + d } := by
  simp only [ustep] at h
  split_ifs at h with hg
  obtain ⟨h1, h2, h3⟩ := step_tick_inv h
  refine ⟨hg.1, ?_, h1, h2, h3⟩
  have := hg.2
  simp only [List.all_eq_true, decide_eq_true_eq] at this
  exact this

theorem ustep_of_not_tick {p : Program} {a : Action} {s : State}
    (ha : ∀ d, a ≠ Action.tick d) : ustep p a s = step p a s := by
  cases a <;> first | rfl | exact absurd rfl (ha _)

/-- In a quiescent state every pending timer and deadline lies in the future. -/
theorem dues_future {p : Program} {s : State} (hq : quiescent p s = true)
    (hres : s.result = none) : ∀ t ∈ dues p s, s.now + 1 ≤ t := by
  intro t ht
  rw [quiescent_iff] at hq
  by_contra hlt
  have hle : t ≤ s.now := by omega
  rcases mem_dues.1 ht with ⟨hT, hC⟩ | ⟨i, st, hi, hst, h | ⟨tm, htm, h⟩⟩
  · have := hq Action.deadline (mem_discreteActions.2 (by simp))
    simp [step, hT, hC, hres, hle] at this
  · have := hq (Action.work i) (mem_discreteActions.2 (by
      right; right; right; right; exact ⟨i, hi, Or.inl rfl⟩))
    subst h
    simp [step, hst, hle] at this
  · have := hq (Action.timeout i) (mem_discreteActions.2 (by
      right; right; right; right; exact ⟨i, hi, Or.inr (Or.inr (Or.inl rfl))⟩))
    subst h
    simp [step, hst, htm, hle] at this

/-- Progress: a state in which `Wait` has not returned has a successor under the
ideal clock. -/
theorem ustep_progress (p : Program) (s : State) (hres : s.result = none) :
    ∃ a s', ustep p a s = some s' := by
  by_cases hq : quiescent p s = true
  · refine ⟨Action.tick 1, { s with now := s.now + 1 }, ?_⟩
    have hd := dues_future hq hres
    simp only [ustep, step]
    rw [if_pos, if_pos]
    · exact ⟨by omega, hres⟩
    · refine ⟨hq, ?_⟩
      simp only [List.all_eq_true, decide_eq_true_eq]
      exact hd
  · have : ∃ a ∈ discreteActions p, step p a s ≠ none := by
      by_contra hcon
      apply hq
      rw [quiescent_iff]
      intro a ha
      by_contra hne
      exact hcon ⟨a, ha, hne⟩
    obtain ⟨a, ha, hne⟩ := this
    obtain ⟨s', hs'⟩ := Option.ne_none_iff_exists'.1 hne
    refine ⟨a, s', ?_⟩
    rw [ustep_of_not_tick, hs']
    intro d hd
    subst hd
    rcases mem_discreteActions.1 ha with h | h | h | h | ⟨i, _, h | h | h | h | h⟩ <;> cases h

@[simp] theorem stepsLeft_pending : TaskState.pending.stepsLeft = 3 := rfl
@[simp] theorem stepsLeft_running (st : Nat) : (TaskState.running st).stepsLeft = 3 := rfl
@[simp] theorem stepsLeft_returned (b : Branch) (r : Option GoError) :
    (TaskState.returned b r).stepsLeft = 2 := rfl
@[simp] theorem stepsLeft_released (b : Branch) (r : Option GoError) :
    (TaskState.released b r).stepsLeft = 1 := rfl
@[simp] theorem stepsLeft_completed (b : Branch) (r : Option GoError) :
    (TaskState.completed b r).stepsLeft = 0 := rfl

/-- Every action other than the passing of time lowers `stepsLeft`. -/
theorem stepsLeft_lt {p : Program} {a : Action} {s s' : State} (hI : Inv p s)
    (h : step p a s = some s') (ha : ∀ d, a ≠ Action.tick d) :
    stepsLeft p s' < stepsLeft p s := by
  cases a with
  | send =>
    obtain ⟨n, hc, hpc, _, rfl⟩ := step_send_inv h
    have hcs : p.capacity.isSome = true := by simp [hc]
    simp only [stepsLeft, mainLeft, hpc, hcs, if_true]
    omega
  | go =>
    obtain ⟨hpc, rfl⟩ := step_go_inv h
    have hlt := hI.pc_launch hpc
    have hp := (hI.pending s.next).2 (le_refl _)
    have hsum := sumUpTo_update TaskState.stepsLeft s.status s.next p.taskCount
      (TaskState.running s.now) hlt
    rw [hp] at hsum
    simp only [stepsLeft_pending, stepsLeft_running] at hsum
    simp only [stepsLeft, mainLeft, hpc]
    rcases loopHead_cases p (s.next + 1) with ⟨h1, h2, h3⟩ | ⟨h1, h2, h3⟩ | ⟨h1, h3⟩
    · simp only [h3, h2, if_true]; omega
    · simp only [h3, h2, Bool.false_eq_true, if_false]; omega
    · simp only [h3]
      split_ifs <;> omega
  | work i =>
    obtain ⟨st, hst, _, rfl⟩ := step_work_inv h
    have hi : i < p.taskCount := hI.lt_of_status (by simp [hst])
    have hsum := sumUpTo_update TaskState.stepsLeft s.status i p.taskCount
      (TaskState.returned Branch.work (p.task i).onWork) hi
    rw [hst] at hsum
    simp only [stepsLeft_returned, stepsLeft_running] at hsum
    simp only [stepsLeft, mainLeft]
    omega
  | done i =>
    obtain ⟨st, f, c, hst, _, _, rfl⟩ := step_done_inv h
    have hi : i < p.taskCount := hI.lt_of_status (by simp [hst])
    have hsum := sumUpTo_update TaskState.stepsLeft s.status i p.taskCount
      (TaskState.returned Branch.done (f c)) hi
    rw [hst] at hsum
    simp only [stepsLeft_returned, stepsLeft_running] at hsum
    simp only [stepsLeft, mainLeft]
    omega
  | timeout i =>
    obtain ⟨st, t, hst, _, _, rfl⟩ := step_timeout_inv h
    have hi : i < p.taskCount := hI.lt_of_status (by simp [hst])
    have hsum := sumUpTo_update TaskState.stepsLeft s.status i p.taskCount
      (TaskState.returned Branch.timeout none) hi
    rw [hst] at hsum
    simp only [stepsLeft_returned, stepsLeft_running] at hsum
    simp only [stepsLeft, mainLeft]
    omega
  | release i =>
    obtain ⟨b, r, hst, _, rfl⟩ := step_release_inv h
    have hi : i < p.taskCount := hI.lt_of_status (by simp [hst])
    have hsum := sumUpTo_update TaskState.stepsLeft s.status i p.taskCount
      (TaskState.released b r) hi
    rw [hst] at hsum
    simp only [stepsLeft_returned, stepsLeft_released] at hsum
    simp only [stepsLeft, mainLeft]
    omega
  | report i =>
    obtain ⟨b, r, hst, _, rfl⟩ := step_report_inv h
    have hi : i < p.taskCount := hI.lt_of_status (by simp [hst])
    have hsum := sumUpTo_update TaskState.stepsLeft s.status i p.taskCount
      (TaskState.completed b r) hi
    rw [hst] at hsum
    simp only [stepsLeft_completed, stepsLeft_released] at hsum
    simp only [stepsLeft, mainLeft]
    have hd : (if p.timeout.isSome = true ∧
        (if r.isSome = true ∧ s.err.isNone = true ∧ s.ctxErr.isNone = true
          then some GoError.canceled else s.ctxErr) = none then 1 else 0) ≤
        (if p.timeout.isSome = true ∧ s.ctxErr = none then 1 else 0) := by
      by_cases hc : s.ctxErr = none
      · split_ifs <;> simp_all
      · have : (if r.isSome = true ∧ s.err.isNone = true ∧ s.ctxErr.isNone = true
          then some GoError.canceled else s.ctxErr) ≠ none := by
          split_ifs <;> simp_all
        simp [this, hc]
    omega
  | deadline =>
    obtain ⟨t, ht, _, hc, _, rfl⟩ := step_deadline_inv h
    simp only [stepsLeft, mainLeft, ht, hc]
    simp
  | wait =>
    obtain ⟨hpc, _, rfl⟩ := step_wait_inv h
    simp only [stepsLeft, mainLeft, hpc]
    have hd : (if p.timeout.isSome = true ∧
        (if s.ctxErr.isNone = true then some GoError.canceled else s.ctxErr) = none
          then 1 else 0) ≤
        (if p.timeout.isSome = true ∧ s.ctxErr = none then 1 else 0) := by
      by_cases hc : s.ctxErr = none
      · split_ifs <;> simp_all
      · have : (if s.ctxErr.isNone = true then some GoError.canceled else s.ctxErr) ≠ none := by
          split_ifs <;> simp_all
        simp [this, hc]
    omega
  | tick d => exact absurd rfl (ha d)

theorem sum_sub_lt (l : List Nat) (n d : Nat) (hl : l ≠ []) (hd : 0 < d)
    (h : ∀ t ∈ l, n + d ≤ t) :
    (l.map (fun t => t - (n + d))).sum < (l.map (fun t => t - n)).sum := by
  induction l with
  | nil => exact absurd rfl hl
  | cons x l ih =>
    have hx := h x (List.mem_cons_self _ _)
    simp only [List.map_cons, List.sum_cons]
    by_cases hl' : l = []
    · subst hl'
      simp only [List.map_nil, List.sum_nil]
      omega
    · have := ih hl' (fun t ht => h t (List.mem_cons_of_mem _ ht))
      omega

/-- In a reachable quiescent state before the return of `Wait`, some task is
inside its body, provided the semaphore has room for one task. -/
theorem exists_running {p : Program} {s : State} (hcap : p.capacity ≠ some 0)
    (hI : Inv p s) (hq : quiescent p s = true) (hres : s.result = none) :
    ∃ i st, i < p.taskCount ∧ s.status i = TaskState.running st := by
  rw [quiescent_iff] at hq
  have hrel : ∀ i, i < p.taskCount → ∀ b r, s.status i ≠ TaskState.returned b r := by
    intro i hi b r hst
    have := hq (Action.release i) (mem_discreteActions.2 (by
      right; right; right; right; exact ⟨i, hi, Or.inr (Or.inr (Or.inr (Or.inl rfl)))⟩))
    have hsem := hI.sem_eq
    by_cases hcs : p.capacity.isSome = true
    · have hpos : 0 < s.runningCount p := by
        by_contra h0
        have h0' : countUpTo (fun j => (s.status j).holdsSlot) p.taskCount = 0 := by
          simp only [State.runningCount] at h0; omega
        have := countUpTo_eq_zero h0' i hi
        simp [hst] at this
      rw [if_pos hcs] at hsem
      simp [step, hst, hcs] at this
      omega
    · simp [step, hst, hcs] at this
  have hrep : ∀ i, i < p.taskCount → ∀ b r, s.status i ≠ TaskState.released b r := by
    intro i hi b r hst
    have := hq (Action.report i) (mem_discreteActions.2 (by
      right; right; right; right; exact ⟨i, hi, Or.inr (Or.inr (Or.inr (Or.inr rfl)))⟩))
    have hpos : 0 < s.wg := by
      by_contra h0
      have h0' : countUpTo (fun j => (s.status j).live) p.taskCount = 0 := by
        have := hI.wg_eq; omega
      have := countUpTo_eq_zero h0' i hi
      simp [hst] at this
    simp [step, hst, hpos] at this
  cases hpc : s.pc with
  | exited r => simp [State.result, hpc] at hres
  | launch =>
    have := hq Action.go (mem_discreteActions.2 (by simp))
    simp [step, hpc] at this
  | acquire =>
    obtain ⟨hlt, hcs⟩ := hI.pc_acquire hpc
    obtain ⟨n, hn⟩ := Option.isSome_iff_exists.1 hcs
    have := hq Action.send (mem_discreteActions.2 (by simp))
    simp only [step, hn, hpc, true_and] at this
    have hfull : ¬ s.sem < n := by
      intro hlt'
      simp [hlt'] at this
    have hn0 : n ≠ 0 := by
      rintro rfl
      exact hcap hn
    have hsem := hI.sem_eq
    rw [if_pos hcs, hpc, if_neg (by decide)] at hsem
    have hpos : 0 < countUpTo (fun j => (s.status j).holdsSlot) p.taskCount := by
      simp only [State.runningCount] at hsem
      omega
    obtain ⟨i, hi, hh⟩ := countUpTo_pos hpos
    cases hst : s.status i with
    | running st => exact ⟨i, st, hi, hst⟩
    | returned b r => exact absurd hst (hrel i hi b r)
    | pending => simp [hst] at hh
    | released b r => simp [hst] at hh
    | completed b r => simp [hst] at hh
  | wait =>
    have := hq Action.wait (mem_discreteActions.2 (by simp))
    simp only [step, hpc, true_and] at this
    have hwg : s.wg ≠ 0 := by
      intro h0
      simp [h0] at this
    have hpos : 0 < countUpTo (fun j => (s.status j).live) p.taskCount := by
      have := hI.wg_eq; omega
    obtain ⟨i, hi, hh⟩ := countUpTo_pos hpos
    cases hst : s.status i with
    | running st => exact ⟨i, st, hi, hst⟩
    | returned b r => exact absurd hst (hrel i hi b r)
    | released b r => exact absurd hst (hrep i hi b r)
    | pending => simp [hst] at hh
    | completed b r => simp [hst] at hh

/-- The passing of time keeps `stepsLeft` and lowers `timeLeft`. -/
theorem timeLeft_lt {p : Program} {s s' : State} {d : Nat} (hcap : p.capacity ≠ some 0)
    (hI : Inv p s) (h : ustep p (Action.tick d) s = some s') :
    stepsLeft p s' = stepsLeft p s ∧ timeLeft p s' < timeLeft p s := by
  obtain ⟨hq, hdue, hd, hres, rfl⟩ := ustep_tick_inv h
  refine ⟨rfl, ?_⟩
  obtain ⟨i, st, hi, hst⟩ := exists_running hcap hI hq hres
  have hne : dues p s ≠ [] := by
    have : st + (p.task i).work ∈ dues p s :=
      mem_dues.2 (Or.inr ⟨i, st, hi, hst, Or.inl rfl⟩)
    intro h0
    rw [h0] at this
    simp at this
  exact sum_sub_lt (dues p s) s.now d hne hd hdue

/-- Termination: from every state reached under the ideal clock, `Wait`
returns after finitely many further actions, provided the semaphore (if any)
has room for one task. -/
theorem wait_returns {p : Program} (hcap : p.capacity ≠ some 0) :
    ∀ s, UReach p s → ∃ acts s', uexec p s acts = some s' ∧ s'.result ≠ none := by
  have key : ∀ n m s, stepsLeft p s = n → timeLeft p s = m → UReach p s →
      ∃ acts s', uexec p s acts = some s' ∧ s'.result ≠ none := by
    intro n
    induction n using Nat.strong_induction_on with
    | _ n ihn =>
      intro m
      induction m using Nat.strong_induction_on with
      | _ m ihm =>
        intro s hn hm hs
        by_cases hres : s.result = none
        · obtain ⟨a, s', hst⟩ := ustep_progress p s hres
          have hs' : UReach p s' := hs.usucc_state hst
          have hI := reach_inv hs.reach
          have hrec : ∃ acts s'', uexec p s' acts = some s'' ∧ s''.result ≠ none := by
            by_cases ha : ∃ d, a = Action.tick d
            · obtain ⟨d, rfl⟩ := ha
              obtain ⟨h1, h2⟩ := timeLeft_lt hcap hI hst
              exact ihm (timeLeft p s') (by omega) s' (by omega) rfl hs'
            · have ha' : ∀ d, a ≠ Action.tick d := fun d hd => ha ⟨d, hd⟩
              have hlt := stepsLeft_lt hI (ustep_step hst) ha'
              exact ihn (stepsLeft p s') (by omega) (timeLeft p s') s' rfl rfl hs'
          obtain ⟨acts, s'', he, hr⟩ := hrec
          refine ⟨a :: acts, s'', ?_, hr⟩
          simp [uexec, hst, he]
        · exact ⟨[], s, rfl, hres⟩
  intro s hs
  exact key _ _ s rfl rfl hs

/-- Every state of a run under the ideal clock is reachable. -/
theorem run_ureach {p : Program} {f : Nat → State} (h0 : f 0 = init p)
    (hf : ∀ n, ∃ a, ustep p a (f n) = some (f (n + 1))) : ∀ n, UReach p (f n) := by
  intro n
  induction n with
  | zero => rw [h0]; exact ⟨[], rfl⟩
  | succ n ih =>
    obtain ⟨a, ha⟩ := hf n
    exact ih.usucc_state ha

/-- Under the ideal clock the program always reaches the return of `Wait`,
provided the semaphore (if any) has room for one task. -/
theorem alwaysReturns_of_capacity {p : Program} (hcap : p.capacity ≠ some 0) :
    AlwaysReturns p := by
  refine ⟨fun s _ hres => ustep_progress p s hres, ?_⟩
  rintro ⟨f, h0, hf⟩
  have hreach := run_ureach h0 hf
  have key : ∀ a b n, stepsLeft p (f n) = a → timeLeft p (f n) = b → False := by
    intro a
    induction a using Nat.strong_induction_on with
    | _ a iha =>
      intro b
      induction b using Nat.strong_induction_on with
      | _ b ihb =>
        intro n ha hb
        obtain ⟨act, hact⟩ := hf n
        have hI := reach_inv (hreach n).reach
        by_cases ht : ∃ d, act = Action.tick d
        · obtain ⟨d, rfl⟩ := ht
          obtain ⟨h1, h2⟩ := timeLeft_lt hcap hI hact
          exact ihb (timeLeft p (f (n + 1))) (by omega) (n + 1) (by omega) rfl
        · have ha' : ∀ d, act ≠ Action.tick d := fun d hd => ht ⟨d, hd⟩
          have hlt := stepsLeft_lt hI (ustep_step hact) ha'
          exact iha (stepsLeft p (f (n + 1))) (by omega) (timeLeft p (f (n + 1))) (n + 1) rfl rfl
  exact key _ _ 0 rfl rfl

/-! ## C3: first failure wins -/

theorem result_exited {s : State} (h : s.result ≠ none) : ∃ r, s.pc = MainPc.exited r := by
  cases hpc : s.pc with
  | exited r => exact ⟨r, rfl⟩
  | acquire => simp [State.result, hpc] at h
  | launch => simp [State.result, hpc] at h
  | wait => simp [State.result, hpc] at h

theorem order_perm {p : Program} {s : State} (hs : Reach p s) {r : Option GoError}
    (hpc : s.pc = MainPc.exited r) : (s.order.map Prod.fst).Perm (List.range p.taskCount) := by
  have hI := reach_inv hs
  have hO := reach_ordInv hs
  rw [List.perm_ext_iff_of_nodup hO.nodup (List.nodup_range _)]
  intro i
  rw [List.mem_range]
  constructor
  · intro hi
    obtain ⟨⟨j, e⟩, hje, rfl⟩ := List.mem_map.1 hi
    obtain ⟨b, hb⟩ := (hO.mem j e).1 hje
    exact hI.lt_of_status (by simp [hb])
  · intro hi
    have hc := hI.all_completed hpc i hi
    cases hst : s.status i with
    | completed b e => exact List.mem_map.2 ⟨(i, e), (hO.mem i e).2 ⟨b, hst⟩, rfl⟩
    | pending => simp [hst] at hc
    | running st => simp [hst] at hc
    | returned b e => simp [hst] at hc
    | released b e => simp [hst] at hc

theorem err_stable {p : Program} {a : Action} {s s' : State} {e : GoError}
    (h : step p a s = some s') (he : s.err = some e) : s'.err = some e := by
  cases a with
  | send => obtain ⟨n, _, _, _, rfl⟩ := step_send_inv h; exact he
  | go => obtain ⟨_, rfl⟩ := step_go_inv h; exact he
  | work i => obtain ⟨st, _, _, rfl⟩ := step_work_inv h; exact he
  | done i => obtain ⟨st, f, c, _, _, _, rfl⟩ := step_done_inv h; exact he
  | timeout i => obtain ⟨st, t, _, _, _, rfl⟩ := step_timeout_inv h; exact he
  | release i => obtain ⟨b, r, _, _, rfl⟩ := step_release_inv h; exact he
  | report i =>
    obtain ⟨b, r, _, _, rfl⟩ := step_report_inv h
    show (if s.err.isNone = true then r else s.err) = some e
    rw [he]; simp
  | deadline => obtain ⟨t, _, _, _, _, rfl⟩ := step_deadline_inv h; exact he
  | wait => obtain ⟨_, _, rfl⟩ := step_wait_inv h; exact he
  | tick d => obtain ⟨_, _, rfl⟩ := step_tick_inv h; exact he

/-- In errorgroup-base a task that has returned left through its timer, except
`fetchInventoryInfo`. -/
theorem eb_branch_work {s : State} (hs : Reach ErrorgroupBase.main s) {i : Nat} (hi : i < 2)
    {b : Branch} {v : Option GoError} (hb : (s.status i).branch = some b)
    (hv : (s.status i).value = some v) : b = Branch.work := by
  have hR := reach_runInv hs
  cases b with
  | work => rfl
  | done =>
    obtain ⟨f, c, hf, _⟩ := hR.done_val i v hb hv
    interval_cases i <;> simp [ErrorgroupBase.main, ErrorgroupBase.fetchUserInfo,
      ErrorgroupBase.fetchProductInfo] at hf
  | timeout =>
    obtain ⟨_, t, ht, _⟩ := hR.tmo_val i v hb hv
    interval_cases i <;> simp [ErrorgroupBase.main, ErrorgroupBase.fetchUserInfo,
      ErrorgroupBase.fetchProductInfo] at ht

theorem eb_result {s : State} (hs : Reach ErrorgroupBase.main s) {r : Option GoError}
    (hpc : s.pc = MainPc.exited r) : r = some (GoError.errorf "获取用户信息失败") := by
  have hI := reach_inv hs
  have hR := reach_runInv hs
  have hr : r = s.err := (reach_ordInv hs).exit_eq r hpc
  have hc := hI.all_completed hpc 0 (by decide)
  have hne : s.err ≠ none := by
    cases hst : s.status 0 with
    | completed b v =>
      have hb := eb_branch_work hs (i := 0) (by decide) (b := b) (v := v) (by simp [hst])
        (by simp [hst])
      subst hb
      have hv := hR.work_val 0 v (by simp [hst]) (by simp [hst])
      rw [hv] at hst
      exact hR.completed_err 0 Branch.work _ hst
    | pending => simp [hst] at hc
    | running st => simp [hst] at hc
    | returned b e => simp [hst] at hc
    | released b e => simp [hst] at hc
  obtain ⟨e, he⟩ := Option.ne_none_iff_exists'.1 hne
  obtain ⟨i, hi, hw⟩ := err_from_work rfl hs he
  have hi3 : i < 3 := hi
  rw [hr, he]
  interval_cases i
  · simp [ErrorgroupBase.main, ErrorgroupBase.fetchUserInfo] at hw
    rw [hw]
  · simp [ErrorgroupBase.main, ErrorgroupBase.fetchProductInfo] at hw
  · simp [ErrorgroupBase.main, ErrorgroupBase.fetchInventoryInfo] at hw

theorem cb_result {seed : Nat → Nat} {s : State} (hs : Reach (ChannelBase.main seed) s)
    {r : Option GoError} (hpc : s.pc = MainPc.exited r) : r = none := by
  have hr : r = s.err := (reach_ordInv hs).exit_eq r hpc
  rw [hr]
  by_contra hne
  obtain ⟨e, he⟩ := Option.ne_none_iff_exists'.1 hne
  obtain ⟨i, _, hw⟩ := err_from_work rfl hs he
  simp [ChannelBase.main, ChannelBase.crawlURL] at hw

/-- C3: `Wait` returns the first non-nil value in completion order. For every
program and every run, scheduling delays included: when `Wait` returns, `order`
lists every launched task exactly once with the value it returned, the result
is the first non-nil value of that list (so it is `nil` exactly when every task
returned `nil`), and an error once recorded is never replaced. In
errorgroup-base every run returns the error of `fetchUserInfo` (in the ideal run
`fetchInventoryInfo` reports `context.Canceled` afterwards); in channel-base every
run returns `nil`, for every random draw; and under the ideal clock both programs
always reach the return of `Wait`. -/
theorem first_failure_wins :
    (∀ (p : Program) (s : State) (r : Option GoError), Reach p s → s.pc = MainPc.exited r →
      r = firstError (s.order.map Prod.snd) ∧
      (s.order.map Prod.fst).Perm (List.range p.taskCount) ∧
      (∀ i e, (i, e) ∈ s.order ↔ ∃ b, s.status i = TaskState.completed b e) ∧
      (r = none ↔ ∀ x ∈ s.order, x.2 = none) ∧
      (∀ e, r = some e →
        ∃ l₁ l₂, s.order.map Prod.snd = l₁ ++ some e :: l₂ ∧ ∀ x ∈ l₁, x = none)) ∧
    (∀ (p : Program) (a : Action) (s s' : State) (e : GoError),
      step p a s = some s' → s.err = some e → s'.err = some e) ∧
    (∀ s r, Reach ErrorgroupBase.main s → s.pc = MainPc.exited r →
      r = some (GoError.errorf "获取用户信息失败")) ∧
    (∃ s, uexec ErrorgroupBase.main (init ErrorgroupBase.main)
        (errorgroupUntilFailure ++ errorgroupRest) = some s ∧
      s.pc = MainPc.exited (some (GoError.errorf "获取用户信息失败")) ∧
      s.order = [(0, some (GoError.errorf "获取用户信息失败")), (2, some GoError.canceled),
        (1, none)]) ∧
    (∀ seed s r, Reach (ChannelBase.main seed) s → s.pc = MainPc.exited r → r = none) ∧
    (∀ seed, ∃ acts s, uexec (ChannelBase.main seed) (init (ChannelBase.main seed)) acts =
      some s ∧ s.pc = MainPc.exited none) ∧
    AlwaysReturns ErrorgroupBase.main ∧
    (∀ seed, AlwaysReturns (ChannelBase.main seed)) := by
  refine ⟨?_, ?_, ?_, ?_, ?_, ?_, alwaysReturns_of_capacity (by simp [ErrorgroupBase.main]),
    fun seed => alwaysReturns_of_capacity
      (by simp [ChannelBase.main, ChannelBase.maxConcurrency])⟩
  · intro p s r hs hpc
    have hO := reach_ordInv hs
    have hr : r = firstError (s.order.map Prod.snd) := by
      rw [← hO.err_eq]; exact hO.exit_eq r hpc
    refine ⟨hr, order_perm hs hpc, hO.mem, ?_, ?_⟩
    · rw [hr, firstError_eq_none]
      constructor
      · intro h x hx
        exact h x.2 (List.mem_map.2 ⟨x, hx, rfl⟩)
      · intro h v hv
        obtain ⟨x, hx, rfl⟩ := List.mem_map.1 hv
        exact h x hx
    · intro e he
      rw [hr] at he
      exact firstError_eq_some.1 he
  · intro p a s s' e h he
    exact err_stable h he
  · intro s r hs hpc
    exact eb_result hs hpc
  · obtain ⟨s, hs, hf⟩ := ucheckAfter_spec
      (by decide : ucheckAfter ErrorgroupBase.main (errorgroupUntilFailure ++ errorgroupRest)
        (fun s => decide (s.pc = MainPc.exited (some (GoError.errorf "获取用户信息失败")) ∧
          s.order = [(0, some (GoError.errorf "获取用户信息失败")),
            (2, some GoError.canceled), (1, none)])) = true)
    simp only [decide_eq_true_eq] at hf
    exact ⟨s, hs, hf.1, hf.2⟩
  · intro seed s r hs hpc
    exact cb_result hs hpc
  · intro seed
    obtain ⟨acts, s, hs, hres⟩ := wait_returns (p := ChannelBase.main seed)
      (by simp [ChannelBase.main, ChannelBase.maxConcurrency]) (init _) ⟨[], rfl⟩
    obtain ⟨r, hpc⟩ := result_exited hres
    have := cb_result (UReach.reach ⟨acts, hs⟩) hpc
    subst this
    exact ⟨acts, s, hs, hpc⟩

/-! ## C4: `Wait` joins every launched function -/

/-- C4: `Wait` never returns while a launched function is incomplete. For every
program and every run, scheduling delays included, the return of `Wait` is
enabled only once every function passed to `Go` has completed, and past `Wait`
all of them have. In errorgroup-base `Wait` therefore returns no earlier than
2000ms: in the ideal run the first error is recorded at 1500ms, `Wait` cannot
return there, and it returns at 2000ms. -/
theorem wait_joins_all :
    (∀ (p : Program) (s : State) (r : Option GoError), Reach p s → s.pc = MainPc.exited r →
      ∀ i, i < p.taskCount → (s.status i).isCompleted = true) ∧
    (∀ (p : Program) (s s' : State), Reach p s → step p Action.wait s = some s' →
      ∀ i, i < p.taskCount → (s.status i).isCompleted = true) ∧
    (∀ s r, Reach ErrorgroupBase.main s → s.pc = MainPc.exited r → 2000 ≤ s.now) ∧
    (∃ s, uexec ErrorgroupBase.main (init ErrorgroupBase.main) errorgroupUntilFailure = some s ∧
      s.now = 1500 ∧ s.err = some (GoError.errorf "获取用户信息失败") ∧ s.result = none ∧
      step ErrorgroupBase.main Action.wait s = none) ∧
    (∃ s, uexec ErrorgroupBase.main (init ErrorgroupBase.main)
        (errorgroupUntilFailure ++ errorgroupRest) = some s ∧
      s.now = 2000 ∧ s.result = some (some (GoError.errorf "获取用户信息失败"))) := by
  refine ⟨?_, ?_, ?_, ?_, ?_⟩
  · intro p s r hs hpc
    exact (reach_inv hs).all_completed hpc
  · intro p s s' hs hst
    obtain ⟨hpc, hwg, _⟩ := step_wait_inv hst
    exact (reach_inv hs).all_completed_of_wait hpc hwg
  · intro s r hs hpc
    have hI := reach_inv hs
    have hR := reach_runInv hs
    have hc := hI.all_completed hpc 1 (by decide)
    cases hst : s.status 1 with
    | completed b v =>
      have hb := eb_branch_work hs (i := 1) (by decide) (b := b) (v := v) (by simp [hst])
        (by simp [hst])
      subst hb
      exact hR.work_time 1 (by simp [hst])
    | pending => simp [hst] at hc
    | running st => simp [hst] at hc
    | returned b e => simp [hst] at hc
    | released b e => simp [hst] at hc
  · obtain ⟨s, hs, hf⟩ := ucheckAfter_spec
      (by decide : ucheckAfter ErrorgroupBase.main errorgroupUntilFailure
        (fun s => decide (s.now = 1500 ∧ s.err = some (GoError.errorf "获取用户信息失败") ∧
          s.result = none) && (step ErrorgroupBase.main Action.wait s).isNone) = true)
    simp only [Bool.and_eq_true, decide_eq_true_eq, Option.isNone_iff_eq_none] at hf
    exact ⟨s, hs, hf.1.1, hf.1.2.1, hf.1.2.2, hf.2⟩
  · obtain ⟨s, hs, hf⟩ := ucheckAfter_spec
      (by decide : ucheckAfter ErrorgroupBase.main (errorgroupUntilFailure ++ errorgroupRest)
        (fun s => decide (s.now = 2000 ∧
          s.result = some (some (GoError.errorf "获取用户信息失败")))) = true)
    simp only [decide_eq_true_eq] at hf
    exact ⟨s, hs, hf.1, hf.2⟩

/-! ## C2: release pairing -/

@[simp] theorem hasReleased_pending : TaskState.pending.hasReleased = false := rfl
@[simp] theorem hasReleased_running (st : Nat) : (TaskState.running st).hasReleased = false := rfl
@[simp] theorem hasReleased_returned (b : Branch) (r : Option GoError) :
    (TaskState.returned b r).hasReleased = false := rfl
@[simp] theorem hasReleased_released (b : Branch) (r : Option GoError) :
    (TaskState.released b r).hasReleased = true := rfl
@[simp] theorem hasReleased_completed (b : Branch) (r : Option GoError) :
    (TaskState.completed b r).hasReleased = true := rfl

theorem acquires_snoc (acts : List Action) (a : Action) :
    acquires (acts ++ [a]) = acquires acts + (if a = Action.send then 1 else 0) := by
  simp [acquires, List.count_append, List.count_singleton]

theorem releasesOf_snoc (i : Nat) (acts : List Action) (a : Action) :
    releasesOf i (acts ++ [a]) = releasesOf i acts + (if a = Action.release i then 1 else 0) := by
  simp [releasesOf, List.count_append, List.count_singleton]

theorem releases_snoc (acts : List Action) (a : Action) :
    releases (acts ++ [a]) = releases acts + (if a.isRelease = true then 1 else 0) := by
  simp [releases, List.countP_append, List.countP_cons, List.countP_nil]

theorem traceInv_init (p : Program) : TraceInv p [] (init p) := by
  refine ⟨?_, ?_, ?_⟩
  · intro hc
    rcases loopHead_cases p 0 with ⟨_, _, c⟩ | ⟨_, b, _⟩ | ⟨_, c⟩
    · simp [acquires, init, c]
    · rw [hc] at b; cases b
    · simp [acquires, init, c]
  · intro _; simp [acquires, releases, init]
  · intro i; simp [releasesOf, init]

/-- A step that changes only the state of task `i`, keeping `hasReleased`, and
is not a receive, keeps the count of receives of every task. -/
theorem rel_update {s : State} {acts : List Action} {a : Action} {i : Nat} {x : TaskState}
    (hrel : ∀ j, releasesOf j acts = if (s.status j).hasReleased = true then 1 else 0)
    (ha : a.isRelease = false) (hx : x.hasReleased = (s.status i).hasReleased) :
    ∀ j, releasesOf j (acts ++ [a]) =
      if (Function.update s.status i x j).hasReleased = true then 1 else 0 := by
  intro j
  have hne : a ≠ Action.release j := by
    rintro rfl
    simp [Action.isRelease] at ha
  rw [releasesOf_snoc, if_neg hne, hrel j]
  by_cases hj : j = i
  · subst hj; simp [hx]
  · simp [Function.update_noteq hj]

theorem rel_same {s : State} {acts : List Action} {a : Action}
    (hrel : ∀ j, releasesOf j acts = if (s.status j).hasReleased = true then 1 else 0)
    (ha : a.isRelease = false) :
    ∀ j, releasesOf j (acts ++ [a]) = if (s.status j).hasReleased = true then 1 else 0 := by
  intro j
  have hne : a ≠ Action.release j := by
    rintro rfl
    simp [Action.isRelease] at ha
  rw [releasesOf_snoc, if_neg hne, hrel j, Nat.add_zero]

theorem traceInv_step {p : Program} {acts : List Action} {a : Action} {s s' : State}
    (hI : Inv p s) (hT : TraceInv p acts s) (h : step p a s = some s') :
    TraceInv p (acts ++ [a]) s' := by
  obtain ⟨t1, t2, t3⟩ := hT
  cases a with
  | send =>
    obtain ⟨n, hc, hpc, _, rfl⟩ := step_send_inv h
    refine ⟨?_, ?_, rel_same t3 rfl⟩
    · intro hcs
      have := t1 hcs
      rw [hpc, if_neg (by simp)] at this
      rw [acquires_snoc]
      simp only [if_true]
      omega
    · intro hcs
      have := t2 hcs
      rw [acquires_snoc, releases_snoc]
      simp only [Action.isRelease, if_true, Bool.false_eq_true, if_false]
      omega
  | go =>
    obtain ⟨hpc, rfl⟩ := step_go_inv h
    have hp := (hI.pending s.next).2 (le_refl _)
    refine ⟨?_, ?_, rel_update t3 rfl (by rw [hp]; rfl)⟩
    · intro hcs
      have := t1 hcs
      rw [hpc] at this
      rw [acquires_snoc, if_neg (by simp)]
      have hl : p.loopHead (s.next + 1) ≠ MainPc.launch := by
        rcases loopHead_cases p (s.next + 1) with ⟨_, _, c⟩ | ⟨_, b, _⟩ | ⟨_, c⟩
        · rw [c]; decide
        · rw [hcs] at b; cases b
        · rw [c]; decide
      simp only [if_true] at this
      simp only [hl, if_false]
      omega
    · intro hcs
      have := t2 hcs
      rw [acquires_snoc, releases_snoc]
      simp only [Action.isRelease, Bool.false_eq_true, if_false]
      rw [if_neg (by simp)]
      omega
  | work i =>
    obtain ⟨st, hst, _, rfl⟩ := step_work_inv h
    refine ⟨?_, ?_, rel_update t3 rfl (by rw [hst]; rfl)⟩
    · intro hcs; rw [acquires_snoc, if_neg (by simp)]; exact t1 hcs
    · intro hcs
      rw [acquires_snoc, if_neg (by simp), releases_snoc]
      simp only [Action.isRelease, Bool.false_eq_true, if_false]
      exact t2 hcs
  | done i =>
    obtain ⟨st, f, c, hst, _, _, rfl⟩ := step_done_inv h
    refine ⟨?_, ?_, rel_update t3 rfl (by rw [hst]; rfl)⟩
    · intro hcs; rw [acquires_snoc, if_neg (by simp)]; exact t1 hcs
    · intro hcs
      rw [acquires_snoc, if_neg (by simp), releases_snoc]
      simp only [Action.isRelease, Bool.false_eq_true, if_false]
      exact t2 hcs
  | timeout i =>
    obtain ⟨st, t, hst, _, _, rfl⟩ := step_timeout_inv h
    refine ⟨?_, ?_, rel_update t3 rfl (by rw [hst]; rfl)⟩
    · intro hcs; rw [acquires_snoc, if_neg (by simp)]; exact t1 hcs
    · intro hcs
      rw [acquires_snoc, if_neg (by simp), releases_snoc]
      simp only [Action.isRelease, Bool.false_eq_true, if_false]
      exact t2 hcs
  | release i =>
    obtain ⟨b, r, hst, hpos, rfl⟩ := step_release_inv h
    refine ⟨?_, ?_, ?_⟩
    · intro hcs; rw [acquires_snoc, if_neg (by simp)]; exact t1 hcs
    · intro hcs
      have := t2 hcs
      have := hpos hcs
      rw [acquires_snoc, if_neg (by simp), releases_snoc]
      show acquires acts + 0 = (if p.capacity.isSome = true then s.sem - 1 else s.sem) +
        (releases acts + if (Action.release i).isRelease = true then 1 else 0)
      rw [if_pos hcs]
      simp only [Action.isRelease, if_true]
      omega
    · intro j
      rw [releasesOf_snoc, t3 j]
      show _ = if (Function.update s.status i (TaskState.released b r) j).hasReleased = true
        then 1 else 0
      by_cases hj : j = i
      · subst hj
        simp [hst]
      · have hne : Action.release i ≠ Action.release j := by
          intro hc; cases hc; exact hj rfl
        simp [Function.update_noteq hj, hne]
  | report i =>
    obtain ⟨b, r, hst, _, rfl⟩ := step_report_inv h
    refine ⟨?_, ?_, rel_update t3 rfl (by rw [hst]; rfl)⟩
    · intro hcs; rw [acquires_snoc, if_neg (by simp)]; exact t1 hcs
    · intro hcs
      rw [acquires_snoc, if_neg (by simp), releases_snoc]
      simp only [Action.isRelease, Bool.false_eq_true, if_false]
      exact t2 hcs
  | deadline =>
    obtain ⟨t, _, _, _, _, rfl⟩ := step_deadline_inv h
    refine ⟨?_, ?_, rel_same t3 rfl⟩
    · intro hcs; rw [acquires_snoc, if_neg (by simp)]; exact t1 hcs
    · intro hcs
      rw [acquires_snoc, if_neg (by simp), releases_snoc]
      simp only [Action.isRelease, Bool.false_eq_true, if_false]
      exact t2 hcs
  | wait =>
    obtain ⟨hpc, _, rfl⟩ := step_wait_inv h
    refine ⟨?_, ?_, rel_same t3 rfl⟩
    · intro hcs
      have := t1 hcs
      rw [hpc, if_neg (by simp)] at this
      rw [acquires_snoc, if_neg (by simp)]
      show acquires acts + 0 = s.next + if MainPc.exited s.err = MainPc.launch then 1 else 0
      rw [if_neg (by simp)]
      exact this
    · intro hcs
      rw [acquires_snoc, if_neg (by simp), releases_snoc]
      simp only [Action.isRelease, Bool.false_eq_true, if_false]
      exact t2 hcs
  | tick d =>
    obtain ⟨_, _, rfl⟩ := step_tick_inv h
    refine ⟨?_, ?_, rel_same t3 rfl⟩
    · intro hcs; rw [acquires_snoc, if_neg (by simp)]; exact t1 hcs
    · intro hcs
      rw [acquires_snoc, if_neg (by simp), releases_snoc]
      simp only [Action.isRelease, Bool.false_eq_true, if_false]
      exact t2 hcs

theorem exec_traceInv {p : Program} {acts : List Action} {s : State}
    (h : exec p (init p) acts = some s) : TraceInv p acts s :=
  exec_induction p (TraceInv p) (traceInv_init p)
    (fun acts _ _ _ he hT hst => traceInv_step (reach_inv ⟨acts, he⟩) hT hst) acts s h

theorem releasePairing_of_capacity {p : Program} {N : Nat} (hc : p.capacity = some N) :
    ReleasePairing p := by
  intro acts s r he hpc
  have hcs : p.capacity.isSome = true := by simp [hc]
  have hs : Reach p s := ⟨acts, he⟩
  have hI := reach_inv hs
  have hT := exec_traceInv he
  obtain ⟨hn, hw⟩ := hI.pc_exited hpc
  have hall := hI.all_completed hpc
  have hsem : s.sem = 0 := by
    have h1 := hI.sem_eq
    rw [if_pos hcs, hpc, if_neg (by simp)] at h1
    have h2 : s.runningCount p = 0 := by
      have : countUpTo (fun i => (s.status i).holdsSlot) p.taskCount =
          countUpTo (fun _ => false) p.taskCount := by
        apply countUpTo_congr
        intro i hi
        have := hall i hi
        cases hst : s.status i <;> simp [hst] at this ⊢
      simp only [State.runningCount, this, countUpTo_false]
    omega
  have hacq : acquires acts = p.taskCount := by
    have := hT.acq hcs
    rw [hpc, if_neg (by simp)] at this
    omega
  refine ⟨hsem, hacq, ?_, ?_, ?_⟩
  · have := hT.bal hcs
    omega
  · intro i hi
    have hci := hall i hi
    refine ⟨?_, hci⟩
    rw [hT.rel i]
    cases hst : s.status i <;> simp [hst] at hci ⊢
  · intro i hi
    rw [hT.rel i]
    have : s.status i = TaskState.pending := (hI.pending i).2 (by omega)
    simp [this]

/-- C2: release pairing. For every launch loop with a semaphore and every run,
scheduling delays included: along the run the sends equal the occupancy plus
the receives and no task receives twice; whatever case of its `select` a task
left through (timer, `ctx.Done()`, private timeout) and whatever it returned, its
deferred receive is enabled and frees one slot; and when `Wait` returns the
occupancy is 0, every task has completed and has received exactly once, and the
receives equal the sends. With capacity at least 1 the program always reaches
the return of `Wait` under the ideal clock. This covers channel-base, combine and
combine-with-isolate-cancel. -/
theorem release_pairing :
    (∀ (p : Program) (N : Nat), p.capacity = some N → ReleasePairing p) ∧
    (∀ (p : Program) (N : Nat), p.capacity = some N → ∀ acts s,
      exec p (init p) acts = some s →
      acquires acts = s.sem + releases acts ∧ ∀ i, releasesOf i acts ≤ 1) ∧
    (∀ (p : Program) (N : Nat), p.capacity = some N → ∀ s, Reach p s →
      ∀ i b r, s.status i = TaskState.returned b r →
        ∃ s', step p (Action.release i) s = some s' ∧ s'.sem + 1 = s.sem ∧
          s'.status i = TaskState.released b r) ∧
    (∀ (p : Program) (N : Nat), 1 ≤ N → p.capacity = some N →
      AlwaysReturns p ∧
      ∃ acts s r, uexec p (init p) acts = some s ∧ s.pc = MainPc.exited r ∧ s.sem = 0) ∧
    (∀ seed, ReleasePairing (ChannelBase.main seed)) ∧
    (∀ seed, ReleasePairing (Combine.main seed)) ∧
    ReleasePairing IsolateCancel.main := by
  refine ⟨?_, ?_, ?_, ?_, ?_, ?_, ?_⟩
  · intro p N hc
    exact releasePairing_of_capacity hc
  · intro p N hc acts s he
    have hT := exec_traceInv he
    refine ⟨hT.bal (by simp [hc]), ?_⟩
    intro i
    rw [hT.rel i]
    split_ifs <;> omega
  · intro p N hc s hs i b r hst
    have hI := reach_inv hs
    have hcs : p.capacity.isSome = true := by simp [hc]
    have hi : i < p.taskCount := hI.lt_of_status (by simp [hst])
    have hpos : 0 < s.sem := by
      have h1 := hI.sem_eq
      rw [if_pos hcs] at h1
      have h2 : 0 < s.runningCount p := by
        by_contra h0
        have h0' : countUpTo (fun j => (s.status j).holdsSlot) p.taskCount = 0 := by
          simp only [State.runningCount] at h0; omega
        have := countUpTo_eq_zero h0' i hi
        simp [hst] at this
      omega
    refine ⟨{ s with
      sem := s.sem - 1
      status := Function.update s.status i (TaskState.released b r) }, ?_, ?_, ?_⟩
    · simp [step, hst, hcs, hpos]
    · show s.sem - 1 + 1 = s.sem
      omega
    · simp
  · intro p N hN hc
    have hcap : p.capacity ≠ some 0 := by rw [hc]; intro h0; cases h0; omega
    obtain ⟨acts, s, he, hres⟩ := wait_returns (p := p) hcap (init p) ⟨[], rfl⟩
    obtain ⟨r, hpc⟩ := result_exited hres
    exact ⟨alwaysReturns_of_capacity hcap, acts, s, r, he, hpc,
      (releasePairing_of_capacity hc acts s r (uexec_exec he) hpc).1⟩
  · intro seed
    exact releasePairing_of_capacity (N := 5) rfl
  · intro seed
    exact releasePairing_of_capacity (N := 4) rfl
  · exact releasePairing_of_capacity (N := 3) rfl

/-! ## The ideal clock -/

theorem uInv_init (p : Program) : UInv p (init p) := by
  refine ⟨?_, ?_, ?_, ?_, ?_⟩ <;> simp [init]

theorem uInv_step {p : Program} {a : Action} {s s' : State} (hI : Inv p s)
    (hU : UInv p s) (h : ustep p a s = some s') : UInv p s' := by
  obtain ⟨u1, u2, u3, u4, u5⟩ := hU
  cases a with
  | send =>
    obtain ⟨n, _, _, _, rfl⟩ := step_send_inv (ustep_step h)
    exact ⟨u1, u2, u3, u4, u5⟩
  | go =>
    obtain ⟨hpc, rfl⟩ := step_go_inv (ustep_step h)
    refine ⟨?_, ?_, u3, ?_, ?_⟩
    · exact forall_update (P := fun j t => ∀ st, t = TaskState.running st →
        s.now ≤ st + (p.task j).work) u1 (by intro st h1; cases h1; omega)
    · exact forall_update (P := fun j t => ∀ st t', t = TaskState.running st →
        (p.task j).ownTimeout = some t' → s.now ≤ st + t') u2
        (by intro st t' h1 _; cases h1; omega)
    · exact forall_update (P := fun j t => ∀ t', t.branch = some Branch.work →
        (p.task j).ownTimeout = some t' → (p.task j).work ≤ t') u4
        (by intro t' h1; cases h1)
    · exact forall_update (P := fun j t => ∀ t', t.branch = some Branch.timeout →
        (p.task j).ownTimeout = some t' → t' ≤ (p.task j).work) u5
        (by intro t' h1; cases h1)
  | work i =>
    obtain ⟨st, hst, hdue, rfl⟩ := step_work_inv (ustep_step h)
    refine ⟨?_, ?_, u3, ?_, ?_⟩
    · exact forall_update (P := fun j t => ∀ st, t = TaskState.running st →
        s.now ≤ st + (p.task j).work) u1 (by intro st h1; cases h1)
    · exact forall_update (P := fun j t => ∀ st t', t = TaskState.running st →
        (p.task j).ownTimeout = some t' → s.now ≤ st + t') u2
        (by intro st t' h1; cases h1)
    · exact forall_update (P := fun j t => ∀ t', t.branch = some Branch.work →
        (p.task j).ownTimeout = some t' → (p.task j).work ≤ t') u4
        (by intro t' _ ht; have := u2 i st t' hst ht; omega)
    · exact forall_update (P := fun j t => ∀ t', t.branch = some Branch.timeout →
        (p.task j).ownTimeout = some t' → t' ≤ (p.task j).work) u5
        (by intro t' h1; cases h1)
  | done i =>
    obtain ⟨st, f, c, hst, _, _, rfl⟩ := step_done_inv (ustep_step h)
    refine ⟨?_, ?_, u3, ?_, ?_⟩
    · exact forall_update (P := fun j t => ∀ st, t = TaskState.running st →
        s.now ≤ st + (p.task j).work) u1 (by intro st h1; cases h1)
    · exact forall_update (P := fun j t => ∀ st t', t = TaskState.running st →
        (p.task j).ownTimeout = some t' → s.now ≤ st + t') u2
        (by intro st t' h1; cases h1)
    · exact forall_update (P := fun j t => ∀ t', t.branch = some Branch.work →
        (p.task j).ownTimeout = some t' → (p.task j).work ≤ t') u4
        (by intro t' h1; cases h1)
    · exact forall_update (P := fun j t => ∀ t', t.branch = some Branch.timeout →
        (p.task j).ownTimeout = some t' → t' ≤ (p.task j).work) u5
        (by intro t' h1; cases h1)
  | timeout i =>
    obtain ⟨st, t, hst, ht, hdue, rfl⟩ := step_timeout_inv (ustep_step h)
    refine ⟨?_, ?_, u3, ?_, ?_⟩
    · exact forall_update (P := fun j t => ∀ st, t = TaskState.running st →
        s.now ≤ st + (p.task j).work) u1 (by intro st h1; cases h1)
    · exact forall_update (P := fun j t => ∀ st t', t = TaskState.running st →
        (p.task j).ownTimeout = some t' → s.now ≤ st + t') u2
        (by intro st t' h1; cases h1)
    · exact forall_update (P := fun j t => ∀ t', t.branch = some Branch.work →
        (p.task j).ownTimeout = some t' → (p.task j).work ≤ t') u4
        (by intro t' h1; cases h1)
    · exact forall_update (P := fun j t => ∀ t', t.branch = some Branch.timeout →
        (p.task j).ownTimeout = some t' → t' ≤ (p.task j).work) u5
        (by
          intro t' _ ht'
          rw [ht] at ht'
          cases ht'
          have := u1 i st hst
          omega)
  | release i =>
    obtain ⟨b, r, hst, _, rfl⟩ := step_release_inv (ustep_step h)
    have hb : (s.status i).branch = some b := by simp [hst]
    refine ⟨?_, ?_, u3, ?_, ?_⟩
    · exact forall_update (P := fun j t => ∀ st, t = TaskState.running st →
        s.now ≤ st + (p.task j).work) u1 (by intro st h1; cases h1)
    · exact forall_update (P := fun j t => ∀ st t', t = TaskState.running st →
        (p.task j).ownTimeout = some t' → s.now ≤ st + t') u2
        (by intro st t' h1; cases h1)
    · exact forall_update (P := fun j t => ∀ t', t.branch = some Branch.work →
        (p.task j).ownTimeout = some t' → (p.task j).work ≤ t') u4
        (by intro t' h1; cases h1; exact u4 i t' hb)
    · exact forall_update (P := fun j t => ∀ t', t.branch = some Branch.timeout →
        (p.task j).ownTimeout = some t' → t' ≤ (p.task j).work) u5
        (by intro t' h1; cases h1; exact u5 i t' hb)
  | report i =>
    obtain ⟨b, r, hst, _, rfl⟩ := step_report_inv (ustep_step h)
    have hb : (s.status i).branch = some b := by simp [hst]
    refine ⟨?_, ?_, ?_, ?_, ?_⟩
    · exact forall_update (P := fun j t => ∀ st, t = TaskState.running st →
        s.now ≤ st + (p.task j).work) u1 (by intro st h1; cases h1)
    · exact forall_update (P := fun j t => ∀ st t', t = TaskState.running st →
        (p.task j).ownTimeout = some t' → s.now ≤ st + t') u2
        (by intro st t' h1; cases h1)
    · intro T hT hc
      change (if r.isSome = true ∧ s.err.isNone = true ∧ s.ctxErr.isNone = true
        then some GoError.canceled else s.ctxErr) = none at hc
      by_cases hcond : r.isSome = true ∧ s.err.isNone = true ∧ s.ctxErr.isNone = true
      · rw [if_pos hcond] at hc; cases hc
      · rw [if_neg hcond] at hc
        exact u3 T hT hc
    · exact forall_update (P := fun j t => ∀ t', t.branch = some Branch.work →
        (p.task j).ownTimeout = some t' → (p.task j).work ≤ t') u4
        (by intro t' h1; cases h1; exact u4 i t' hb)
    · exact forall_update (P := fun j t => ∀ t', t.branch = some Branch.timeout →
        (p.task j).ownTimeout = some t' → t' ≤ (p.task j).work) u5
        (by intro t' h1; cases h1; exact u5 i t' hb)
  | deadline =>
    obtain ⟨t, _, _, _, _, rfl⟩ := step_deadline_inv (ustep_step h)
    refine ⟨u1, u2, ?_, u4, u5⟩
    intro T _ hc
    cases hc
  | wait =>
    obtain ⟨_, _, rfl⟩ := step_wait_inv (ustep_step h)
    refine ⟨u1, u2, ?_, u4, u5⟩
    intro T hT hc
    change (if s.ctxErr.isNone = true then some GoError.canceled else s.ctxErr) = none at hc
    by_cases hn : s.ctxErr.isNone = true
    · rw [if_pos hn] at hc; cases hc
    · rw [if_neg hn] at hc
      exact u3 T hT hc
  | tick d =>
    obtain ⟨_, hdue, _, _, rfl⟩ := ustep_tick_inv h
    refine ⟨?_, ?_, ?_, u4, u5⟩
    · intro i st hst
      have hi : i < p.taskCount := hI.lt_of_status (by rw [hst]; simp)
      exact hdue _ (mem_dues.2 (Or.inr ⟨i, st, hi, hst, Or.inl rfl⟩))
    · intro i st t hst ht
      have hi : i < p.taskCount := hI.lt_of_status (by rw [hst]; simp)
      exact hdue _ (mem_dues.2 (Or.inr ⟨i, st, hi, hst, Or.inr ⟨t, ht, rfl⟩⟩))
    · intro T hT hc
      exact hdue _ (mem_dues.2 (Or.inl ⟨hT, hc⟩))

theorem ureach_uInv {p : Program} {s : State} (h : UReach p s) : UInv p s :=
  ureach_induction p (UInv p) (uInv_init p)
    (fun _ _ _ hr hU hst => uInv_step (reach_inv hr.reach) hU hst) s h

theorem value_of_branch {t : TaskState} {b : Branch} (h : t.branch = some b) :
    ∃ v, t.value = some v := by
  cases t with
  | pending => cases h
  | running st => cases h
  | returned b' v => exact ⟨v, rfl⟩
  | released b' v => exact ⟨v, rfl⟩
  | completed b' v => exact ⟨v, rfl⟩

theorem branch_of_completed {t : TaskState} (h : t.isCompleted = true) :
    ∃ b v, t = TaskState.completed b v := by
  cases t with
  | completed b v => exact ⟨b, v, rfl⟩
  | pending => cases h
  | running st => cases h
  | returned b' v => cases h
  | released b' v => cases h

/-! ## C10: combine-with-isolate-cancel -/

theorem isolate_work (k : Nat) :
    (IsolateCancel.main.task k).work =
      if k + 1 = 4 ∨ k + 1 = 8 ∨ k + 1 = 12 then 5000 else 1000 := rfl

theorem isolate_branch {s : State} (hs : UReach IsolateCancel.main s) {k : Nat} {b : Branch}
    (hb : (s.status k).branch = some b) :
    (b = Branch.timeout ↔ (k + 1 = 4 ∨ k + 1 = 8 ∨ k + 1 = 12)) ∧
    (b = Branch.work ↔ ¬ (k + 1 = 4 ∨ k + 1 = 8 ∨ k + 1 = 12)) := by
  have hU := ureach_uInv hs
  have hR := reach_runInv hs.reach
  have htm : (IsolateCancel.main.task k).ownTimeout = some 2000 := rfl
  have hw := isolate_work k
  obtain ⟨v, hv⟩ := value_of_branch hb
  cases b with
  | work =>
    have := hU.br_work k 2000 hb htm
    have hn : ¬ (k + 1 = 4 ∨ k + 1 = 8 ∨ k + 1 = 12) := by
      intro hc
      rw [hw, if_pos hc] at this
      omega
    exact ⟨⟨fun h => (by cases h), fun h => absurd h hn⟩, ⟨fun _ => hn, fun _ => rfl⟩⟩
  | timeout =>
    have := hU.br_tmo k 2000 hb htm
    have hy : k + 1 = 4 ∨ k + 1 = 8 ∨ k + 1 = 12 := by
      by_contra hc
      rw [hw, if_neg hc] at this
      omega
    exact ⟨⟨fun _ => hy, fun _ => rfl⟩, ⟨fun h => (by cases h), fun h => absurd hy h⟩⟩
  | done =>
    obtain ⟨f, c, hf, _⟩ := hR.done_val k v hb hv
    simp [IsolateCancel.main, IsolateCancel.processTask] at hf

/-- C10: in combine-with-isolate-cancel, under the ideal clock, the task with
`taskId = k+1` (for `taskId` in 1..15) leaves `processTask` through the timeout
case exactly when `taskId` is 4, 8 or 12 and through the success case otherwise,
in every run, whatever the other tasks do; no error and no cancellation is ever
shared between tasks; the program always reaches the return of `wg.Wait`, and
when `wg.Wait` returns (with any scheduling delays) all 15 tasks have been
launched and have completed. -/
theorem isolate_outcomes :
    (∀ s, UReach IsolateCancel.main s → ∀ k b, k < 15 → (s.status k).branch = some b →
      (b = Branch.timeout ↔ (k + 1 = 4 ∨ k + 1 = 8 ∨ k + 1 = 12)) ∧
      (b = Branch.work ↔ ¬ (k + 1 = 4 ∨ k + 1 = 8 ∨ k + 1 = 12))) ∧
    (∀ s, Reach IsolateCancel.main s → s.err = none ∧ (s.result = none → s.ctxErr = none)) ∧
    (∀ s r, Reach IsolateCancel.main s → s.pc = MainPc.exited r →
      s.next = 15 ∧ ∀ k, k < 15 → (s.status k).isCompleted = true) ∧
    (∃ acts s, uexec IsolateCancel.main (init IsolateCancel.main) acts = some s ∧
      s.pc = MainPc.exited none ∧
      ∀ k, k < 15 → ∃ v, s.status k = TaskState.completed
        (if k + 1 = 4 ∨ k + 1 = 8 ∨ k + 1 = 12 then Branch.timeout else Branch.work) v) ∧
    AlwaysReturns IsolateCancel.main := by
  have herr : ∀ s, Reach IsolateCancel.main s → s.err = none := by
    intro s hs
    by_contra hne
    obtain ⟨e, he⟩ := Option.ne_none_iff_exists'.1 hne
    obtain ⟨i, _, hw⟩ := err_from_work rfl hs he
    simp [IsolateCancel.main, IsolateCancel.processTask] at hw
  refine ⟨?_, ?_, ?_, ?_, alwaysReturns_of_capacity
    (by simp [IsolateCancel.main, IsolateCancel.maxConcurrency])⟩
  · intro s hs k b _ hb
    exact isolate_branch hs hb
  · intro s hs
    refine ⟨herr s hs, ?_⟩
    intro hres
    by_contra hne
    obtain ⟨c, hc⟩ := Option.ne_none_iff_exists'.1 hne
    rcases (reach_runInv hs).ctx_cause c hc with ⟨_, t, ht, _⟩ | ⟨_, h2 | h2⟩
    · simp [IsolateCancel.main] at ht
    · exact h2 (herr s hs)
    · exact h2 hres
  · intro s r hs hpc
    exact ⟨((reach_inv hs).pc_exited hpc).1, (reach_inv hs).all_completed hpc⟩
  · obtain ⟨acts, s, he, hres⟩ := wait_returns (p := IsolateCancel.main)
      (by simp [IsolateCancel.main, IsolateCancel.maxConcurrency]) (init _) ⟨[], rfl⟩
    obtain ⟨r, hpc⟩ := result_exited hres
    have hs : UReach IsolateCancel.main s := ⟨acts, he⟩
    have hr : r = none := by
      rw [(reach_ordInv hs.reach).exit_eq r hpc]
      exact herr s hs.reach
    subst hr
    refine ⟨acts, s, he, hpc, ?_⟩
    intro k hk
    obtain ⟨b, v, hst⟩ := branch_of_completed ((reach_inv hs.reach).all_completed hpc k hk)
    obtain ⟨h1, h2⟩ := isolate_branch hs (k := k) (b := b) (by simp [hst])
    refine ⟨v, ?_⟩
    rw [hst]
    by_cases hc : k + 1 = 4 ∨ k + 1 = 8 ∨ k + 1 = 12
    · rw [if_pos hc, h1.2 hc]
    · rw [if_neg hc, h2.2 hc]

/-! ## The `select` of `callSlowAPI` in the runtime model -/

theorem raceInv_init (d : Option Nat) : RaceInv d (init (ErrgroupTimeout.raceProgram d)) := by
  refine ⟨?_, ?_, ?_, ?_, ?_, ?_⟩ <;> simp [init]

theorem race_index {d : Option Nat} {s : State} (hI : Inv (ErrgroupTimeout.raceProgram d) s)
    {i : Nat} (h : s.status i ≠ TaskState.pending) : i = 0 := by
  have : i < 1 := hI.lt_of_status h
  omega

theorem raceInv_step {d : Option Nat} {a : Action} {s s' : State}
    (hs : UReach (ErrgroupTimeout.raceProgram d) s) (hQ : RaceInv d s)
    (h : ustep (ErrgroupTimeout.raceProgram d) a s = some s') : RaceInv d s' := by
  have hI := reach_inv hs.reach
  have hR := reach_runInv hs.reach
  have hO := reach_ordInv hs.reach
  have hU := ureach_uInv hs
  obtain ⟨q1, q2, q3, q4, q5, q6⟩ := hQ
  cases a with
  | send =>
    obtain ⟨n, hc, _⟩ := step_send_inv (ustep_step h)
    cases hc
  | go =>
    obtain ⟨hpc, rfl⟩ := step_go_inv (ustep_step h)
    have hn : s.next = 0 := by
      have : s.next < 1 := hI.pc_launch hpc
      omega
    have h0 := q1 hpc
    have hst : Function.update s.status s.next (TaskState.running s.now) 0 =
        TaskState.running 0 := by
      rw [hn, Function.update_same, h0]
    refine ⟨?_, ?_, ?_, ?_, ?_, ?_⟩
    · intro hl
      change (ErrgroupTimeout.raceProgram d).loopHead (s.next + 1) = MainPc.launch at hl
      rw [hn] at hl
      simp [Program.loopHead, ErrgroupTimeout.raceProgram] at hl
    · intro st h1
      change Function.update s.status s.next (TaskState.running s.now) 0 = _ at h1
      rw [hst] at h1
      cases h1; rfl
    · intro st t _ _
      show s.now ≤ t
      omega
    · intro h1
      change (Function.update s.status s.next (TaskState.running s.now) 0).branch = _ at h1
      rw [hst] at h1; cases h1
    · intro h1
      change (Function.update s.status s.next (TaskState.running s.now) 0).branch = _ at h1
      rw [hst] at h1; cases h1
    · intro h1
      change (Function.update s.status s.next (TaskState.running s.now) 0).branch = _ at h1
      rw [hst] at h1; cases h1
  | work i =>
    obtain ⟨st, hst, hdue, rfl⟩ := step_work_inv (ustep_step h)
    have hi : i = 0 := race_index hI (by rw [hst]; simp)
    subst hi
    have hst0 := q2 st hst
    subst hst0
    refine ⟨q1, ?_, ?_, ?_, ?_, ?_⟩
    · intro st h1
      change Function.update s.status 0 _ 0 = _ at h1
      rw [Function.update_same] at h1; cases h1
    · intro st t h1
      change Function.update s.status 0 _ 0 = _ at h1
      rw [Function.update_same] at h1; cases h1
    · intro _ t ht
      have := q3 0 t hst ht
      have hw : ((ErrgroupTimeout.raceProgram d).task 0).work = 5000 := rfl
      rw [hw] at hdue
      omega
    · intro h1
      change (Function.update s.status 0 _ 0).branch = _ at h1
      rw [Function.update_same] at h1; cases h1
    · intro h1
      change (Function.update s.status 0 _ 0).branch = _ at h1
      rw [Function.update_same] at h1; cases h1
  | done i =>
    obtain ⟨st, f, c, hst, _, hc, rfl⟩ := step_done_inv (ustep_step h)
    have hi : i = 0 := race_index hI (by rw [hst]; simp)
    subst hi
    have hst0 := q2 st hst
    subst hst0
    have hde : c = GoError.deadlineExceeded ∧ ∃ t, d = some t ∧ t ≤ s.now := by
      rcases hR.ctx_cause c hc with ⟨h1, t, ht, hle⟩ | ⟨_, h2 | h2⟩
      · exact ⟨h1, t, ht, hle⟩
      · exfalso
        obtain ⟨e, he⟩ := Option.ne_none_iff_exists'.1 h2
        have hmem : some e ∈ s.order.map Prod.snd :=
          firstError_mem (by rw [← hO.err_eq]; exact he)
        obtain ⟨⟨j, v⟩, hjv, _⟩ := List.mem_map.1 hmem
        obtain ⟨b, hb⟩ := (hO.mem j v).1 hjv
        have hj : j = 0 := race_index hI (by rw [hb]; simp)
        subst hj
        rw [hst] at hb
        cases hb
      · exact absurd hst (hI.not_running_of_exited h2 0 0)
    obtain ⟨hcde, t, ht, hle⟩ := hde
    subst hcde
    refine ⟨q1, ?_, ?_, ?_, fun _ => hc, ?_⟩
    · intro st h1
      change Function.update s.status 0 _ 0 = _ at h1
      rw [Function.update_same] at h1; cases h1
    · intro st t h1
      change Function.update s.status 0 _ 0 = _ at h1
      rw [Function.update_same] at h1; cases h1
    · intro h1
      change (Function.update s.status 0 _ 0).branch = _ at h1
      rw [Function.update_same] at h1; cases h1
    · intro _
      have := hU.run_work 0 0 hst
      have hw : ((ErrgroupTimeout.raceProgram d).task 0).work = 5000 := rfl
      rw [hw] at this
      exact ⟨t, ht, by omega⟩
  | timeout i =>
    obtain ⟨st, t, _, ht, _⟩ := step_timeout_inv (ustep_step h)
    cases ht
  | release i =>
    obtain ⟨b, r, hst, _, rfl⟩ := step_release_inv (ustep_step h)
    have hi : i = 0 := race_index hI (by rw [hst]; simp)
    subst hi
    have hb : (s.status 0).branch = some b := by rw [hst]; rfl
    refine ⟨q1, ?_, ?_, ?_, ?_, ?_⟩
    · intro st h1
      change Function.update s.status 0 _ 0 = _ at h1
      rw [Function.update_same] at h1; cases h1
    · intro st t h1
      change Function.update s.status 0 _ 0 = _ at h1
      rw [Function.update_same] at h1; cases h1
    · intro h1
      change (Function.update s.status 0 _ 0).branch = _ at h1
      rw [Function.update_same] at h1
      cases h1
      exact q4 hb
    · intro h1
      change (Function.update s.status 0 _ 0).branch = _ at h1
      rw [Function.update_same] at h1
      cases h1
      exact q5 hb
    · intro h1
      change (Function.update s.status 0 _ 0).branch = _ at h1
      rw [Function.update_same] at h1
      cases h1
      exact q6 hb
  | report i =>
    obtain ⟨b, r, hst, _, rfl⟩ := step_report_inv (ustep_step h)
    have hi : i = 0 := race_index hI (by rw [hst]; simp)
    subst hi
    have hb : (s.status 0).branch = some b := by rw [hst]; rfl
    refine ⟨q1, ?_, ?_, ?_, ?_, ?_⟩
    · intro st h1
      change Function.update s.status 0 _ 0 = _ at h1
      rw [Function.update_same] at h1; cases h1
    · intro st t h1
      change Function.update s.status 0 _ 0 = _ at h1
      rw [Function.update_same] at h1; cases h1
    · intro h1
      change (Function.update s.status 0 _ 0).branch = _ at h1
      rw [Function.update_same] at h1
      cases h1
      exact q4 hb
    · intro h1
      change (Function.update s.status 0 _ 0).branch = _ at h1
      rw [Function.update_same] at h1
      cases h1
      have := q5 hb
      show (if r.isSome = true ∧ s.err.isNone = true ∧ s.ctxErr.isNone = true
        then some GoError.canceled else s.ctxErr) = _
      rw [if_neg (by rw [this]; simp)]
      exact this
    · intro h1
      change (Function.update s.status 0 _ 0).branch = _ at h1
      rw [Function.update_same] at h1
      cases h1
      exact q6 hb
  | deadline =>
    obtain ⟨t, _, _, _, _, rfl⟩ := step_deadline_inv (ustep_step h)
    exact ⟨q1, q2, q3, q4, fun _ => rfl, q6⟩
  | wait =>
    obtain ⟨hpc, _, rfl⟩ := step_wait_inv (ustep_step h)
    refine ⟨fun hl => (by cases hl), q2, q3, q4, ?_, q6⟩
    intro h1
    have := q5 h1
    show (if s.ctxErr.isNone = true then some GoError.canceled else s.ctxErr) = _
    rw [if_neg (by rw [this]; simp)]
    exact this
  | tick dt =>
    obtain ⟨hq, hdue, _, _, rfl⟩ := ustep_tick_inv h
    refine ⟨?_, q2, ?_, q4, q5, q6⟩
    · intro hpc
      exfalso
      have := (quiescent_iff.1 hq) Action.go (mem_discreteActions.2 (by simp))
      have hpc' : s.pc = MainPc.launch := hpc
      simp [step, hpc'] at this
    · intro st t hst ht
      show s.now + dt ≤ t
      by_cases hc : s.ctxErr = none
      · exact hdue t (mem_dues.2 (Or.inl ⟨ht, hc⟩))
      · exfalso
        obtain ⟨c, hcc⟩ := Option.ne_none_iff_exists'.1 hc
        have := (quiescent_iff.1 hq) (Action.done 0) (mem_discreteActions.2 (by
          right; right; right; right
          exact ⟨0, by show 0 < 1; decide, Or.inr (Or.inl rfl)⟩))
        have hf : ((ErrgroupTimeout.raceProgram d).task 0).onDone =
            some (fun e => some e) := rfl
        have hst' : s.status 0 = TaskState.running st := hst
        simp [step, hst', hf, hcc] at this

theorem ureach_raceInv {d : Option Nat} {s : State}
    (h : UReach (ErrgroupTimeout.raceProgram d) s) : RaceInv d s :=
  ureach_induction (ErrgroupTimeout.raceProgram d) (RaceInv d) (raceInv_init d)
    (fun _ _ _ hr hQ hst => raceInv_step hr hQ hst) s h

/-- The case through which the `select` of `callSlowAPI` leaves, and the error it
returns, in the runtime model under the ideal clock. -/
theorem race_outcome {d : Option Nat} {s : State}
    (hs : UReach (ErrgroupTimeout.raceProgram d) s) {b : Branch} {v : Option GoError}
    (hb : (s.status 0).branch = some b) (hv : (s.status 0).value = some v) :
    (∀ t, d = some t → t < 5000 → b = Branch.done ∧ v = some GoError.deadlineExceeded) ∧
    ((∀ t, d = some t → 5000 < t) → b = Branch.work ∧ v = none) := by
  have hQ := ureach_raceInv hs
  have hR := reach_runInv hs.reach
  constructor
  · intro t ht hlt
    cases b with
    | work => have := hQ.work_late hb t ht; omega
    | done =>
      obtain ⟨f, c, hf, hc, hr⟩ := hR.done_val 0 v hb hv
      have hf' : f = fun e => some e := by
        have : ((ErrgroupTimeout.raceProgram d).task 0).onDone = some (fun e => some e) := rfl
        rw [this] at hf
        cases hf; rfl
      rw [hQ.done_de hb] at hc
      cases hc
      subst hf'
      exact ⟨rfl, hr⟩
    | timeout =>
      obtain ⟨_, t', ht', _⟩ := hR.tmo_val 0 v hb hv
      cases ht'
  · intro hd
    cases b with
    | work => exact ⟨rfl, hR.work_val 0 v hb hv⟩
    | done =>
      obtain ⟨t, ht, hle⟩ := hQ.done_early hb
      have := hd t ht
      omega
    | timeout =>
      obtain ⟨_, t', ht', _⟩ := hR.tmo_val 0 v hb hv
      cases ht'

/-! ## errgroup-timeout: C7, C8 -/

/-- C7 (code against its documentation): the comments and the banner of `main`
announce a 2-second timeout, but the context `main` passes to `callSlowAPI` is
`context.WithTimeout(parentCtx, 6*time.Second)`: it is done at 6000ms, not at
2000ms, so the 5-second timer wins the race and `main` receives the non-empty
result with a `nil` error, whatever the runtime picks; no `DeadlineExceeded` is
seen and the timeout line is not printed. With a 2000ms timeout the call would
return `"", DeadlineExceeded`. -/
theorem main_timeout_is_six_seconds :
    ErrgroupTimeout.mainCtx.done = some (6000, GoError.deadlineExceeded) ∧
    ErrgroupTimeout.mainCtx ≠ ErrgroupTimeout.withTimeout ErrgroupTimeout.background 2000 ∧
    (∀ pick, ErrgroupTimeout.main pick = ("成功获取API数据", none)) ∧
    (∀ pick, errorsIs (ErrgroupTimeout.main pick).2 GoError.deadlineExceeded = false) ∧
    (∀ pick, ErrgroupTimeout.mainReportsTimeout pick = false) ∧
    (∀ pick, ErrgroupTimeout.callSlowAPI
        (ErrgroupTimeout.withTimeout ErrgroupTimeout.background 2000) pick =
      ("", some GoError.deadlineExceeded)) := by
  refine ⟨by decide, by decide, ?_, ?_, ?_, ?_⟩ <;> intro pick <;> cases pick <;> decide

/-- C8: `callSlowAPI` is a race between the 5-second timer and the context. For
a context done by its deadline at `d < 5000` it returns `"", DeadlineExceeded`
(more generally `"", ctx.Err()` for a context done before 5000ms); for a context
that is not done within 5 seconds (deadline `d > 5000`, or never done) it returns
`"成功获取API数据", nil`; and for every context exactly one of "result non-empty"
and "error non-nil" holds. The same outcome is obtained from the transition
system: the `select` run as the single function of `raceProgram d` under the
ideal clock always returns, some run leaves the `select`, and whenever it has
left through a case, the pair returned from that case is the one `callSlowAPI`
computes, for every deadline other than 5000ms; at exactly 5000ms both cases are
reachable. -/
theorem callSlowAPI_race :
    (∀ d pick, d < 5000 →
      ErrgroupTimeout.callSlowAPI
        (ErrgroupTimeout.withTimeout ErrgroupTimeout.background d) pick =
        ("", some GoError.deadlineExceeded)) ∧
    (∀ d e pick, d < 5000 →
      ErrgroupTimeout.callSlowAPI { done := some (d, e) } pick = ("", some e)) ∧
    (∀ d pick, 5000 < d →
      ErrgroupTimeout.callSlowAPI
        (ErrgroupTimeout.withTimeout ErrgroupTimeout.background d) pick =
        ("成功获取API数据", none)) ∧
    (∀ ctx pick, (∀ t e, ctx.done = some (t, e) → 5000 < t) →
      ErrgroupTimeout.callSlowAPI ctx pick = ("成功获取API数据", none)) ∧
    (∀ ctx pick,
      ((ErrgroupTimeout.callSlowAPI ctx pick).1 ≠ "" ∧
          (ErrgroupTimeout.callSlowAPI ctx pick).2 = none) ∨
      ((ErrgroupTimeout.callSlowAPI ctx pick).1 = "" ∧
          (ErrgroupTimeout.callSlowAPI ctx pick).2 ≠ none)) ∧
    (∀ d, AlwaysReturns (ErrgroupTimeout.raceProgram d)) ∧
    (∀ d, ∃ s b v, UReach (ErrgroupTimeout.raceProgram d) s ∧
      (s.status 0).branch = some b ∧ (s.status 0).value = some v) ∧
    (∀ d s b v pick, UReach (ErrgroupTimeout.raceProgram d) s →
      (s.status 0).branch = some b → (s.status 0).value = some v → d ≠ some 5000 →
      ErrgroupTimeout.callSlowAPI (ErrgroupTimeout.contextOf d) pick =
        ErrgroupTimeout.selectResult b v) ∧
    (∃ s, UReach (ErrgroupTimeout.raceProgram (some 5000)) s ∧
      (s.status 0).branch = some Branch.work ∧
      ErrgroupTimeout.selectResult Branch.work ((s.status 0).value.getD none) =
        ErrgroupTimeout.callSlowAPI (ErrgroupTimeout.contextOf (some 5000)) true) ∧
    (∃ s, UReach (ErrgroupTimeout.raceProgram (some 5000)) s ∧
      (s.status 0).branch = some Branch.done ∧
      ErrgroupTimeout.selectResult Branch.done ((s.status 0).value.getD none) =
        ErrgroupTimeout.callSlowAPI (ErrgroupTimeout.contextOf (some 5000)) false) := by
  have hlt : ∀ d e pick, d < 5000 →
      ErrgroupTimeout.callSlowAPI { done := some (d, e) } pick = ("", some e) := by
    intro d e pick hd
    have h1 : ¬ 5000 < d := by omega
    simp [ErrgroupTimeout.callSlowAPI, h1, hd]
  have hgt : ∀ ctx pick, (∀ t e, ctx.done = some (t, e) → 5000 < t) →
      ErrgroupTimeout.callSlowAPI ctx pick = ("成功获取API数据", none) := by
    intro ctx pick h
    unfold ErrgroupTimeout.callSlowAPI
    cases hc : ctx.done with
    | none => rfl
    | some te =>
      obtain ⟨t, e⟩ := te
      have := h t e hc
      simp [this]
  have hwt : ∀ d pick, 5000 < d →
      ErrgroupTimeout.callSlowAPI
        (ErrgroupTimeout.withTimeout ErrgroupTimeout.background d) pick =
        ("成功获取API数据", none) := by
    intro d pick hd
    apply hgt
    intro t e hte
    simp only [ErrgroupTimeout.withTimeout, ErrgroupTimeout.background, Option.some.injEq,
      Prod.mk.injEq] at hte
    omega
  refine ⟨?_, hlt, hwt, hgt, ?_, ?_, ?_, ?_, ?_, ?_⟩
  · intro d pick hd
    exact hlt d _ pick hd
  rotate_left
  · intro d
    exact alwaysReturns_of_capacity (by simp [ErrgroupTimeout.raceProgram])
  · intro d
    obtain ⟨acts, s, hex, hres⟩ := wait_returns
      (p := ErrgroupTimeout.raceProgram d) (by simp [ErrgroupTimeout.raceProgram])
      (init (ErrgroupTimeout.raceProgram d)) ⟨[], rfl⟩
    have hs : UReach (ErrgroupTimeout.raceProgram d) s := ⟨acts, hex⟩
    obtain ⟨r, hr⟩ := result_exited hres
    obtain ⟨b, v, hst⟩ := branch_of_completed
      ((reach_inv hs.reach).all_completed hr 0 (by show 0 < 1; decide))
    exact ⟨s, b, v, hs, by rw [hst]; rfl, by rw [hst]; rfl⟩
  · intro d s b v pick hs hb hv hd
    obtain ⟨h1, h2⟩ := race_outcome hs hb hv
    cases d with
    | none =>
      obtain ⟨rfl, rfl⟩ := h2 (fun t ht => by cases ht)
      rfl
    | some t =>
      rcases Nat.lt_or_ge t 5000 with hlt5 | hge5
      · obtain ⟨rfl, rfl⟩ := h1 t rfl hlt5
        exact hlt t _ pick hlt5
      · have hgt5 : 5000 < t := by
          rcases Nat.lt_or_ge 5000 t with h | h
          · exact h
          · exact absurd (by rw [Nat.le_antisymm h hge5]) hd
        obtain ⟨rfl, rfl⟩ := h2 (fun t' ht' => by cases ht'; exact hgt5)
        exact hwt t pick hgt5
  · obtain ⟨s, hex, hf⟩ := ucheckAfter_spec
      (by decide : ucheckAfter (ErrgroupTimeout.raceProgram (some 5000))
        [Action.go, Action.tick 5000, Action.work 0]
        (fun s => decide ((s.status 0).branch = some Branch.work) &&
          decide (ErrgroupTimeout.selectResult Branch.work ((s.status 0).value.getD none) =
            ErrgroupTimeout.callSlowAPI (ErrgroupTimeout.contextOf (some 5000)) true)) = true)
    simp only [Bool.and_eq_true, decide_eq_true_eq] at hf
    exact ⟨s, ⟨_, hex⟩, hf.1, hf.2⟩
  · obtain ⟨s, hex, hf⟩ := ucheckAfter_spec
      (by decide : ucheckAfter (ErrgroupTimeout.raceProgram (some 5000))
        [Action.go, Action.tick 5000, Action.deadline, Action.done 0]
        (fun s => decide ((s.status 0).branch = some Branch.done) &&
          decide (ErrgroupTimeout.selectResult Branch.done ((s.status 0).value.getD none) =
            ErrgroupTimeout.callSlowAPI (ErrgroupTimeout.contextOf (some 5000)) false)) = true)
    simp only [Bool.and_eq_true, decide_eq_true_eq] at hf
    exact ⟨s, ⟨_, hex⟩, hf.1, hf.2⟩
  · intro ctx pick
    have hne : ("成功获取API数据" : String) ≠ "" := by decide
    unfold ErrgroupTimeout.callSlowAPI
    cases ctx.done with
    | none => left; exact ⟨hne, rfl⟩
    | some te =>
      obtain ⟨t, e⟩ := te
      simp only
      split_ifs
      · left; exact ⟨hne, rfl⟩
      · right; exact ⟨rfl, by simp⟩
      · left; exact ⟨hne, rfl⟩
      · right; exact ⟨rfl, by simp⟩

/-- Witness for C8 at the deadlines 2000ms and 6000ms. -/
theorem callSlowAPI_race_witness :
    ErrgroupTimeout.callSlowAPI
        (ErrgroupTimeout.withTimeout ErrgroupTimeout.background 2000) true =
      ("", some GoError.deadlineExceeded) ∧
    ErrgroupTimeout.callSlowAPI
        (ErrgroupTimeout.withTimeout ErrgroupTimeout.background 6000) false =
      ("成功获取API数据", none) :=
  ⟨callSlowAPI_race.1 2000 true (by decide), callSlowAPI_race.2.2.1 6000 false (by decide)⟩

/-! ## C6: admission after cancellation -/

/-- A property kept by every step under the ideal clock holds along every
continuation of a run. -/
theorem uexec_preserves {p : Program} (P : State → Prop)
    (hstep : ∀ s a s', UReach p s → P s → ustep p a s = some s' → P s') :
    ∀ acts s s', UReach p s → P s → uexec p s acts = some s' → P s' := by
  intro acts
  induction acts with
  | nil =>
    intro s s' _ hP h
    simp only [uexec, Option.some.injEq] at h
    subst h; exact hP
  | cons a rest ih =>
    intro s s' hs hP h
    simp only [uexec] at h
    cases hst : ustep p a s with
    | none => simp [hst] at h
    | some s₁ =>
      simp only [hst, Option.some_bind] at h
      exact ih s₁ s' (hs.usucc_state hst) (hstep s a s₁ hs hP hst) h

/-- The signal, once triggered, stays triggered. -/
theorem ctxErr_stable {p : Program} {a : Action} {s s' : State}
    (h : step p a s = some s') (hc : s.ctxErr ≠ none) : s'.ctxErr = s.ctxErr := by
  cases a with
  | send => obtain ⟨n, _, _, _, rfl⟩ := step_send_inv h; rfl
  | go => obtain ⟨_, rfl⟩ := step_go_inv h; rfl
  | work i => obtain ⟨st, _, _, rfl⟩ := step_work_inv h; rfl
  | done i => obtain ⟨st, f, c, _, _, _, rfl⟩ := step_done_inv h; rfl
  | timeout i => obtain ⟨st, t, _, _, _, rfl⟩ := step_timeout_inv h; rfl
  | release i => obtain ⟨b, r, _, _, rfl⟩ := step_release_inv h; rfl
  | report i =>
    obtain ⟨b, r, _, _, rfl⟩ := step_report_inv h
    show (if r.isSome = true ∧ s.err.isNone = true ∧ s.ctxErr.isNone = true
      then some GoError.canceled else s.ctxErr) = s.ctxErr
    rw [if_neg]
    rintro ⟨_, _, h3⟩
    exact hc (by simpa using h3)
  | deadline =>
    obtain ⟨t, _, _, h0, _, rfl⟩ := step_deadline_inv h
    exact absurd h0 hc
  | wait =>
    obtain ⟨_, _, rfl⟩ := step_wait_inv h
    show (if s.ctxErr.isNone = true then some GoError.canceled else s.ctxErr) = s.ctxErr
    rw [if_neg]
    intro h3
    exact hc (by simpa using h3)
  | tick d => obtain ⟨_, _, rfl⟩ := step_tick_inv h; rfl

/-- Under the ideal clock, a task that starts when the signal is already
triggered, whose `select` watches the signal and whose timer is positive, can
only leave through the `Done` case, and no time passes until it does. -/
theorem late_task_step {p : Program} {i t₀ : Nat} {f : GoError → Option GoError}
    (hf : (p.task i).onDone = some f) (hw : 0 < (p.task i).work)
    (hto : (p.task i).ownTimeout = none) {a : Action} {s s' : State} (hI : Inv p s)
    (hc : s.ctxErr ≠ none)
    (hP : (s.status i = TaskState.running t₀ ∧ s.now = t₀) ∨
      (s.status i).branch = some Branch.done)
    (h : ustep p a s = some s') :
    s'.ctxErr ≠ none ∧
    ((s'.status i = TaskState.running t₀ ∧ s'.now = t₀) ∨
      (s'.status i).branch = some Branch.done) := by
  have hc' : s'.ctxErr ≠ none := by rw [ctxErr_stable (ustep_step h) hc]; exact hc
  refine ⟨hc', ?_⟩
  have hnp : s.status i ≠ TaskState.pending := by
    rcases hP with ⟨h1, _⟩ | h1
    · rw [h1]; simp
    · intro h2; rw [h2] at h1; cases h1
  have key : ∀ (j : Nat) (x : TaskState), (j = i → x.branch = some Branch.done) →
      ((Function.update s.status j x i = TaskState.running t₀ ∧ s.now = t₀) ∨
        (Function.update s.status j x i).branch = some Branch.done) := by
    intro j x hx
    by_cases hj : i = j
    · subst hj
      right
      simpa using hx rfl
    · rw [Function.update_noteq hj]
      exact hP
  cases a with
  | send => obtain ⟨n, _, _, _, rfl⟩ := step_send_inv (ustep_step h); exact hP
  | go =>
    obtain ⟨hpc, rfl⟩ := step_go_inv (ustep_step h)
    refine key s.next _ ?_
    intro hj
    exact absurd ((hI.pending i).2 (by omega)) hnp
  | work j =>
    obtain ⟨st, hst, hdue, rfl⟩ := step_work_inv (ustep_step h)
    refine key j _ ?_
    rintro rfl
    rcases hP with ⟨h1, h2⟩ | h1
    · rw [h1] at hst
      cases hst
      omega
    · rw [hst] at h1; cases h1
  | done j =>
    obtain ⟨st, f', c, _, _, _, rfl⟩ := step_done_inv (ustep_step h)
    exact key j _ (fun _ => rfl)
  | timeout j =>
    obtain ⟨st, t, hst, ht, _, rfl⟩ := step_timeout_inv (ustep_step h)
    refine key j _ ?_
    rintro rfl
    rw [hto] at ht; cases ht
  | release j =>
    obtain ⟨b, r, hst, _, rfl⟩ := step_release_inv (ustep_step h)
    refine key j _ ?_
    rintro rfl
    rcases hP with ⟨h1, _⟩ | h1
    · rw [h1] at hst; cases hst
    · rw [hst] at h1; exact h1
  | report j =>
    obtain ⟨b, r, hst, _, rfl⟩ := step_report_inv (ustep_step h)
    refine key j _ ?_
    rintro rfl
    rcases hP with ⟨h1, _⟩ | h1
    · rw [h1] at hst; cases hst
    · rw [hst] at h1; exact h1
  | deadline => obtain ⟨t, _, _, _, _, rfl⟩ := step_deadline_inv (ustep_step h); exact hP
  | wait => obtain ⟨_, _, rfl⟩ := step_wait_inv (ustep_step h); exact hP
  | tick d =>
    obtain ⟨hq, _, _, _, rfl⟩ := ustep_tick_inv h
    rcases hP with ⟨h1, _⟩ | h1
    · exfalso
      obtain ⟨c, hcc⟩ := Option.ne_none_iff_exists'.1 hc
      have hi : i < p.taskCount := hI.lt_of_status hnp
      have := (quiescent_iff.1 hq) (Action.done i) (mem_discreteActions.2 (by
        right; right; right; right; exact ⟨i, hi, Or.inr (Or.inl rfl)⟩))
      simp [step, h1, hf, hcc] at this
    · exact Or.inr h1

/-- C6, counterexample: in combine (`zeroSeed`, ideal clock) task 15 fails at
3100ms and the group cancels its context while tasks 18 and 19 are still waiting
for admission; `main` then sends on the semaphore and launches task 18, which is
Running at 3100ms with the signal triggered; the same happens in the scenario
"capacity 1, first task fails immediately", where task #2 is Running after the
cancellation. -/
theorem pending_task_admitted_after_cancel :
    (∃ s₁ s₂,
      uexec (Combine.main zeroSeed) (init (Combine.main zeroSeed)) combineUntilFailure =
        some s₁ ∧
      s₁.ctxErr = some GoError.canceled ∧ s₁.err = some (Combine.failure 15) ∧
      s₁.pc = MainPc.acquire ∧ s₁.next = 18 ∧
      s₁.status 18 = TaskState.pending ∧ s₁.status 19 = TaskState.pending ∧
      uexec (Combine.main zeroSeed) s₁ launchNext = some s₂ ∧
      s₂.status 18 = TaskState.running 3100 ∧ s₂.ctxErr = some GoError.canceled) ∧
    (∃ s₁ s₂,
      uexec limiterScenario (init limiterScenario) scenarioUntilCancel = some s₁ ∧
      s₁.ctxErr = some GoError.canceled ∧ s₁.status 1 = TaskState.pending ∧
      uexec limiterScenario s₁ launchNext = some s₂ ∧
      s₂.status 1 = TaskState.running 0 ∧ s₂.ctxErr = some GoError.canceled) := by
  constructor
  · obtain ⟨s₁, h₁, hf⟩ := ucheckAfter_spec
      (by decide : ucheckAfter (Combine.main zeroSeed) combineUntilFailure
        (fun s => decide (s.ctxErr = some GoError.canceled ∧
          s.err = some (Combine.failure 15) ∧
          s.pc = MainPc.acquire ∧ s.next = 18 ∧
          s.status 18 = TaskState.pending ∧ s.status 19 = TaskState.pending)) = true)
    obtain ⟨s₂, h₂, hg⟩ := ucheckAfter_spec
      (by decide : ucheckAfter (Combine.main zeroSeed) (combineUntilFailure ++ launchNext)
        (fun s => decide (s.status 18 = TaskState.running 3100 ∧
          s.ctxErr = some GoError.canceled)) = true)
    simp only [decide_eq_true_eq] at hf hg
    rw [uexec_append, h₁, Option.some_bind] at h₂
    exact ⟨s₁, s₂, h₁, hf.1, hf.2.1, hf.2.2.1, hf.2.2.2.1, hf.2.2.2.2.1, hf.2.2.2.2.2, h₂,
      hg.1, hg.2⟩
  · obtain ⟨s₁, h₁, hf⟩ := ucheckAfter_spec
      (by decide : ucheckAfter limiterScenario scenarioUntilCancel
        (fun s => decide (s.ctxErr = some GoError.canceled ∧
          s.status 1 = TaskState.pending)) = true)
    obtain ⟨s₂, h₂, hg⟩ := ucheckAfter_spec
      (by decide : ucheckAfter limiterScenario (scenarioUntilCancel ++ launchNext)
        (fun s => decide (s.status 1 = TaskState.running 0 ∧
          s.ctxErr = some GoError.canceled)) = true)
    simp only [decide_eq_true_eq] at hf hg
    rw [uexec_append, h₁, Option.some_bind] at h₂
    exact ⟨s₁, s₂, h₁, hf.1, hf.2, h₂, hg.1, hg.2⟩

/-- C6, amended: the acquire of the launch loop is a plain blocking send that
does not look at the signal. Whatever the state of the signal, the send is
enabled as soon as the occupancy is below the capacity, so a task still Pending
when the signal is triggered is admitted and becomes Running; under the ideal
clock a task launched after the signal, whose `select` watches it and whose timer
is positive, leaves through its `ctx.Done()` case before any time passes; and from
every state `Wait` returns after all tasks have been admitted and have
completed. -/
theorem admission_ignores_cancel :
    (∀ (p : Program) (n : Nat) (s : State), p.capacity = some n → s.pc = MainPc.acquire →
      s.sem < n → ∃ s', step p Action.send s = some s' ∧ s'.pc = MainPc.launch ∧
        s'.ctxErr = s.ctxErr) ∧
    (∀ (p : Program) (s₁ s₂ : State) (post : List Action) (f : GoError → Option GoError),
      UReach p s₁ → s₁.ctxErr ≠ none → s₁.pc = MainPc.launch →
      (p.task s₁.next).onDone = some f → 0 < (p.task s₁.next).work →
      (p.task s₁.next).ownTimeout = none →
      uexec p s₁ (Action.go :: post) = some s₂ →
      (s₂.status s₁.next = TaskState.running s₁.now ∧ s₂.now = s₁.now) ∨
        (s₂.status s₁.next).branch = some Branch.done) ∧
    (∀ (p : Program), p.capacity ≠ some 0 → ∀ s, UReach p s →
      ∃ acts s' r, uexec p s acts = some s' ∧ s'.pc = MainPc.exited r ∧
        s'.next = p.taskCount ∧ ∀ i, i < p.taskCount → (s'.status i).isCompleted = true) := by
  refine ⟨?_, ?_, ?_⟩
  · intro p n s hc hpc hlt
    exact ⟨{ s with sem := s.sem + 1, pc := MainPc.launch }, by simp [step, hc, hpc, hlt],
      rfl, rfl⟩
  · intro p s₁ s₂ post f hs hc hpc hf hw hto he
    simp only [uexec] at he
    cases hgo : ustep p Action.go s₁ with
    | none => simp [hgo] at he
    | some s₀ =>
      simp only [hgo, Option.some_bind] at he
      obtain ⟨_, rfl⟩ := step_go_inv (ustep_step hgo)
      have hs₀ := hs.usucc_state hgo
      have := uexec_preserves (p := p)
        (fun s => s.ctxErr ≠ none ∧
          ((s.status s₁.next = TaskState.running s₁.now ∧ s.now = s₁.now) ∨
            (s.status s₁.next).branch = some Branch.done))
        (fun s a s' hs hP hst =>
          late_task_step hf hw hto (reach_inv hs.reach) hP.1 hP.2 hst)
        post _ s₂ hs₀ ⟨hc, Or.inl ⟨by simp, rfl⟩⟩ he
      exact this.2
  · intro p hcap s hs
    obtain ⟨acts, s', he, hres⟩ := wait_returns hcap s hs
    obtain ⟨r, hpc⟩ := result_exited hres
    obtain ⟨pre, hpre⟩ := hs
    have hs' : UReach p s' := ⟨pre ++ acts, by rw [uexec_append, hpre, Option.some_bind]; exact he⟩
    have hI := reach_inv hs'.reach
    exact ⟨acts, s', r, he, hpc, (hI.pc_exited hpc).1, hI.all_completed hpc⟩

/-- Witness for C6 (amended): in the run of combine, task 18 is launched after
the cancellation; in the state reached when `Wait` returns it has left through
its `ctx.Done()` case. -/
theorem admission_ignores_cancel_witness :
    ∃ s₁ s₂,
      uexec (Combine.main zeroSeed) (init (Combine.main zeroSeed))
        (combineUntilFailure ++ [8, 16, 17].flatMap finishDone ++ [Action.send]) = some s₁ ∧
      s₁.ctxErr ≠ none ∧ s₁.pc = MainPc.launch ∧ s₁.next = 18 ∧
      uexec (Combine.main zeroSeed) s₁
        (Action.go :: (finishDone 18 ++ launchNext ++ finishDone 19 ++ [Action.wait])) = some s₂ ∧
      s₂.result = some (some (Combine.failure 15)) ∧
      (s₂.status 18).branch = some Branch.done := by
  obtain ⟨s₁, h₁, hf⟩ := ucheckAfter_spec
    (by decide : ucheckAfter (Combine.main zeroSeed)
      (combineUntilFailure ++ [8, 16, 17].flatMap finishDone ++ [Action.send])
      (fun s => decide (s.ctxErr ≠ none ∧ s.pc = MainPc.launch ∧ s.next = 18)) = true)
  obtain ⟨s₂, h₂, hg⟩ := ucheckAfter_spec
    (by decide : ucheckAfter (Combine.main zeroSeed)
      ((combineUntilFailure ++ [8, 16, 17].flatMap finishDone ++ [Action.send]) ++
        (Action.go :: (finishDone 18 ++ launchNext ++ finishDone 19 ++ [Action.wait])))
      (fun s => decide (s.result = some (some (Combine.failure 15)))) = true)
  simp only [decide_eq_true_eq] at hf hg
  rw [uexec_append, h₁, Option.some_bind] at h₂
  have h18 := admission_ignores_cancel.2.1 (Combine.main zeroSeed) s₁ s₂
    (finishDone 18 ++ launchNext ++ finishDone 19 ++ [Action.wait])
    (fun _ => some (Combine.cancelNotice 18)) ⟨_, h₁⟩ hf.1 hf.2.1
    (by rw [hf.2.2]; rfl) (by rw [hf.2.2]; decide) (by rw [hf.2.2]; rfl) h₂
  refine ⟨s₁, s₂, h₁, hf.1, hf.2.1, hf.2.2, h₂, hg, ?_⟩
  rw [hf.2.2] at h18
  rcases h18 with ⟨hrun, _⟩ | hd
  · exfalso
    obtain ⟨r, hpc⟩ := result_exited (s := s₂) (by rw [hg]; simp)
    have hs₂ : UReach (Combine.main zeroSeed) s₂ :=
      ⟨_, by rw [uexec_append, h₁, Option.some_bind]; exact h₂⟩
    have := (reach_inv hs₂.reach).all_completed hpc 18 (by decide)
    rw [hrun] at this
    cases this
  · exact hd

/-! ## C5: what `Wait` returns after the deadline -/

theorem combine_onWork (T : Nat) (seed : Nat → Nat) (i : Nat) :
    ((Combine.mainWith T seed).task i).onWork =
      if i = 15 then some (Combine.failure 15) else none := by
  by_cases h : i = 15
  · subst h; rfl
  · simp [Combine.mainWith, Combine.processTask, h]

theorem combine_onDone (T : Nat) (seed : Nat → Nat) (i : Nat) :
    ((Combine.mainWith T seed).task i).onDone = some (fun _ => some (Combine.cancelNotice i)) :=
  rfl

theorem combine_ownTimeout (T : Nat) (seed : Nat → Nat) (i : Nat) :
    ((Combine.mainWith T seed).task i).ownTimeout = none := rfl

theorem errorsIs_failure (i : Nat) :
    errorsIs (some (Combine.failure i)) GoError.deadlineExceeded = false := by
  simp [errorsIs, Combine.failure]

theorem errorsIs_cancelNotice (i : Nat) :
    errorsIs (some (Combine.cancelNotice i)) GoError.deadlineExceeded = false := by
  simp [errorsIs, Combine.cancelNotice]

/-- What a task of combine returns, by the case it left through. -/
theorem combine_values {T : Nat} {seed : Nat → Nat} {s : State}
    (hs : Reach (Combine.mainWith T seed) s) {i : Nat} {b : Branch} {v : Option GoError}
    (hb : (s.status i).branch = some b) (hv : (s.status i).value = some v) :
    (b = Branch.done → v = some (Combine.cancelNotice i)) ∧
    (b = Branch.work → v = if i = 15 then some (Combine.failure 15) else none) ∧
    b ≠ Branch.timeout := by
  have hR := reach_runInv hs
  refine ⟨?_, ?_, ?_⟩
  · rintro rfl
    obtain ⟨f, c, hf, _, hr⟩ := hR.done_val i v hb hv
    rw [combine_onDone] at hf
    cases hf
    exact hr
  · rintro rfl
    rw [hR.work_val i v hb hv, combine_onWork]
  · rintro rfl
    obtain ⟨_, t, ht, _⟩ := hR.tmo_val i v hb hv
    rw [combine_ownTimeout] at ht
    cases ht

/-- The value `Wait` returns in combine: never `nil`, and always one of the
plain errors built by `processTask`. -/
theorem combine_result {T : Nat} {seed : Nat → Nat} {s : State}
    (hs : Reach (Combine.mainWith T seed) s) {r : Option GoError}
    (hpc : s.pc = MainPc.exited r) :
    ∃ e, r = some e ∧ (e = Combine.failure 15 ∨ ∃ i, i < 20 ∧ e = Combine.cancelNotice i) := by
  have hI := reach_inv hs
  have hR := reach_runInv hs
  have hO := reach_ordInv hs
  have hr : r = s.err := hO.exit_eq r hpc
  have hne : s.err ≠ none := by
    obtain ⟨b, v, hst⟩ := branch_of_completed (hI.all_completed hpc 15 (by show 15 < 20; decide))
    obtain ⟨h1, h2, h3⟩ := combine_values hs (i := 15) (b := b) (v := v) (by simp [hst])
      (by simp [hst])
    cases b with
    | work =>
      rw [h2 rfl] at hst
      exact hR.completed_err 15 _ _ hst
    | done =>
      rw [h1 rfl] at hst
      exact hR.completed_err 15 _ _ hst
    | timeout => exact absurd rfl h3
  obtain ⟨e, he⟩ := Option.ne_none_iff_exists'.1 hne
  refine ⟨e, by rw [hr, he], ?_⟩
  have hmem : some e ∈ s.order.map Prod.snd := firstError_mem (by rw [← hO.err_eq]; exact he)
  obtain ⟨⟨i, v⟩, hiv, hv⟩ := List.mem_map.1 hmem
  simp only at hv
  subst hv
  obtain ⟨b, hst⟩ := (hO.mem i (some e)).1 hiv
  have hi : i < 20 := hI.lt_of_status (by simp [hst])
  obtain ⟨h1, h2, h3⟩ := combine_values hs (i := i) (b := b) (v := some e) (by simp [hst])
    (by simp [hst])
  cases b with
  | work =>
    have := h2 rfl
    by_cases h15 : i = 15
    · rw [if_pos h15] at this
      cases this
      exact Or.inl rfl
    · rw [if_neg h15] at this
      cases this
  | done =>
    have := h1 rfl
    cases this
    exact Or.inr ⟨i, hi, rfl⟩
  | timeout => exact absurd rfl h3

theorem uexec_cons (p : Program) (s : State) (a : Action) (rest : List Action) :
    uexec p s (a :: rest) = (ustep p a s).bind (fun s' => uexec p s' rest) := rfl

theorem inFlight_iff {p : Program} {s : State} {i : Nat} :
    Combine.inFlight p s i = true ↔
      ∃ st, s.status i = TaskState.running st ∧ s.now < st + (p.task i).work := by
  unfold Combine.inFlight
  cases h : s.status i <;> simp

theorem reportsCancelled_iff {s : State} {i : Nat} :
    Combine.reportsCancelled s i = true ↔
      (s.status i).branch = some Branch.done ∧
        (s.status i).value = some (some (Combine.cancelNotice i)) := by
  simp [Combine.reportsCancelled]

theorem combine_work_pos (T : Nat) (seed : Nat → Nat) (i : Nat) :
    0 < ((Combine.mainWith T seed).task i).work := by
  show 0 < (if i = 15 then 300 else if i = 8 then 2500 else 700 + Intn (seed i) 200)
  split_ifs <;> omega

theorem combine_capacity (T : Nat) (seed : Nat → Nat) :
    (Combine.mainWith T seed).capacity ≠ some 0 := by
  simp [Combine.mainWith, Combine.maxConcurrency]

/-- Under the ideal clock no time passes in combine once the group context is
done: until `Wait` returns some task is inside its `select`, where the
`ctx.Done()` case is ready, or some deferred receive or report is ready. -/
theorem combine_no_tick {T : Nat} {seed : Nat → Nat} {s s' : State} {d : Nat}
    (hI : Inv (Combine.mainWith T seed) s) (hc : s.ctxErr ≠ none)
    (h : ustep (Combine.mainWith T seed) (Action.tick d) s = some s') : False := by
  obtain ⟨hq, _, _, hres, _⟩ := ustep_tick_inv h
  obtain ⟨i, st, hi, hst⟩ := exists_running (combine_capacity T seed) hI hq hres
  obtain ⟨c, hcc⟩ := Option.ne_none_iff_exists'.1 hc
  have := (quiescent_iff.1 hq) (Action.done i) (mem_discreteActions.2 (by
    right; right; right; right; exact ⟨i, hi, Or.inr (Or.inl rfl)⟩))
  simp [step, hst, combine_onDone, hcc] at this

/-- Under the ideal clock, once the group context is done, a task of combine
that is not yet launched, or in flight with its timer not yet due, or gone
through `ctx.Done()` with its cancellation notice, stays in one of these three
situations, and the clock does not move. -/
theorem cancel_step {T : Nat} {seed : Nat → Nat} {i : Nat} {a : Action} {s s' : State}
    (hI : Inv (Combine.mainWith T seed) s) (hc : s.ctxErr ≠ none)
    (hP : s.status i = TaskState.pending ∨
      (∃ st, s.status i = TaskState.running st ∧
        s.now < st + ((Combine.mainWith T seed).task i).work) ∨
      ((s.status i).branch = some Branch.done ∧
        (s.status i).value = some (some (Combine.cancelNotice i))))
    (h : ustep (Combine.mainWith T seed) a s = some s') :
    s'.now = s.now ∧
    (s'.status i = TaskState.pending ∨
      (∃ st, s'.status i = TaskState.running st ∧
        s'.now < st + ((Combine.mainWith T seed).task i).work) ∨
      ((s'.status i).branch = some Branch.done ∧
        (s'.status i).value = some (some (Combine.cancelNotice i)))) := by
  have key : ∀ (j : Nat) (x : TaskState),
      (j = i → (x = TaskState.pending ∨
        (∃ st, x = TaskState.running st ∧
          s.now < st + ((Combine.mainWith T seed).task i).work) ∨
        (x.branch = some Branch.done ∧
          x.value = some (some (Combine.cancelNotice i))))) →
      (Function.update s.status j x i = TaskState.pending ∨
        (∃ st, Function.update s.status j x i = TaskState.running st ∧
          s.now < st + ((Combine.mainWith T seed).task i).work) ∨
        ((Function.update s.status j x i).branch = some Branch.done ∧
          (Function.update s.status j x i).value =
            some (some (Combine.cancelNotice i)))) := by
    intro j x hx
    by_cases hj : i = j
    · subst hj
      rw [Function.update_same]
      exact hx rfl
    · rw [Function.update_noteq hj]
      exact hP
  cases a with
  | send =>
    obtain ⟨n, _, _, _, rfl⟩ := step_send_inv (ustep_step h)
    exact ⟨rfl, hP⟩
  | go =>
    obtain ⟨hpc, rfl⟩ := step_go_inv (ustep_step h)
    refine ⟨rfl, key s.next _ ?_⟩
    intro _
    have := combine_work_pos T seed i
    exact Or.inr (Or.inl ⟨s.now, rfl, by omega⟩)
  | work j =>
    obtain ⟨st, hst, hdue, rfl⟩ := step_work_inv (ustep_step h)
    refine ⟨rfl, key j _ ?_⟩
    rintro rfl
    exfalso
    rcases hP with h1 | ⟨st', h1, h2⟩ | ⟨h1, _⟩
    · rw [hst] at h1; cases h1
    · rw [hst] at h1
      cases h1
      omega
    · rw [hst] at h1; cases h1
  | done j =>
    obtain ⟨st, f, c, _, hf, _, rfl⟩ := step_done_inv (ustep_step h)
    refine ⟨rfl, key j _ ?_⟩
    rintro rfl
    rw [combine_onDone] at hf
    cases hf
    exact Or.inr (Or.inr ⟨rfl, rfl⟩)
  | timeout j =>
    obtain ⟨st, t, _, ht, _, _⟩ := step_timeout_inv (ustep_step h)
    rw [combine_ownTimeout] at ht
    cases ht
  | release j =>
    obtain ⟨b, r, hst, _, rfl⟩ := step_release_inv (ustep_step h)
    refine ⟨rfl, key j _ ?_⟩
    rintro rfl
    rcases hP with h1 | ⟨st', h1, _⟩ | ⟨h1, h2⟩
    · rw [hst] at h1; cases h1
    · rw [hst] at h1; cases h1
    · rw [hst] at h1 h2
      exact Or.inr (Or.inr ⟨h1, h2⟩)
  | report j =>
    obtain ⟨b, r, hst, _, rfl⟩ := step_report_inv (ustep_step h)
    refine ⟨rfl, key j _ ?_⟩
    rintro rfl
    rcases hP with h1 | ⟨st', h1, _⟩ | ⟨h1, h2⟩
    · rw [hst] at h1; cases h1
    · rw [hst] at h1; cases h1
    · rw [hst] at h1 h2
      exact Or.inr (Or.inr ⟨h1, h2⟩)
  | deadline =>
    obtain ⟨t, _, _, h0, _, _⟩ := step_deadline_inv (ustep_step h)
    exact absurd h0 hc
  | wait =>
    obtain ⟨_, _, rfl⟩ := step_wait_inv (ustep_step h)
    exact ⟨rfl, hP⟩
  | tick d => exact (combine_no_tick hI hc h).elim

/-- Under the ideal clock the clock of combine stands still once the group
context is done. -/
theorem combine_now_stable {T : Nat} {seed : Nat → Nat} {a : Action} {s s' : State}
    (hI : Inv (Combine.mainWith T seed) s) (hc : s.ctxErr ≠ none)
    (h : ustep (Combine.mainWith T seed) a s = some s') : s'.now = s.now := by
  cases a with
  | send => obtain ⟨n, _, _, _, rfl⟩ := step_send_inv (ustep_step h); rfl
  | go => obtain ⟨_, rfl⟩ := step_go_inv (ustep_step h); rfl
  | work i => obtain ⟨st, _, _, rfl⟩ := step_work_inv (ustep_step h); rfl
  | done i => obtain ⟨st, f, c, _, _, _, rfl⟩ := step_done_inv (ustep_step h); rfl
  | timeout i => obtain ⟨st, t, _, _, _, rfl⟩ := step_timeout_inv (ustep_step h); rfl
  | release i => obtain ⟨b, r, _, _, rfl⟩ := step_release_inv (ustep_step h); rfl
  | report i => obtain ⟨b, r, _, _, rfl⟩ := step_report_inv (ustep_step h); rfl
  | deadline => obtain ⟨t, _, _, _, _, rfl⟩ := step_deadline_inv (ustep_step h); rfl
  | wait => obtain ⟨_, _, rfl⟩ := step_wait_inv (ustep_step h); rfl
  | tick d => exact (combine_no_tick hI hc h).elim

/-- Under the ideal clock, along every continuation of a run of combine from a
state in which the deadline has expired: `ctx.Err()` stays `DeadlineExceeded`,
the clock stands still, and a task that was not yet launched or in flight with
its timer not yet due is still so, or has left through `ctx.Done()` with its
cancellation notice. -/
theorem after_expiry {T : Nat} {seed : Nat → Nat} {s₂ s₃ : State} {acts : List Action}
    (hs₂ : UReach (Combine.mainWith T seed) s₂)
    (hc : s₂.ctxErr = some GoError.deadlineExceeded)
    (h : uexec (Combine.mainWith T seed) s₂ acts = some s₃) :
    s₃.ctxErr = some GoError.deadlineExceeded ∧ s₃.now = s₂.now ∧
    ∀ i, s₂.status i = TaskState.pending ∨
        Combine.inFlight (Combine.mainWith T seed) s₂ i = true →
      s₃.status i = TaskState.pending ∨
        Combine.inFlight (Combine.mainWith T seed) s₃ i = true ∨
        Combine.reportsCancelled s₃ i = true := by
  have hbase := uexec_preserves (p := Combine.mainWith T seed)
    (fun s => s.ctxErr = some GoError.deadlineExceeded ∧ s.now = s₂.now)
    (fun s a s' hs hP hst => by
      have hne : s.ctxErr ≠ none := by rw [hP.1]; simp
      refine ⟨?_, ?_⟩
      · rw [ctxErr_stable (ustep_step hst) hne]
        exact hP.1
      · rw [combine_now_stable (reach_inv hs.reach) hne hst]
        exact hP.2)
    acts s₂ s₃ hs₂ ⟨hc, rfl⟩ h
  refine ⟨hbase.1, hbase.2, ?_⟩
  intro i hi
  have hi' : s₂.status i = TaskState.pending ∨
      (∃ st, s₂.status i = TaskState.running st ∧
        s₂.now < st + ((Combine.mainWith T seed).task i).work) ∨
      ((s₂.status i).branch = some Branch.done ∧
        (s₂.status i).value = some (some (Combine.cancelNotice i))) := by
    rcases hi with h1 | h1
    · exact Or.inl h1
    · exact Or.inr (Or.inl (inFlight_iff.1 h1))
  have := uexec_preserves (p := Combine.mainWith T seed)
    (fun s => s.ctxErr = some GoError.deadlineExceeded ∧
      (s.status i = TaskState.pending ∨
        (∃ st, s.status i = TaskState.running st ∧
          s.now < st + ((Combine.mainWith T seed).task i).work) ∨
        ((s.status i).branch = some Branch.done ∧
          (s.status i).value = some (some (Combine.cancelNotice i)))))
    (fun s a s' hs hP hst => by
      have hne : s.ctxErr ≠ none := by rw [hP.1]; simp
      refine ⟨?_, (cancel_step (reach_inv hs.reach) hne hP.2 hst).2⟩
      rw [ctxErr_stable (ustep_step hst) hne]
      exact hP.1)
    acts s₂ s₃ hs₂ ⟨hc, hi'⟩ h
  rcases this.2 with h1 | h1 | h1
  · exact Or.inl h1
  · exact Or.inr (Or.inl (inFlight_iff.2 h1))
  · exact Or.inr (Or.inr (reportsCancelled_iff.2 h1))

/-- The value `Wait` returns in combine is the non-nil value some task handed to
the group. -/
theorem combine_result_origin {T : Nat} {seed : Nat → Nat} {s : State}
    (hs : Reach (Combine.mainWith T seed) s) {r : Option GoError}
    (hpc : s.pc = MainPc.exited r) :
    ∃ e j b, r = some e ∧ j < 20 ∧ s.status j = TaskState.completed b (some e) := by
  have hI := reach_inv hs
  have hO := reach_ordInv hs
  obtain ⟨e, he, _⟩ := combine_result hs hpc
  have hr : r = s.err := hO.exit_eq r hpc
  have hmem : some e ∈ s.order.map Prod.snd :=
    firstError_mem (by rw [← hO.err_eq, ← hr]; exact he)
  obtain ⟨⟨j, v⟩, hjv, hv⟩ := List.mem_map.1 hmem
  simp only at hv
  subst hv
  obtain ⟨b, hst⟩ := (hO.mem j (some e)).1 hjv
  exact ⟨e, j, b, he, hI.lt_of_status (by simp [hst]), hst⟩

/-- C5, counterexample: in the combine loop with a 500ms parent timeout
(`zeroSeed`, ideal clock) the deadline expires at 500ms while tasks 0..3 are in
flight and no task has failed; `ctx.Err()` is `DeadlineExceeded`, yet `Wait`
returns the plain error "任务0在执行前接到取消信号" of task 0, for which
`errors.Is(result, context.DeadlineExceeded)` is false. -/
theorem deadline_result_is_not_deadline_exceeded :
    ∃ s₁ s₂,
      uexec (Combine.mainWith 500 zeroSeed) (init (Combine.mainWith 500 zeroSeed))
        deadlineUntilExpiry = some s₁ ∧
      s₁.now = 500 ∧ s₁.err = none ∧ s₁.ctxErr = some GoError.deadlineExceeded ∧
      s₁.runningCount (Combine.mainWith 500 zeroSeed) = 4 ∧
      uexec (Combine.mainWith 500 zeroSeed) s₁ deadlineAfterExpiry = some s₂ ∧
      s₂.result = some (some (Combine.cancelNotice 0)) ∧
      Combine.cancelNotice 0 = GoError.errorf "任务0在执行前接到取消信号" ∧
      errorsIs (some (Combine.cancelNotice 0)) GoError.deadlineExceeded = false := by
  obtain ⟨s₁, h₁, hf⟩ := ucheckAfter_spec
    (by decide : ucheckAfter (Combine.mainWith 500 zeroSeed) deadlineUntilExpiry
      (fun s => decide (s.now = 500 ∧ s.err = none ∧
        s.ctxErr = some GoError.deadlineExceeded ∧
        s.runningCount (Combine.mainWith 500 zeroSeed) = 4)) = true)
  obtain ⟨s₂, h₂, hg⟩ := ucheckAfter_spec
    (by decide : ucheckAfter (Combine.mainWith 500 zeroSeed)
      (deadlineUntilExpiry ++ deadlineAfterExpiry)
      (fun s => decide (s.result = some (some (Combine.cancelNotice 0)))) = true)
  simp only [decide_eq_true_eq] at hf hg
  rw [uexec_append, h₁, Option.some_bind] at h₂
  exact ⟨s₁, s₂, h₁, hf.1, hf.2.1, hf.2.2.1, hf.2.2.2, h₂, hg, by decide, by decide⟩

/-- C5, amended: for the combine coordinator, for every deadline `T` and every
random draw.
(1) In every run, scheduling delays included: when the deadline expires no task
has failed yet and from then on `ctx.Err()` is `DeadlineExceeded`; a task that
leaves through `ctx.Done()` returns the fresh error
`fmt.Errorf("任务%d在执行前接到取消信号", taskId)`, a task that leaves through
its timer returns `nil` (task 15: its failure); and `Wait` returns a non-nil plain
error, task 15's failure or the cancellation notice of some task, for which
`errors.Is(result, context.DeadlineExceeded)` is false.
(2) Under the ideal clock the program always reaches the return of `Wait`.
(3) Under the ideal clock, when the deadline expires (state `s₁`, at instant `T`,
no error recorded): in every later state `ctx.Err()` is `DeadlineExceeded` and
the clock is still `T`; every task that was in flight at the expiry with its
timer not yet due, and every task not yet launched, is still waiting for
admission, or in flight, or has reported cancellation through `ctx.Done()` with
its notice, never `nil` and never an independent failure; `Wait` does return,
and when it has returned each of these tasks has completed through `ctx.Done()`
with its notice, and the result is a plain error that is neither
`DeadlineExceeded` nor `Canceled`: the notice of some task when task 15 was in
flight or not yet launched at the expiry.
(4) The side condition on the timer is needed: with a 700ms deadline the timers
of tasks 0..3 fire at the instant of the expiry, and task 0 may return `nil`
through its timer case after the deadline has expired. -/
theorem deadline_result_is_plain_error :
    (∀ (T : Nat) (seed : Nat → Nat),
      (∀ s, Reach (Combine.mainWith T seed) s →
        (∀ s', step (Combine.mainWith T seed) Action.deadline s = some s' →
          s.err = none ∧ T ≤ s.now ∧ s'.ctxErr = some GoError.deadlineExceeded) ∧
        (s.ctxErr = some GoError.deadlineExceeded →
          ∀ a s', step (Combine.mainWith T seed) a s = some s' →
            s'.ctxErr = some GoError.deadlineExceeded) ∧
        (∀ i b v, (s.status i).branch = some b → (s.status i).value = some v →
          (b = Branch.done → v = some (Combine.cancelNotice i)) ∧
          (b = Branch.work → v = if i = 15 then some (Combine.failure 15) else none) ∧
          b ≠ Branch.timeout) ∧
        (∀ r, s.pc = MainPc.exited r →
          (∃ e, r = some e ∧
            (e = Combine.failure 15 ∨ ∃ i, i < 20 ∧ e = Combine.cancelNotice i)) ∧
          errorsIs r GoError.deadlineExceeded = false)) ∧
      AlwaysReturns (Combine.mainWith T seed) ∧
      (∀ acts₁ s₁ s₂,
        uexec (Combine.mainWith T seed) (init (Combine.mainWith T seed)) acts₁ = some s₁ →
        ustep (Combine.mainWith T seed) Action.deadline s₁ = some s₂ →
        s₁.err = none ∧ s₁.now = T ∧ s₂.ctxErr = some GoError.deadlineExceeded ∧
        (∀ acts₂ s₃, uexec (Combine.mainWith T seed) s₂ acts₂ = some s₃ →
          s₃.ctxErr = some GoError.deadlineExceeded ∧ s₃.now = T ∧
          (∀ i, s₁.status i = TaskState.pending ∨
              Combine.inFlight (Combine.mainWith T seed) s₁ i = true →
            s₃.status i = TaskState.pending ∨
              Combine.inFlight (Combine.mainWith T seed) s₃ i = true ∨
              Combine.reportsCancelled s₃ i = true) ∧
          (∀ r, s₃.pc = MainPc.exited r →
            (∀ i, i < 20 → s₁.status i = TaskState.pending ∨
                Combine.inFlight (Combine.mainWith T seed) s₁ i = true →
              s₃.status i =
                TaskState.completed Branch.done (some (Combine.cancelNotice i))) ∧
            errorsIs r GoError.deadlineExceeded = false ∧
            errorsIs r GoError.canceled = false ∧
            (s₁.status 15 = TaskState.pending ∨
                Combine.inFlight (Combine.mainWith T seed) s₁ 15 = true →
              ∃ i, i < 20 ∧ r = some (Combine.cancelNotice i)))) ∧
        (∃ acts₂ s₃ r, uexec (Combine.mainWith T seed) s₂ acts₂ = some s₃ ∧
          s₃.pc = MainPc.exited r))) ∧
    (∃ s, uexec (Combine.mainWith 700 zeroSeed) (init (Combine.mainWith 700 zeroSeed))
        tieRun = some s ∧
      s.now = 700 ∧ s.ctxErr = some GoError.deadlineExceeded ∧
      s.status 0 = TaskState.returned Branch.work none) := by
  refine ⟨fun T seed => ⟨?_, alwaysReturns_of_capacity (combine_capacity T seed), ?_⟩, ?_⟩
  · intro s hs
    refine ⟨?_, ?_, ?_, ?_⟩
    · intro s' hst
      obtain ⟨t, ht, hle, hc, _, rfl⟩ := step_deadline_inv hst
      have hT : t = T := by
        simp only [Combine.mainWith, Option.some.injEq] at ht
        exact ht.symm
      subst hT
      refine ⟨?_, hle, rfl⟩
      by_contra hne
      exact (reach_runInv hs).err_ctx hne hc
    · intro hc a s' hst
      rw [ctxErr_stable hst (by rw [hc]; simp)]
      exact hc
    · intro i b v hb hv
      exact combine_values hs hb hv
    · intro r hpc
      obtain ⟨e, he, hcase⟩ := combine_result hs hpc
      refine ⟨⟨e, he, hcase⟩, ?_⟩
      subst he
      rcases hcase with rfl | ⟨i, _, rfl⟩
      · exact errorsIs_failure 15
      · exact errorsIs_cancelNotice i
  · intro acts₁ s₁ s₂ h₁ hd
    have hs₁ : UReach (Combine.mainWith T seed) s₁ := ⟨acts₁, h₁⟩
    have hs₂ : UReach (Combine.mainWith T seed) s₂ := hs₁.usucc_state hd
    obtain ⟨t, ht, hle, hc, _, hs₂eq⟩ := step_deadline_inv (ustep_step hd)
    have hT : t = T := by
      simp only [Combine.mainWith, Option.some.injEq] at ht
      exact ht.symm
    subst hT
    have hnow : s₁.now = t := by
      have := (ureach_uInv hs₁).ddl t ht hc
      omega
    have hctx₂ : s₂.ctxErr = some GoError.deadlineExceeded := by rw [hs₂eq]
    have hnow₂ : s₂.now = t := by rw [hs₂eq]; exact hnow
    have hstat₂ : ∀ i, s₂.status i = s₁.status i := by intro i; rw [hs₂eq]
    have hfl₂ : ∀ i, Combine.inFlight (Combine.mainWith t seed) s₂ i =
        Combine.inFlight (Combine.mainWith t seed) s₁ i := by intro i; rw [hs₂eq]; rfl
    have herr : s₁.err = none := by
      by_contra hne
      exact (reach_runInv hs₁.reach).err_ctx hne hc
    refine ⟨herr, hnow, hctx₂, ?_, ?_⟩
    · intro acts₂ s₃ h₃
      obtain ⟨h3c, h3n, h3p⟩ := after_expiry hs₂ hctx₂ h₃
      have hpath : ∀ i, s₁.status i = TaskState.pending ∨
            Combine.inFlight (Combine.mainWith t seed) s₁ i = true →
          s₃.status i = TaskState.pending ∨
            Combine.inFlight (Combine.mainWith t seed) s₃ i = true ∨
            Combine.reportsCancelled s₃ i = true := by
        intro i hi
        apply h3p
        rw [hstat₂, hfl₂]
        exact hi
      refine ⟨h3c, by rw [h3n, hnow₂], hpath, ?_⟩
      intro r hpc
      have hs₃ : UReach (Combine.mainWith t seed) s₃ := by
        obtain ⟨pre, hpre⟩ := hs₂
        exact ⟨pre ++ acts₂, by rw [uexec_append, hpre, Option.some_bind]; exact h₃⟩
      have hI := reach_inv hs₃.reach
      have hdone : ∀ i, i < 20 → s₁.status i = TaskState.pending ∨
            Combine.inFlight (Combine.mainWith t seed) s₁ i = true →
          s₃.status i =
            TaskState.completed Branch.done (some (Combine.cancelNotice i)) := by
        intro i hi hin
        obtain ⟨b, v, hst⟩ := branch_of_completed (hI.all_completed hpc i hi)
        rcases hpath i hin with h1 | h1 | h1
        · rw [hst] at h1; cases h1
        · obtain ⟨st, h2, _⟩ := inFlight_iff.1 h1
          rw [hst] at h2; cases h2
        · obtain ⟨h2, h3⟩ := reportsCancelled_iff.1 h1
          rw [hst] at h2 h3
          cases h2
          cases h3
          exact hst
      obtain ⟨e, he, hcase⟩ := combine_result hs₃.reach hpc
      refine ⟨hdone, ?_, ?_, ?_⟩
      · subst he
        rcases hcase with rfl | ⟨i, _, rfl⟩
        · exact errorsIs_failure 15
        · exact errorsIs_cancelNotice i
      · subst he
        rcases hcase with rfl | ⟨i, _, rfl⟩
        · simp [errorsIs, Combine.failure]
        · simp [errorsIs, Combine.cancelNotice]
      · intro h15
        obtain ⟨e', j, b, he', hj, hst⟩ := combine_result_origin hs₃.reach hpc
        obtain ⟨hv1, hv2, hv3⟩ := combine_values hs₃.reach (i := j) (b := b) (v := some e')
          (by simp [hst]) (by simp [hst])
        cases b with
        | done => exact ⟨j, hj, by rw [he', hv1 rfl]⟩
        | timeout => exact absurd rfl hv3
        | work =>
          exfalso
          have hw := hv2 rfl
          by_cases hj15 : j = 15
          · subst hj15
            have := hdone 15 (by decide) h15
            rw [hst] at this
            cases this
          · rw [if_neg hj15] at hw
            cases hw
    · obtain ⟨acts₂, s₃, he, hres⟩ := wait_returns (combine_capacity t seed) s₂ hs₂
      obtain ⟨r, hpc⟩ := result_exited hres
      exact ⟨acts₂, s₃, r, he, hpc⟩
  · obtain ⟨s, hs, hf⟩ := ucheckAfter_spec
      (by decide : ucheckAfter (Combine.mainWith 700 zeroSeed) tieRun
        (fun s => decide (s.now = 700 ∧ s.ctxErr = some GoError.deadlineExceeded ∧
          s.status 0 = TaskState.returned Branch.work none)) = true)
    simp only [decide_eq_true_eq] at hf
    exact ⟨s, hs, hf.1, hf.2.1, hf.2.2⟩

/-- Witness for C5 (amended): in the run of the combine loop with a 500ms parent
timeout under the ideal clock, task 0 is in flight when the deadline expires; it
completes through `ctx.Done()` with its cancellation notice, and `Wait` returns
that notice at 500ms, a plain error. -/
theorem deadline_result_is_plain_error_witness :
    ∃ s₁ s₂ s₃,
      uexec (Combine.mainWith 500 zeroSeed) (init (Combine.mainWith 500 zeroSeed))
        deadlineBeforeExpiry = some s₁ ∧
      ustep (Combine.mainWith 500 zeroSeed) Action.deadline s₁ = some s₂ ∧
      uexec (Combine.mainWith 500 zeroSeed) s₂ deadlineAfterExpiry = some s₃ ∧
      Combine.inFlight (Combine.mainWith 500 zeroSeed) s₁ 0 = true ∧
      s₃.pc = MainPc.exited (some (Combine.cancelNotice 0)) ∧
      s₃.ctxErr = some GoError.deadlineExceeded ∧ s₃.now = 500 ∧
      s₃.status 0 = TaskState.completed Branch.done (some (Combine.cancelNotice 0)) ∧
      errorsIs (some (Combine.cancelNotice 0)) GoError.deadlineExceeded = false := by
  obtain ⟨s₁, h₁, hf⟩ := ucheckAfter_spec
    (by decide : ucheckAfter (Combine.mainWith 500 zeroSeed) deadlineBeforeExpiry
      (fun s => Combine.inFlight (Combine.mainWith 500 zeroSeed) s 0) = true)
  obtain ⟨s₃, h₃, hg⟩ := ucheckAfter_spec
    (by decide : ucheckAfter (Combine.mainWith 500 zeroSeed)
      (deadlineBeforeExpiry ++ (Action.deadline :: deadlineAfterExpiry))
      (fun s => decide (s.pc = MainPc.exited (some (Combine.cancelNotice 0)))) = true)
  simp only [decide_eq_true_eq] at hg
  rw [uexec_append, h₁, Option.some_bind, uexec_cons] at h₃
  cases hd : ustep (Combine.mainWith 500 zeroSeed) Action.deadline s₁ with
  | none =>
    rw [hd, Option.none_bind] at h₃
    cases h₃
  | some s₂ =>
    rw [hd, Option.some_bind] at h₃
    have H := (deadline_result_is_plain_error.1 500 zeroSeed).2.2 deadlineBeforeExpiry
      s₁ s₂ h₁ hd
    have H₃ := H.2.2.2.1 deadlineAfterExpiry s₃ h₃
    have Hx := H₃.2.2.2 _ hg
    exact ⟨s₁, s₂, s₃, h₁, hd, h₃, hf, hg, H₃.1, H₃.2.1,
      Hx.1 0 (by decide) (Or.inr hf), Hx.2.1⟩

/-! ## C9: combine returns the failure of task 15 -/

theorem quiescent_no_returned {p : Program} {s : State} (hI : Inv p s)
    (hq : quiescent p s = true) (i : Nat) (b : Branch) (r : Option GoError) :
    s.status i ≠ TaskState.returned b r := by
  intro hst
  have hi : i < p.taskCount := hI.lt_of_status (by rw [hst]; simp)
  have := (quiescent_iff.1 hq) (Action.release i) (mem_discreteActions.2 (by
    right; right; right; right; exact ⟨i, hi, Or.inr (Or.inr (Or.inr (Or.inl rfl)))⟩))
  have hsem := hI.sem_eq
  by_cases hcs : p.capacity.isSome = true
  · have hpos : 0 < s.runningCount p := by
      by_contra h0
      have h0' : countUpTo (fun j => (s.status j).holdsSlot) p.taskCount = 0 := by
        simp only [State.runningCount] at h0; omega
      have := countUpTo_eq_zero h0' i hi
      simp [hst] at this
    rw [if_pos hcs] at hsem
    simp [step, hst, hcs] at this
    omega
  · simp [step, hst, hcs] at this

theorem quiescent_no_released {p : Program} {s : State} (hI : Inv p s)
    (hq : quiescent p s = true) (i : Nat) (b : Branch) (r : Option GoError) :
    s.status i ≠ TaskState.released b r := by
  intro hst
  have hi : i < p.taskCount := hI.lt_of_status (by rw [hst]; simp)
  have := (quiescent_iff.1 hq) (Action.report i) (mem_discreteActions.2 (by
    right; right; right; right; exact ⟨i, hi, Or.inr (Or.inr (Or.inr (Or.inr rfl)))⟩))
  have hpos : 0 < s.wg := by
    by_contra h0
    have h0' : countUpTo (fun j => (s.status j).live) p.taskCount = 0 := by
      have := hI.wg_eq; omega
    have := countUpTo_eq_zero h0' i hi
    simp [hst] at this
  simp [step, hst, hpos] at this

theorem combine_work_le (seed : Nat → Nat) (i : Nat) (h8 : i ≠ 8) :
    ((Combine.main seed).task i).work ≤ 899 := by
  show (if i = 15 then 300 else if i = 8 then 2500 else 700 + Intn (seed i) 200) ≤ 899
  have : Intn (seed i) 200 < 200 := Nat.mod_lt _ (by decide)
  split_ifs <;> omega

theorem combine_work_15 (seed : Nat → Nat) : ((Combine.main seed).task 15).work = 300 := rfl

theorem admitBound_mono (k : Nat) : Combine.admitBound k ≤ Combine.admitBound (k + 1) := by
  unfold Combine.admitBound
  split_ifs <;> omega

theorem admitBound_le (k : Nat) : Combine.admitBound k ≤ 3596 := by
  unfold Combine.admitBound
  split_ifs <;> omega

theorem slow_count (k : Nat) (h4 : 4 ≤ k) (h15 : k ≤ 15) :
    countUpTo (Combine.slow k) 20 ≤ 3 := by
  interval_cases k <;> decide

theorem below_count (k : Nat) (hk : k < 4) : countUpTo (fun i => decide (i < k)) 20 = k := by
  interval_cases k <;> decide

/-- In a quiescent state of combine where `main` waits for a slot for task
`k ≤ 15`, some Running task is due by `admitBound k`. -/
theorem combine_due {seed : Nat → Nat} {s : State} (hI : Inv (Combine.main seed) s)
    (hq : quiescent (Combine.main seed) s = true) (hpc : s.pc = MainPc.acquire)
    (hk : s.next ≤ 15)
    (hstart : ∀ i st, s.status i = TaskState.running st → i ≤ 15 → st ≤ Combine.admitBound i) :
    ∃ i st, i < 20 ∧ s.status i = TaskState.running st ∧
      st + ((Combine.main seed).task i).work ≤ Combine.admitBound s.next := by
  have hsend := (quiescent_iff.1 hq) Action.send (mem_discreteActions.2 (by simp))
  have hfull : ¬ s.sem < 4 := by
    intro hlt
    simp [step, Combine.main, Combine.mainWith, Combine.maxConcurrency, hpc, hlt] at hsend
  have hsem := hI.sem_eq
  rw [if_pos (by rfl), hpc, if_neg (by decide)] at hsem
  have hcount : 4 ≤ countUpTo (fun i => (s.status i).holdsSlot) 20 := by
    have : s.runningCount (Combine.main seed) =
        countUpTo (fun i => (s.status i).holdsSlot) 20 := rfl
    omega
  have hlt_next : ∀ i, (s.status i).holdsSlot = true → i < s.next := by
    intro i hi
    by_contra hge
    have := (hI.pending i).2 (by omega)
    rw [this] at hi
    simp at hi
  have h4 : 4 ≤ s.next := by
    by_contra hlt
    have hb := below_count s.next (by omega)
    have : countUpTo (fun i => decide (i < s.next)) 20 <
        countUpTo (fun i => (s.status i).holdsSlot) 20 := by omega
    obtain ⟨i, _, h1, h2⟩ := countUpTo_pigeon this
    have := hlt_next i h1
    simp [this] at h2
  have hslow := slow_count s.next h4 hk
  have : countUpTo (Combine.slow s.next) 20 <
      countUpTo (fun i => (s.status i).holdsSlot) 20 := by omega
  obtain ⟨i, hi, h1, h2⟩ := countUpTo_pigeon this
  have hin := hlt_next i h1
  simp only [Combine.slow, hin, decide_True, Bool.true_and, Bool.or_eq_false_iff,
    decide_eq_false_iff_not, not_lt] at h2
  cases hst : s.status i with
  | running st =>
    refine ⟨i, st, hi, hst, ?_⟩
    have := hstart i st hst (by omega)
    have := combine_work_le seed i h2.1
    omega
  | returned b r => exact absurd hst (quiescent_no_returned hI hq i b r)
  | pending => rw [hst] at h1; simp at h1
  | released b r => rw [hst] at h1; simp at h1
  | completed b r => rw [hst] at h1; simp at h1

theorem combineInv_init (seed : Nat → Nat) : CombineInv (init (Combine.main seed)) := by
  refine ⟨Or.inl rfl, ?_, ?_, ?_, ?_, ?_⟩ <;> simp [init, Combine.admitBound]

/-- While no error is recorded in combine, a task that has returned left through
its timer, and returned `nil` unless it is task 15. -/
theorem combine_early_value {seed : Nat → Nat} {s : State}
    (hs : Reach (Combine.main seed) s) (hctx : s.ctxErr = none) {i : Nat} {b : Branch}
    {v : Option GoError} (hb : (s.status i).branch = some b)
    (hv : (s.status i).value = some v) :
    b = Branch.work ∧ v = if i = 15 then some (Combine.failure 15) else none := by
  obtain ⟨h1, h2, h3⟩ := combine_values (T := 6000) hs hb hv
  cases b with
  | work => exact ⟨rfl, h2 rfl⟩
  | done =>
    obtain ⟨f, c, _, hc, _⟩ := (reach_runInv hs).done_val i v hb hv
    rw [hctx] at hc; cases hc
  | timeout => exact absurd rfl h3

theorem combineInv_step {seed : Nat → Nat} {a : Action} {s s' : State}
    (hs : UReach (Combine.main seed) s) (hC : CombineInv s)
    (h : ustep (Combine.main seed) a s = some s') : CombineInv s' := by
  have hI := reach_inv hs.reach
  have hR := reach_runInv hs.reach
  have hU' := ureach_uInv (hs.usucc_state h)
  obtain ⟨c1, c2, c3, c4, c5, c6⟩ := hC
  have horigin : ∀ (j : Nat) (x : TaskState), (s.status j).isCompleted = false →
      s.err ≠ none →
      Function.update s.status j x 15 =
        TaskState.completed Branch.work (some (Combine.failure 15)) := by
    intro j x hj he
    exact update_of_completed (c2 he) hj
  cases a with
  | send =>
    obtain ⟨n, _, _, _, rfl⟩ := step_send_inv (ustep_step h)
    exact ⟨c1, c2, c3, c4, c5, c6⟩
  | go =>
    obtain ⟨hpc, rfl⟩ := step_go_inv (ustep_step h)
    have hp := (hI.pending s.next).2 (le_refl _)
    refine ⟨c1, fun he => horigin _ _ (by rw [hp]; rfl) he, c3, ?_, ?_, c6⟩
    · intro he
      refine forall_update (P := fun j t => ∀ st, t = TaskState.running st → j ≤ 15 →
        st ≤ Combine.admitBound j) (c4 he) ?_
      intro st h1 hle
      cases h1
      exact c5 he hle
    · intro he hle
      have := c5 he (by show s.next ≤ 15; have : s.next + 1 ≤ 15 := hle; omega)
      have := admitBound_mono s.next
      show s.now ≤ Combine.admitBound (s.next + 1)
      omega
  | work i =>
    obtain ⟨st, hst, _, rfl⟩ := step_work_inv (ustep_step h)
    refine ⟨c1, fun he => horigin _ _ (by rw [hst]; rfl) he, c3, ?_, c5, c6⟩
    intro he
    exact forall_update (P := fun j t => ∀ st, t = TaskState.running st → j ≤ 15 →
      st ≤ Combine.admitBound j) (c4 he) (by intro st h1; cases h1)
  | done i =>
    obtain ⟨st, f, c, hst, _, hc, rfl⟩ := step_done_inv (ustep_step h)
    have he : s.err ≠ none := by
      intro he
      rw [c3 he] at hc; cases hc
    exact ⟨c1, fun _ => horigin _ _ (by rw [hst]; rfl) he, fun h0 => absurd h0 he,
      fun h0 => absurd h0 he, fun h0 => absurd h0 he, fun h0 => absurd h0 he⟩
  | timeout i =>
    obtain ⟨st, t, _, ht, _, rfl⟩ := step_timeout_inv (ustep_step h)
    cases ht
  | release i =>
    obtain ⟨b, r, hst, _, rfl⟩ := step_release_inv (ustep_step h)
    refine ⟨c1, fun he => horigin _ _ (by rw [hst]; rfl) he, c3, ?_, c5, c6⟩
    intro he
    exact forall_update (P := fun j t => ∀ st, t = TaskState.running st → j ≤ 15 →
      st ≤ Combine.admitBound j) (c4 he) (by intro st h1; cases h1)
  | report i =>
    obtain ⟨b, r, hst, _, rfl⟩ := step_report_inv (ustep_step h)
    have hcase : s.err = none ∨ s.err ≠ none := by
      by_cases h0 : s.err = none
      · exact Or.inl h0
      · exact Or.inr h0
    rcases hcase with he | hne
    swap
    · have herr : (if s.err.isNone = true then r else s.err) = s.err := by
        have : s.err.isNone = false := by
          cases h0 : s.err with
          | none => exact absurd h0 hne
          | some e => rfl
        rw [this]; simp
      refine ⟨?_, ?_, ?_, ?_, ?_, ?_⟩
      · show (if s.err.isNone = true then r else s.err) = none ∨ _
        rw [herr]; exact c1
      · intro _
        exact horigin _ _ (by rw [hst]; rfl) hne
      · intro h0
        change (if s.err.isNone = true then r else s.err) = none at h0
        rw [herr] at h0; exact absurd h0 hne
      · intro h0
        change (if s.err.isNone = true then r else s.err) = none at h0
        rw [herr] at h0; exact absurd h0 hne
      · intro h0
        change (if s.err.isNone = true then r else s.err) = none at h0
        rw [herr] at h0; exact absurd h0 hne
      · intro h0
        change (if s.err.isNone = true then r else s.err) = none at h0
        rw [herr] at h0; exact absurd h0 hne
    · have herr : (if s.err.isNone = true then r else s.err) = r := by rw [he]; simp
      obtain ⟨hb, hv⟩ := combine_early_value hs.reach (c3 he) (i := i) (b := b) (v := r)
        (by rw [hst]; rfl) (by rw [hst]; rfl)
      subst hb
      by_cases h15 : i = 15
      · subst h15
        rw [if_pos rfl] at hv
        subst hv
        have hne' : (if s.err.isNone = true then some (Combine.failure 15) else s.err) ≠
            none := by rw [herr]; simp
        refine ⟨?_, ?_, fun h0 => absurd h0 hne', fun h0 => absurd h0 hne',
          fun h0 => absurd h0 hne', fun h0 => absurd h0 hne'⟩
        · right; exact herr
        · intro _
          show Function.update s.status 15 _ 15 = _
          simp
      · rw [if_neg h15] at hv
        subst hv
        refine ⟨?_, ?_, ?_, ?_, ?_, ?_⟩
        · left; exact herr.trans rfl
        · intro h0
          exact absurd (herr.trans rfl) h0
        · intro _
          show (if (none : Option GoError).isSome = true ∧ s.err.isNone = true ∧
            s.ctxErr.isNone = true then some GoError.canceled else s.ctxErr) = none
          rw [if_neg (by simp)]
          exact c3 he
        · intro _
          exact forall_update (P := fun j t => ∀ st, t = TaskState.running st → j ≤ 15 →
            st ≤ Combine.admitBound j) (c4 he) (by intro st h1; cases h1)
        · intro _; exact c5 he
        · intro _; exact c6 he
  | deadline =>
    obtain ⟨t, ht, hle, hc, _, rfl⟩ := step_deadline_inv (ustep_step h)
    exfalso
    have ht6 : t = 6000 := by
      simp only [Combine.main, Combine.mainWith, Option.some.injEq] at ht
      exact ht.symm
    by_cases he : s.err = none
    · have := c6 he; omega
    · exact hR.err_ctx he hc
  | wait =>
    obtain ⟨hpc, hwg, rfl⟩ := step_wait_inv (ustep_step h)
    have hne : s.err ≠ none := by
      obtain ⟨b, v, hst⟩ := branch_of_completed
        (hI.all_completed_of_wait hpc hwg 15 (by show 15 < 20; decide))
      intro he
      obtain ⟨_, hv⟩ := combine_early_value hs.reach (c3 he) (i := 15) (b := b) (v := v)
        (by rw [hst]; rfl) (by rw [hst]; rfl)
      rw [if_pos rfl] at hv
      subst hv
      exact hR.completed_err 15 b _ hst he
    exact ⟨c1, c2, fun h0 => absurd h0 hne, fun h0 => absurd h0 hne,
      fun h0 => absurd h0 hne, fun h0 => absurd h0 hne⟩
  | tick d =>
    obtain ⟨hq, hdue, _, hres, rfl⟩ := ustep_tick_inv h
    have hhead : s.err = none → s.next ≤ 15 → s.now + d ≤ Combine.admitBound s.next := by
      intro he hk
      have hpc : s.pc = MainPc.acquire := by
        cases hpc : s.pc with
        | acquire => rfl
        | launch =>
          have := (quiescent_iff.1 hq) Action.go (mem_discreteActions.2 (by simp))
          simp [step, hpc] at this
        | wait =>
          have := hI.pc_wait hpc
          have h20 : (Combine.main seed).taskCount = 20 := rfl
          omega
        | exited r => simp [State.result, hpc] at hres
      obtain ⟨i, st, hi, hst, hle⟩ := combine_due hI hq hpc hk (c4 he)
      have := hdue _ (mem_dues.2 (Or.inr ⟨i, st, hi, hst, Or.inl rfl⟩))
      omega
    refine ⟨c1, c2, c3, c4, hhead, ?_⟩
    intro he
    show s.now + d ≤ 3896
    by_cases hk : s.next ≤ 15
    · have := hhead he hk
      have := admitBound_le s.next
      omega
    · have hnp : s.status 15 ≠ TaskState.pending := by
        intro hp
        have := (hI.pending 15).1 hp
        omega
      cases hst : s.status 15 with
      | pending => exact absurd hst hnp
      | running st =>
        have h1 := c4 he 15 st hst (le_refl _)
        have h2 := hU'.run_work 15 st hst
        have h3 : s.now + d ≤ st + ((Combine.main seed).task 15).work := h2
        rw [combine_work_15] at h3
        have : Combine.admitBound 15 = 3596 := rfl
        omega
      | returned b r => exact absurd hst (quiescent_no_returned hI hq 15 b r)
      | released b r => exact absurd hst (quiescent_no_released hI hq 15 b r)
      | completed b r =>
        exfalso
        obtain ⟨_, hv⟩ := combine_early_value hs.reach (c3 he) (i := 15) (b := b) (v := r)
          (by rw [hst]; rfl) (by rw [hst]; rfl)
        rw [if_pos rfl] at hv
        subst hv
        exact hR.completed_err 15 b _ hst he

theorem ureach_combineInv {seed : Nat → Nat} {s : State} (h : UReach (Combine.main seed) s) :
    CombineInv s :=
  ureach_induction (Combine.main seed) CombineInv (combineInv_init seed)
    (fun _ _ _ hr hC hst => combineInv_step hr hC hst) s h

theorem branch_of_value {t : TaskState} {v : Option GoError} (h : t.value = some v) :
    ∃ b, t.branch = some b := by
  cases t with
  | pending => cases h
  | running st => cases h
  | returned b' v => exact ⟨b', rfl⟩
  | released b' v => exact ⟨b', rfl⟩
  | completed b' v => exact ⟨b', rfl⟩

/-- C9: in combine under the ideal clock, for every choice of the random
durations: as long as task 15 has not failed, no error is recorded, the group
context is not done and the clock is at most 3896ms, before the 6000ms
deadline; the deadline never expires; the timer case of task 15 runs with
nothing recorded and returns "任务 15 执行失败"; any other task returns a non-nil
error only after that failure has been recorded; the program always reaches the
return of `Wait`, and whenever `Wait` returns, task 15 has been admitted and has
failed through its timer and the value returned is exactly the error
"任务 15 执行失败". -/
theorem combine_returns_task15_failure :
    Combine.failure 15 = GoError.errorf "任务 15 执行失败" ∧
    (∀ (seed : Nat → Nat) (s : State), UReach (Combine.main seed) s →
      (s.err = none → s.ctxErr = none ∧ s.now ≤ 3896 ∧ s.now < 6000) ∧
      step (Combine.main seed) Action.deadline s = none ∧
      (∀ s', ustep (Combine.main seed) (Action.work 15) s = some s' →
        s.now < 6000 ∧ s.err = none ∧ s.ctxErr = none ∧
        s'.status 15 = TaskState.returned Branch.work (some (Combine.failure 15))) ∧
      (∀ i e, i ≠ 15 → (s.status i).value = some (some e) →
        s.err = some (Combine.failure 15) ∧
        s.status 15 = TaskState.completed Branch.work (some (Combine.failure 15))) ∧
      (∀ r, s.pc = MainPc.exited r → r = some (Combine.failure 15) ∧
        s.status 15 = TaskState.completed Branch.work (some (Combine.failure 15)))) ∧
    (∀ (seed : Nat → Nat), AlwaysReturns (Combine.main seed) ∧ ∃ acts s,
      uexec (Combine.main seed) (init (Combine.main seed)) acts = some s ∧
      s.pc = MainPc.exited (some (Combine.failure 15))) := by
  have hres : ∀ (seed : Nat → Nat) (s : State), UReach (Combine.main seed) s →
      ∀ r, s.pc = MainPc.exited r → r = some (Combine.failure 15) ∧
        s.status 15 = TaskState.completed Branch.work (some (Combine.failure 15)) := by
    intro seed s hs r hpc
    have hC := ureach_combineInv hs
    obtain ⟨e, he, _⟩ := combine_result (T := 6000) hs.reach hpc
    have hr : r = s.err := (reach_ordInv hs.reach).exit_eq r hpc
    rcases hC.err_cases with h0 | h0
    · rw [hr, h0] at he; cases he
    · exact ⟨by rw [hr, h0], hC.origin (by rw [h0]; simp)⟩
  refine ⟨by decide, ?_, ?_⟩
  · intro seed s hs
    have hC := ureach_combineInv hs
    have hR := reach_runInv hs.reach
    refine ⟨?_, ?_, ?_, ?_, hres seed s hs⟩
    · intro he
      have := hC.time he
      exact ⟨hC.ctx he, this, by omega⟩
    · cases hd : step (Combine.main seed) Action.deadline s with
      | none => rfl
      | some s' =>
        exfalso
        obtain ⟨t, ht, hle, hc, _, _⟩ := step_deadline_inv hd
        have ht6 : t = 6000 := by
          simp only [Combine.main, Combine.mainWith, Option.some.injEq] at ht
          exact ht.symm
        by_cases he : s.err = none
        · have := hC.time he; omega
        · exact hR.err_ctx he hc
    · intro s' hst
      obtain ⟨st, hrun, _, rfl⟩ := step_work_inv (ustep_step hst)
      have he : s.err = none := by
        by_contra hne
        have := hC.origin hne
        rw [hrun] at this
        cases this
      have := hC.time he
      refine ⟨by omega, he, hC.ctx he, ?_⟩
      show Function.update s.status 15 _ 15 = _
      rw [Function.update_same]
      rfl
    · intro i e hi hv
      obtain ⟨b, hb⟩ := branch_of_value hv
      obtain ⟨h1, h2, h3⟩ := combine_values (T := 6000) hs.reach hb hv
      have hne : s.err ≠ none := by
        intro he
        cases b with
        | work =>
          have := h2 rfl
          rw [if_neg hi] at this
          cases this
        | done =>
          obtain ⟨f, c, _, hc, _⟩ := hR.done_val i _ hb hv
          rw [hC.ctx he] at hc
          cases hc
        | timeout => exact h3 rfl
      refine ⟨?_, hC.origin hne⟩
      rcases hC.err_cases with h0 | h0
      · exact absurd h0 hne
      · exact h0
  · intro seed
    have hcap : (Combine.main seed).capacity ≠ some 0 := by
      simp [Combine.main, Combine.mainWith, Combine.maxConcurrency]
    obtain ⟨acts, s, he, hr⟩ := wait_returns hcap (init _) ⟨[], rfl⟩
    obtain ⟨r, hpc⟩ := result_exited hr
    have := (hres seed s ⟨acts, he⟩ r hpc).1
    subst this
    exact ⟨alwaysReturns_of_capacity hcap, acts, s, he, hpc⟩

/-- Witness for C9: the run of combine with `zeroSeed` ends at 3100ms with `Wait`
returning the failure of task 15. -/
theorem combine_returns_task15_failure_witness :
    ∃ s, uexec (Combine.main zeroSeed) (init (Combine.main zeroSeed))
        (combineUntilFailure ++ combineAfterFailure) = some s ∧
      s.now = 3100 ∧ s.pc = MainPc.exited (some (GoError.errorf "任务 15 执行失败")) := by
  obtain ⟨s, h, hf⟩ := ucheckAfter_spec
    (by decide : ucheckAfter (Combine.main zeroSeed)
      (combineUntilFailure ++ combineAfterFailure)
      (fun s => decide (s.now = 3100 ∧ s.result ≠ none)) = true)
  simp only [decide_eq_true_eq] at hf
  obtain ⟨r, hpc⟩ := result_exited hf.2
  have hr := ((combine_returns_task15_failure.2.1 zeroSeed s ⟨_, h⟩).2.2.2.2 r hpc).1
  rw [hr, combine_returns_task15_failure.1] at hpc
  exact ⟨s, h, hf.1, hpc⟩

/-! ## Concrete runs of the programs -/

/-- Witness for C2: in the run of combine with `zeroSeed`, when `Wait` returns
the occupancy is 0 and the 20 sends are matched by 20 receives, one per task. -/
theorem release_pairing_witness :
    ∃ s, exec (Combine.main zeroSeed) (init (Combine.main zeroSeed))
        (combineUntilFailure ++ combineAfterFailure) = some s ∧
      s.pc = MainPc.exited (some (Combine.failure 15)) ∧ s.sem = 0 ∧
      acquires (combineUntilFailure ++ combineAfterFailure) = 20 ∧
      releases (combineUntilFailure ++ combineAfterFailure) = 20 ∧
      releasesOf 15 (combineUntilFailure ++ combineAfterFailure) = 1 := by
  obtain ⟨s, h, hf⟩ := checkAfter_spec
    (by decide : checkAfter (Combine.main zeroSeed)
      (combineUntilFailure ++ combineAfterFailure)
      (fun s => decide (s.pc = MainPc.exited (some (Combine.failure 15)))) = true)
  simp only [decide_eq_true_eq] at hf
  obtain ⟨h1, h2, h3, h4, _⟩ := release_pairing.1 (Combine.main zeroSeed) 4 rfl
    (combineUntilFailure ++ combineAfterFailure) s _ h hf
  exact ⟨s, h, hf, h1, h2, h3.trans h2, (h4 15 (by decide)).1⟩

/-- Witness for C3: in the run of errorgroup-base, `Wait` returns the error of
`fetchUserInfo`, the first non-nil value in completion order; in the run of
channel-base with `zeroSeed` it returns `nil`. -/
theorem first_failure_wins_witness :
    (∃ s, exec ErrorgroupBase.main (init ErrorgroupBase.main)
        (errorgroupUntilFailure ++ errorgroupRest) = some s ∧
      s.pc = MainPc.exited (some (GoError.errorf "获取用户信息失败")) ∧
      s.order.map Prod.snd =
        [some (GoError.errorf "获取用户信息失败"), some GoError.canceled, none] ∧
      some (GoError.errorf "获取用户信息失败") = firstError (s.order.map Prod.snd)) ∧
    (∃ s, exec (ChannelBase.main zeroSeed) (init (ChannelBase.main zeroSeed)) channelRun =
        some s ∧
      s.now = 1000 ∧ s.pc = MainPc.exited none) := by
  constructor
  swap
  · obtain ⟨s, h, hf⟩ := checkAfter_spec
      (by decide : checkAfter (ChannelBase.main zeroSeed) channelRun
        (fun s => decide (s.now = 1000 ∧ s.result ≠ none)) = true)
    simp only [decide_eq_true_eq] at hf
    obtain ⟨r, hpc⟩ := result_exited hf.2
    have hr := first_failure_wins.2.2.2.2.1 zeroSeed s r ⟨_, h⟩ hpc
    rw [hr] at hpc
    exact ⟨s, h, hf.1, hpc⟩
  obtain ⟨s, h, hf⟩ := checkAfter_spec
    (by decide : checkAfter ErrorgroupBase.main (errorgroupUntilFailure ++ errorgroupRest)
      (fun s => decide (s.pc = MainPc.exited (some (GoError.errorf "获取用户信息失败")) ∧
        s.order.map Prod.snd =
          [some (GoError.errorf "获取用户信息失败"), some GoError.canceled, none])) = true)
  simp only [decide_eq_true_eq] at hf
  exact ⟨s, h, hf.1, hf.2, (first_failure_wins.1 ErrorgroupBase.main s _ ⟨_, h⟩ hf.1).1⟩

/-- Witness for C4: in the run of errorgroup-base, when `Wait` returns the clock
is at 2000ms and `fetchProductInfo` has completed. -/
theorem wait_joins_all_witness :
    ∃ s, exec ErrorgroupBase.main (init ErrorgroupBase.main)
        (errorgroupUntilFailure ++ errorgroupRest) = some s ∧
      s.pc = MainPc.exited (some (GoError.errorf "获取用户信息失败")) ∧
      s.now = 2000 ∧ 2000 ≤ s.now ∧ (s.status 1).isCompleted = true := by
  obtain ⟨s, h, hf⟩ := checkAfter_spec
    (by decide : checkAfter ErrorgroupBase.main (errorgroupUntilFailure ++ errorgroupRest)
      (fun s => decide (s.pc = MainPc.exited (some (GoError.errorf "获取用户信息失败")) ∧
        s.now = 2000)) = true)
  simp only [decide_eq_true_eq] at hf
  exact ⟨s, h, hf.1, hf.2, wait_joins_all.2.2.1 s _ ⟨_, h⟩ hf.1,
    wait_joins_all.1 ErrorgroupBase.main s _ ⟨_, h⟩ hf.1 1 (by decide)⟩

/-- Witness for C10: in the run of combine-with-isolate-cancel, `wg.Wait` returns
at 6000ms; task 4 (index 3) left through its timeout and task 1 (index 0) through
its timer. -/
theorem isolate_outcomes_witness :
    ∃ s, uexec IsolateCancel.main (init IsolateCancel.main) isolateRun = some s ∧
      s.result = some none ∧ s.now = 6000 ∧
      (s.status 3).branch = some Branch.timeout ∧
      (s.status 0).branch = some Branch.work := by
  obtain ⟨s, h, hf⟩ := ucheckAfter_spec
    (by decide : ucheckAfter IsolateCancel.main isolateRun
      (fun s => decide (s.result = some none ∧ s.now = 6000 ∧
        (s.status 3).branch.isSome = true ∧ (s.status 0).branch.isSome = true)) = true)
  simp only [decide_eq_true_eq] at hf
  obtain ⟨b₃, h₃⟩ := Option.isSome_iff_exists.1 hf.2.2.1
  obtain ⟨b₀, h₀⟩ := Option.isSome_iff_exists.1 hf.2.2.2
  have k₃ := (isolate_outcomes.1 s ⟨_, h⟩ 3 b₃ (by decide) h₃).1.2 (Or.inl rfl)
  have k₀ := (isolate_outcomes.1 s ⟨_, h⟩ 0 b₀ (by decide) h₀).2.2 (by decide)
  rw [k₃] at h₃
  rw [k₀] at h₀
  exact ⟨s, h, hf.1, hf.2.1, h₃, h₀⟩


end LearnErrgroup
